import Mathlib

/-!
Shallow embedding of the `dawg` package (files `dawg.go`, `node.go`).

Go values are embedded as follows:
* Go strings (byte sequences) are `List Nat` of byte values.
* A `Node`'s byte-keyed child map `C map[byte]*Node` is an association list
  `List (Nat × Nat)` from label to child identity, kept sorted by strictly
  increasing label (the canonical representation of the unordered Go map;
  everywhere the Go code observes an order it sorts the keys first).
* Pointer identity is node identity: the heap is a store mapping the node
  `ID` to the node record, and edges hold the target `ID`.
* The Go `panic` on out-of-order insertion, and the internal size assertion
  in `key`, are `Option` failures.
* The unbounded loops of the Go code (the completion loop of `LookupPrefix`
  and the breadth-first loop of `Flatten`) take explicit fuel; running out of
  fuel yields the same observable as the Go loop not terminating.
-/

namespace DawgGo

/-- A DAWG node (Go `Node`): terminal flag `F` and byte-labeled children `C`
as a (label, child id) list sorted by strictly increasing label.  The Go `ID`
field is the store key, not part of the record. -/
structure Node where
  F : Bool
  C : List (Nat × Nat)
deriving Repr, DecidableEq

/-- Lookup in a child map (Go `curr.C[b]`). -/
def childFind : List (Nat × Nat) → Nat → Option Nat
  | [], _ => none
  | (a, v) :: rest, b => if a = b then some v else childFind rest b

/-- Update of a child map (Go `curr.C[b] = next`), keeping labels sorted. -/
def childIns : List (Nat × Nat) → Nat → Nat → List (Nat × Nat)
  | [], b, v => [(b, v)]
  | (a, w) :: rest, b, v =>
    if b < a then (b, v) :: (a, w) :: rest
    else if b = a then (b, v) :: rest
    else (a, w) :: childIns rest b v

/-- The heap: node identities to node records.  Go's root is identity `0`. -/
abbrev Store := List (Nat × Node)

/-- Dereference an identity (missing identities give the zero `Node`,
matching the Go zero value; valid states never dereference a missing id). -/
def findN : Store → Nat → Node
  | [], _ => ⟨false, []⟩
  | (i, n) :: rest, j => if i = j then n else findN rest j

/-- Write a record at an identity. -/
def setN : Store → Nat → Node → Store
  | [], i, n => [(i, n)]
  | (j, m) :: rest, i, n => if j = i then (i, n) :: rest else (j, m) :: setN rest i n

/-- Go string `<` on byte sequences (lexicographic). -/
def ltW : List Nat → List Nat → Bool
  | [], [] => false
  | [], _ :: _ => true
  | _ :: _, [] => false
  | a :: as, b :: bs => if a < b then true else if a = b then ltW as bs else false

/-- Go string `<=` on byte sequences (lexicographic). -/
def leW : List Nat → List Nat → Bool
  | [], _ => true
  | _ :: _, [] => false
  | a :: as, b :: bs => if a < b then true else if a = b then leW as bs else false

/-- Go `lcpLength`: length of the longest common prefix. -/
def lcpLength : List Nat → List Nat → Nat
  | a :: as, b :: bs => if a = b then lcpLength as bs + 1 else 0
  | _, _ => 0

/-- ASCII decimal digits of `n`, most significant first
(Go `strconv.AppendInt` for nonnegative input), via structural fuel. -/
def decDigitsAux : Nat → Nat → List Nat
  | 0, n => [48 + n]
  | fuel + 1, n => if n < 10 then [48 + n] else decDigitsAux fuel (n / 10) ++ [48 + n % 10]

/-- ASCII decimal digits of `n` (fuel `n` always suffices). -/
def decDigits (n : Nat) : List Nat := decDigitsAux n n

/-- Go `numDigits` via structural fuel. -/
def numDigitsAux : Nat → Nat → Nat
  | 0, _ => 1
  | fuel + 1, n => if n ≤ 9 then 1 else numDigitsAux fuel (n / 10) + 1

/-- Go `numDigits`: count of decimal digits. -/
def numDigits (n : Nat) : Nat := numDigitsAux n n

/-- Go `(*Node).key` without its internal size assertion: the signature
byte string `flag '_' labels ('_' childId)*` with labels in ascending order
(`48`/`49` are `'0'`/`'1'`, `95` is `'_'`). -/
def keyGo (n : Node) : List Nat :=
  (if n.F then [49] else [48]) ++ [95]
    ++ n.C.map (·.1)
    ++ (n.C.map (fun p => 95 :: decDigits p.2)).flatten

/-- Go's expected key size (`size` in `key`). -/
def keySize (n : Node) : Nat :=
  2 + (n.C.map (fun p => numDigits p.2 + 1)).sum + n.C.length

/-- Go `(*Node).key` with its size assertion: `none` is the Go panic. -/
def keyChecked (n : Node) : Option (List Nat) :=
  if (keyGo n).length = keySize n then some (keyGo n) else none

/-- The builder state (Go `DAWG`).  `unchecked` keeps the most recently
pushed `(parent, child, byte)` triple first; `minimized` is the signature
registry with the most recently added binding first. -/
structure DAWG where
  nodes : Store
  prevWord : List Nat
  seq : Nat
  unchecked : List (Nat × Nat × Nat)
  minimized : List (List Nat × Nat)
deriving Repr, DecidableEq

/-- The zero `DAWG`: just the root node, identity `0`. -/
def initD : DAWG := ⟨[(0, ⟨false, []⟩)], [], 0, [], []⟩

/-- Registry lookup (Go `d.minimized[k]`). -/
def assocFind : List (List Nat × Nat) → List Nat → Option Nat
  | [], _ => none
  | (k, v) :: rest, k' => if k = k' then some v else assocFind rest k'

/-- One pop of Go `minimize`'s loop on a nonempty register, using the
unchecked key (the assertion is handled by `minimizeStepsO`). -/
def minStep (d : DAWG) (p c b : Nat) (rest : List (Nat × Nat × Nat)) : DAWG :=
  let k := keyGo (findN d.nodes c)
  match assocFind d.minimized k with
  | some m =>
    { d with
      nodes := setN d.nodes p ⟨(findN d.nodes p).F, childIns (findN d.nodes p).C b m⟩,
      unchecked := rest }
  | none => { d with minimized := (k, c) :: d.minimized, unchecked := rest }

/-- `n` pops of Go `minimize`'s loop (assertion-free form). -/
def minimizeSteps : Nat → DAWG → DAWG
  | 0, d => d
  | n + 1, d =>
    match d.unchecked with
    | [] => d
    | (p, c, b) :: rest => minimizeSteps n (minStep d p c b rest)

/-- Go `(*DAWG).minimize(to)` (assertion-free form). -/
def minimizeP (d : DAWG) (lvl : Nat) : DAWG := minimizeSteps (d.unchecked.length - lvl) d

/-- `n` pops of Go `minimize`'s loop with the key size assertion. -/
def minimizeStepsO : Nat → DAWG → Option DAWG
  | 0, d => some d
  | n + 1, d =>
    match d.unchecked with
    | [] => some d
    | (p, c, b) :: rest =>
      match keyChecked (findN d.nodes c) with
      | none => none
      | some _ => minimizeStepsO n (minStep d p c b rest)

/-- Go `(*DAWG).minimize(to)` with the key size assertion. -/
def minimizeO (d : DAWG) (lvl : Nat) : Option DAWG :=
  minimizeStepsO (d.unchecked.length - lvl) d

/-- The node-appending loop of Go `Insert` (one iteration per remaining
byte after the common prefix), then `curr.F = true`. -/
def extendLoop : DAWG → Nat → List Nat → DAWG
  | d, curr, [] =>
    { d with nodes := setN d.nodes curr ⟨true, (findN d.nodes curr).C⟩ }
  | d, curr, b :: bs =>
    let next := d.seq + 1
    let pn := findN d.nodes curr
    extendLoop
      { d with
        seq := next,
        nodes := setN (setN d.nodes next ⟨false, []⟩) curr ⟨pn.F, childIns pn.C b next⟩,
        unchecked := (curr, next, b) :: d.unchecked }
      next bs

/-- The child identity of the deepest unchecked entry (the node `Insert`
resumes appending from); the root when the unchecked chain is empty. -/
def headChild : List (Nat × Nat × Nat) → Nat
  | [] => 0
  | (_, c, _) :: _ => c

/-- Go `Insert` after the order check and minimization (assertion-free). -/
def insertTail (d : DAWG) (word : List Nat) (lcp : Nat) : DAWG :=
  let d2 : DAWG := { d with prevWord := word }
  let curr : Nat :=
    match d2.unchecked with
    | [] => 0
    | (_, c, _) :: _ => c
  extendLoop d2 curr (word.drop lcp)

/-- Go `(*DAWG).Insert` without the key size assertion; `none` is the
ordering-violation panic. -/
def insertP (d : DAWG) (word : List Nat) : Option DAWG :=
  if leW word d.prevWord then none
  else
    let lcp := lcpLength word d.prevWord
    some (insertTail (minimizeP d lcp) word lcp)

/-- Go `(*DAWG).Insert`; `none` is a panic (ordering violation, or the
key size assertion inside `minimize`). -/
def insertGo (d : DAWG) (word : List Nat) : Option DAWG :=
  if leW word d.prevWord then none
  else
    let lcp := lcpLength word d.prevWord
    (minimizeO d lcp).map fun d1 => insertTail d1 word lcp

/-- Go `(*DAWG).Finish` (assertion-free form). -/
def finishP (d : DAWG) : DAWG := minimizeP d 0

/-- Go `(*DAWG).Finish`. -/
def finishO (d : DAWG) : Option DAWG := minimizeO d 0

/-- Walk from node `i` reading `w`, as in the loop of Go `Lookup`. -/
def lookupFrom (s : Store) : Nat → List Nat → Bool
  | i, [] => (findN s i).F
  | i, b :: bs =>
    match childFind (findN s i).C b with
    | none => false
    | some j => lookupFrom s j bs

/-- Go `(*DAWG).Lookup`. -/
def lookupGo (d : DAWG) (w : List Nat) : Bool := lookupFrom d.nodes 0 w

/-- Follow edges from node `i` along the bytes of `w`; the node reached. -/
def walkFrom (s : Store) : Nat → List Nat → Option Nat
  | i, [] => some i
  | i, b :: bs =>
    match childFind (findN s i).C b with
    | none => none
    | some j => walkFrom s j bs

/-- The completion loop of Go `LookupPrefix` (`for !curr.F { ... }`), with
fuel.  The Go range over the child map picks an unspecified entry; this
embedding deterministically picks the lowest label.  On a childless
non-terminal node the Go loop spins forever; here it burns fuel unchanged,
so `none` for every fuel is exactly the Go non-termination. -/
def completeLoop (s : Store) : Nat → Nat → List Nat → Option (List Nat)
  | 0, _, _ => none
  | fuel + 1, i, acc =>
    let n := findN s i
    if n.F then some acc.reverse
    else
      match n.C with
      | [] => completeLoop s fuel i acc
      | (b, j) :: _ => completeLoop s fuel j (b :: acc)

/-- Go `(*DAWG).LookupPrefix` with fuel for its completion loop.
`none` means the completion loop did not finish within the fuel. -/
def lookupPfxGo (fuel : Nat) (d : DAWG) (pfx : List Nat) : Option (List Nat × Bool) :=
  match walkFrom d.nodes 0 pfx with
  | none => some ([], false)
  | some i => (completeLoop d.nodes fuel i []).map fun buf => (buf, true)

/-- Go `ArrayNode`. -/
structure ArrayNode where
  Index : Nat
  B : Nat
  F : Bool
  EOL : Bool
deriving Repr, DecidableEq

/-- The mutable locals of Go `Flatten`'s breadth-first loop.  `queue` is the
not yet processed tail of Go's growing `nodes` slice. -/
structure FlatState where
  result : List ArrayNode
  tos : List Nat
  hasChildren : List Bool
  seen : List Nat
  indexes : List (Nat × Nat)
  queue : List Nat
  index : Nat
deriving Repr, DecidableEq

/-- The inner per-edge loop of Go `Flatten` over one node's sorted children
(`EOL` is true on the last child). -/
def emitChildren (s : Store) : FlatState → List (Nat × Nat) → FlatState
  | st, [] => st
  | st, (b, c) :: rest =>
    let cn := findN s c
    emitChildren s
      { st with
        queue := if st.seen.contains c then st.queue else st.queue ++ [c],
        seen := if st.seen.contains c then st.seen else c :: st.seen,
        tos := st.tos ++ [c],
        hasChildren := st.hasChildren ++ [decide (cn.C ≠ [])],
        result := st.result ++ [⟨0, b, cn.F, rest.isEmpty⟩],
        index := st.index + 1 }
      rest

/-- The outer breadth-first loop of Go `Flatten`, with fuel. -/
def flatLoop (s : Store) : Nat → FlatState → FlatState
  | 0, st => st
  | fuel + 1, st =>
    match st.queue with
    | [] => st
    | nid :: rest =>
      flatLoop s fuel
        (emitChildren s
          { st with queue := rest, indexes := (nid, st.index) :: st.indexes }
          (findN s nid).C)

/-- Go map read `indexes[to[i]]` (missing keys give `0`). -/
def idxFind : List (Nat × Nat) → Nat → Nat
  | [], _ => 0
  | (i, v) :: rest, j => if i = j then v else idxFind rest j

/-- The final patch loop of Go `Flatten` (`result[i].Index = indexes[to[i]]`
for entries whose target has children). -/
def patchResult (indexes : List (Nat × Nat)) :
    List ArrayNode → List Nat → List Bool → List ArrayNode
  | e :: es, t :: ts, h :: hs =>
    (if h then { e with Index := idxFind indexes t } else e) :: patchResult indexes es ts hs
  | es, _, _ => es

/-- Go `(*DAWG).Flatten`.  The fuel `d.nodes.length + 1` covers every state
whose edges stay inside the store (each node is queued at most once). -/
def flattenGo (d : DAWG) : List ArrayNode :=
  let st := flatLoop d.nodes (d.nodes.length + 1) ⟨[], [], [], [], [], [0], 0⟩
  patchResult st.indexes st.result st.tos st.hasChildren

/-- Run `insertGo` over a list of words, left to right. -/
def buildFrom (d : DAWG) : List (List Nat) → Option DAWG
  | [] => some d
  | w :: ws =>
    match insertGo d w with
    | none => none
    | some d2 => buildFrom d2 ws

/-- Build a `DAWG` by inserting the given words in the given order. -/
def buildList (ws : List (List Nat)) : Option DAWG := buildFrom initD ws

/-- Build and finish. -/
def buildFinish (ws : List (List Nat)) : Option DAWG :=
  (buildList ws).bind finishO

/-- Modelled from the spec: the consumer-side scan step of the flattened
format, absent from the repository — "scan entries from a node's first-edge
index until the matching label or the end-of-list flag". -/
def arrFind (arr : List ArrayNode) : Nat → Nat → Nat → Option ArrayNode
  | 0, _, _ => none
  | fuel + 1, pos, b =>
    match arr.get? pos with
    | none => none
    | some e =>
      if e.B = b then some e
      else if e.EOL then none
      else arrFind arr fuel (pos + 1) b

/-- Modelled from the spec: array-based traversal of the flattened format,
absent from the repository — per byte, scan the current node's entry block
for the label, "then jump to that entry's index for the next step"; a child
index of `0` marks a leaf target ("0/absent if the target is a leaf").  The
format carries no root terminal flag, so the empty word is not a member. -/
def arrLookupFrom (arr : List ArrayNode) : Nat → List Nat → Bool
  | _, [] => false
  | pos, b :: bs =>
    match arrFind arr (arr.length + 1) pos b with
    | none => false
    | some e =>
      match bs with
      | [] => e.F
      | _ :: _ => if e.Index = 0 then false else arrLookupFrom arr e.Index bs

/-- Modelled from the spec: array-based membership, starting at entry `0`
("entry 0 corresponds to the root's first outgoing edge"). -/
def arrLookup (arr : List ArrayNode) (w : List Nat) : Bool := arrLookupFrom arr 0 w

/-- The seen/queue update of the breadth-first discovery, one child at a
time in edge order (as both `Flatten` and `PrintDOT` do it). -/
def pushChildren : List Nat → List Nat → List Nat → List Nat × List Nat
  | seen, queue, [] => (seen, queue)
  | seen, queue, c :: cs =>
    if seen.contains c then pushChildren seen queue cs
    else pushChildren (c :: seen) (queue ++ [c]) cs

/-- Reference breadth-first order of node identities from the root: a plain
FIFO queue with a seen set, no entry bookkeeping. -/
def bfsAux (s : Store) : Nat → List Nat → List Nat → List Nat → List Nat
  | 0, _, _, acc => acc.reverse
  | fuel + 1, seen, queue, acc =>
    match queue with
    | [] => acc.reverse
    | nid :: rest =>
      let sq := pushChildren seen rest ((findN s nid).C.map (·.2))
      bfsAux s fuel sq.1 sq.2 (nid :: acc)

/-- Reference breadth-first order for a `DAWG`. -/
def bfsOrder (d : DAWG) : List Nat := bfsAux d.nodes (d.nodes.length + 1) [] [0] []

/-- Total outgoing-edge count over a list of node identities. -/
def countEdges (s : Store) (order : List Nat) : Nat :=
  (order.map (fun i => (findN s i).C.length)).sum

/-- Position, in the flattened sequence, of the first entry emitted for
`nid`: the edges of all nodes visited before it. -/
def startIndex (s : Store) (order : List Nat) (nid : Nat) : Nat :=
  countEdges s (order.takeWhile (fun i => i ≠ nid))

/-- Map over a list, telling the function whether it is at the last item. -/
def mapLast {α β : Type} (f : α → Bool → β) : List α → List β
  | [] => []
  | [a] => [f a true]
  | a :: rest => f a false :: mapLast f rest

/-- The entry the spec prescribes for one edge `(b, c)`: the target's
terminal flag, end-of-list on the node's last edge, and the target's
first-edge position, `0` for a leaf target. -/
def entryFor (s : Store) (order : List Nat) (b c : Nat) (isLast : Bool) : ArrayNode :=
  ⟨if (findN s c).C = [] then 0 else startIndex s order c, b, (findN s c).F, isLast⟩

/-- The block of entries for one node: one entry per outgoing edge, in
ascending label order. -/
def blockFor (s : Store) (order : List Nat) (nid : Nat) : List ArrayNode :=
  mapLast (fun p isLast => entryFor s order p.1 p.2 isLast) (findN s nid).C

/-- The flattened sequence the spec prescribes: the per-node blocks in
breadth-first order. -/
def specFlatten (s : Store) (order : List Nat) : List ArrayNode :=
  (order.map (blockFor s order)).flatten

/-- The entries of one node before the patch loop (`Index` still `0`). -/
def rawBlock (s : Store) (nid : Nat) : List ArrayNode :=
  mapLast (fun p isLast => ⟨0, p.1, (findN s p.2).F, isLast⟩) (findN s nid).C

/-- The unpatched result accumulated after processing the given nodes. -/
def rawFlat (s : Store) (ord : List Nat) : List ArrayNode :=
  (ord.map (rawBlock s)).flatten

/-- The `to` list accumulated after processing the given nodes. -/
def tosFlat (s : Store) (ord : List Nat) : List Nat :=
  (ord.map (fun nid => (findN s nid).C.map (·.2))).flatten

/-- The `hasChildren` list accumulated after processing the given nodes. -/
def hcFlat (s : Store) (ord : List Nat) : List Bool :=
  (ord.map (fun nid => (findN s nid).C.map
    (fun q => decide ((findN s q.2).C ≠ [])))).flatten

/-- The first-edge indexes recorded for the given nodes, oldest first,
starting from the given running entry count. -/
def idxForward (s : Store) : List Nat → Nat → List (Nat × Nat)
  | [], _ => []
  | nid :: rest, idx => (nid, idx) :: idxForward s rest (idx + (findN s nid).C.length)

/-- `i` is reachable from the root. -/
def Reach (s : Store) (i : Nat) : Prop := ∃ w, walkFrom s 0 w = some i

/-- No node reachable from the root lies on a nonempty edge cycle. -/
def Acyclic (s : Store) : Prop :=
  ∀ i, Reach s i → ∀ w, w ≠ [] → walkFrom s i w ≠ some i

/-- The completion loop of `LookupPrefix` never finishes on `pfx`, for any
amount of fuel: the Go call spins forever. -/
def lpDiverges (d : DAWG) (pfx : List Nat) : Prop :=
  ∀ fuel, lookupPfxGo fuel d pfx = none

/-- A child list is sorted by strictly increasing label (the well-formedness
of the canonical map representation). -/
@[reducible] def SortedC (l : List (Nat × Nat)) : Prop :=
  l.Pairwise (fun p q => p.1 < q.1)

/-- The id section of a key for a list of child identities. -/
def encL (ids : List Nat) : List Nat := (ids.map (fun i => 95 :: decDigits i)).flatten

/-- Shape of the id section of a key: `k` blocks, each an underscore
followed by at least one decimal digit. -/
def EncBlocks : Nat → List Nat → Prop
  | 0, e => e = []
  | k + 1, e =>
    ∃ ds rest, (∀ x ∈ ds, 48 ≤ x ∧ x ≤ 57) ∧ ds ≠ [] ∧
      e = 95 :: (ds ++ rest) ∧ EncBlocks k rest

/-- Numeric value of a list of ASCII digits. -/
def digitsVal (l : List Nat) : Nat := l.foldl (fun a d => a * 10 + (d - 48)) 0

/-- The shape of the builder's in-progress register.  Walking the reversed
`unchecked` list from `par` (the root) along the bytes of `prevWord`: each
entry `(p, c, b)` is an edge `p --b--> c` of the store, the labels at `p`
are bounded by `b`, and every other child of `p` is already registered (a
member of `S`).  At the endpoint: a quiescent endpoint (no bytes left) is
childless and terminal (or the root), an interrupted endpoint has only
registered children with labels bounded by the next byte. -/
def ChainShape (s : Store) (S : List Nat) : Nat → List (Nat × Nat × Nat) → List Nat → Prop
  | last, [], [] => (findN s last).C = [] ∧ ((findN s last).F = true ∨ last = 0)
  | last, [], pb :: _ =>
      (∀ q ∈ (findN s last).C, q.2 ∈ S ∧ q.1 ≤ pb) ∧
      ((findN s last).F = true ∨ (findN s last).C ≠ [] ∨ last = 0)
  | _, _ :: _, [] => False
  | par, (p, c, b) :: es, pb :: bs2 =>
      p = par ∧ b = pb ∧ childFind (findN s par).C pb = some c ∧
      (∀ q ∈ (findN s par).C, q.1 ≤ pb) ∧
      (∀ q ∈ (findN s par).C, q.2 ∈ S ∨ (q.1 = pb ∧ q.2 = c)) ∧
      ChainShape s S c es bs2

/-- The registry listed newest first: every entry's children are nodes
registered strictly earlier. -/
def RegOrd (s : Store) : List (List Nat × Nat) → Prop
  | [] => True
  | (_, m) :: rest => (∀ q ∈ (findN s m).C, q.2 ∈ rest.map (·.2)) ∧ RegOrd s rest

/-- The state invariant of the builder, for inserted word list `ws`. -/
structure Inv (ws : List (List Nat)) (d : DAWG) : Prop where
  lookup_mem : ∀ w, lookupFrom d.nodes 0 w = true ↔ w ∈ ws
  chain : ChainShape d.nodes (d.minimized.map (·.2)) 0 d.unchecked.reverse d.prevWord
  chain_incr : List.Chain' (· < ·) (0 :: (d.unchecked.reverse.map (fun e => e.2.1)))
  chain_not_reg : ∀ e ∈ d.unchecked, e.2.1 ∉ d.minimized.map (·.2)
  chain_dom : ∀ e ∈ d.unchecked, e.2.1 ∈ d.nodes.map (·.1)
  reg_key : ∀ kv ∈ d.minimized, keyGo (findN d.nodes kv.2) = kv.1
  reg_keys_nodup : (d.minimized.map (·.1)).Nodup
  reg_ids_nodup : (d.minimized.map (·.2)).Nodup
  reg_ord : RegOrd d.nodes d.minimized
  reg_term : ∀ m ∈ d.minimized.map (·.2),
    (findN d.nodes m).F = true ∨ (findN d.nodes m).C ≠ []
  root_not_reg : 0 ∉ d.minimized.map (·.2)
  rootF : (findN d.nodes 0).F = false
  root_children : ws ≠ [] → (findN d.nodes 0).C ≠ []
  sortedC : ∀ i, SortedC (findN d.nodes i).C
  seq_store : ∀ pr ∈ d.nodes, pr.1 ≤ d.seq ∧ ∀ q ∈ pr.2.C, q.2 ≤ d.seq
  seq_reg : ∀ kv ∈ d.minimized, kv.2 ≤ d.seq
  seq_chain : ∀ e ∈ d.unchecked, e.1 ≤ d.seq ∧ e.2.1 ≤ d.seq
  dom_root : 0 ∈ d.nodes.map (·.1)
  dom_edges : ∀ pr ∈ d.nodes, ∀ q ∈ pr.2.C, q.2 ∈ d.nodes.map (·.1)
  dom_reg : ∀ m ∈ d.minimized.map (·.2), m ∈ d.nodes.map (·.1)

/-- A state between complete `Insert` calls: the register covers exactly
the previous word. -/
def Quiescent (d : DAWG) : Prop := d.unchecked.length = d.prevWord.length

/-- The register entries created by the appending loop of `Insert`, in
creation order (shallowest first): fresh identities `seq+1, seq+2, …`. -/
def newEntriesR (seq curr : Nat) : List Nat → List (Nat × Nat × Nat)
  | [] => []
  | b :: bs => (curr, seq + 1, b) :: newEntriesR (seq + 1) (seq + 1) bs

/-- A traversed segment of the register: like `ChainShape` but ending at a
named node `endp` instead of endpoint conditions. -/
def ChainSeg (s : Store) (S : List Nat) : Nat → List (Nat × Nat × Nat) → List Nat → Nat → Prop
  | par, [], [], endp => endp = par
  | par, (p, c, b) :: es, pb :: bs2, endp =>
      p = par ∧ b = pb ∧ childFind (findN s par).C pb = some c ∧
      (∀ q ∈ (findN s par).C, q.1 ≤ pb) ∧
      (∀ q ∈ (findN s par).C, q.2 ∈ S ∨ (q.1 = pb ∧ q.2 = c)) ∧
      ChainSeg s S c es bs2 endp
  | _, _, _, _ => False

/-! ## Store and helper lemmas -/

theorem findN_setN_self (s : Store) (i : Nat) (n : Node) : findN (setN s i n) i = n := by
  induction s with
  | nil => simp [setN, findN]
  | cons p rest ih =>
    obtain ⟨j, m⟩ := p
    by_cases h : j = i
    · subst h; simp [setN, findN]
    · simp [setN, findN, h, ih]

theorem findN_setN_ne (s : Store) (i j : Nat) (n : Node) (h : i ≠ j) :
    findN (setN s i n) j = findN s j := by
  induction s with
  | nil => simp [setN, findN, h]
  | cons p rest ih =>
    obtain ⟨a, m⟩ := p
    by_cases ha : a = i
    · subst ha; simp [setN, findN, h]
    · simp [setN, findN, ha, ih]

theorem decDigitsAux_length (fuel n : Nat) :
    (decDigitsAux fuel n).length = numDigitsAux fuel n := by
  induction fuel generalizing n with
  | zero => rfl
  | succ f ih =>
    simp only [decDigitsAux, numDigitsAux]
    by_cases h : n < 10
    · rw [if_pos h, if_pos (by omega)]
      rfl
    · rw [if_neg h, if_neg (by omega)]
      simp [ih]

theorem decDigits_length (n : Nat) : (decDigits n).length = numDigits n :=
  decDigitsAux_length n n

theorem key_parts_length (l : List (Nat × Nat)) :
    ((l.map (fun p => 95 :: decDigits p.2)).flatten).length
      = (l.map (fun p => numDigits p.2 + 1)).sum := by
  induction l with
  | nil => rfl
  | cons p rest ih =>
    simp only [List.map_cons, List.flatten_cons, List.length_append, List.length_cons,
      decDigits_length, List.sum_cons, ih]

/-- The size assertion inside Go `key` never fires. -/
theorem keyChecked_eq (n : Node) : keyChecked n = some (keyGo n) := by
  unfold keyChecked
  rw [if_pos]
  unfold keyGo keySize
  cases hF : n.F <;>
    simp only [List.append_assoc, List.length_append, List.length_cons, List.length_nil,
      List.length_map, key_parts_length, if_true, if_false, Bool.false_eq_true] <;>
    omega

theorem minimizeStepsO_eq (n : Nat) (d : DAWG) :
    minimizeStepsO n d = some (minimizeSteps n d) := by
  induction n generalizing d with
  | zero => rfl
  | succ n ih =>
    cases h : d.unchecked with
    | nil => simp [minimizeStepsO, minimizeSteps, h]
    | cons e rest =>
      obtain ⟨p, c, b⟩ := e
      simp only [minimizeStepsO, minimizeSteps, h, keyChecked_eq]
      exact ih _

theorem minimizeO_eq (d : DAWG) (lvl : Nat) : minimizeO d lvl = some (minimizeP d lvl) :=
  minimizeStepsO_eq _ _

theorem finishO_eq (d : DAWG) : finishO d = some (finishP d) := minimizeO_eq d 0

/-- `Insert` panics only at its ordering check: the internal key size
assertion never fires. -/
theorem insertGo_eq (d : DAWG) (w : List Nat) : insertGo d w = insertP d w := by
  unfold insertGo insertP
  by_cases h : leW w d.prevWord
  · simp [h]
  · simp [h, minimizeO_eq]

theorem lcp_lt_length {w p : List Nat} (h : leW w p = false) :
    lcpLength w p < w.length := by
  induction w generalizing p with
  | nil => simp [leW] at h
  | cons a as ih =>
    cases p with
    | nil => simp [lcpLength]
    | cons b bs =>
      simp only [leW] at h
      by_cases hab : a = b
      · subst hab
        rw [if_neg (lt_irrefl a), if_pos rfl] at h
        have h1 := ih h
        have h2 : lcpLength (a :: as) (a :: bs) = lcpLength as bs + 1 := by
          simp [lcpLength]
        rw [h2, List.length_cons]
        omega
      · simp [lcpLength, hab]

/-! ## Claim C5: the ordering check -/

/-- C5: `Insert(word)` fails (panics) exactly when `word` is not strictly
greater than the previously inserted word; a strictly greater word never
triggers an error (in particular the key size assertion never fires). -/
theorem insert_fails_iff_not_greater (d : DAWG) (w : List Nat) :
    insertGo d w = none ↔ leW w d.prevWord = true := by
  rw [insertGo_eq]
  unfold insertP
  by_cases h : leW w d.prevWord
  · simp [h]
  · simp [h]

/-! ## Claim C10: the empty word -/

theorem F_minStep (d : DAWG) (p c b : Nat) (rest : List (Nat × Nat × Nat)) (i : Nat) :
    (findN (minStep d p c b rest).nodes i).F = (findN d.nodes i).F := by
  simp only [minStep]
  cases h : assocFind d.minimized (keyGo (findN d.nodes c)) with
  | none => simp [h]
  | some m =>
    simp only [h]
    by_cases hi : p = i
    · subst hi; rw [findN_setN_self]
    · rw [findN_setN_ne _ _ _ _ hi]

theorem F_minimizeSteps (n : Nat) (d : DAWG) (i : Nat) :
    (findN (minimizeSteps n d).nodes i).F = (findN d.nodes i).F := by
  induction n generalizing d with
  | zero => rfl
  | succ n ih =>
    simp only [minimizeSteps]
    cases h : d.unchecked with
    | nil => rfl
    | cons e rest =>
      obtain ⟨p, c, b⟩ := e
      rw [ih, F_minStep]

theorem rootF_extendLoop (bs : List Nat) (d : DAWG) (curr : Nat)
    (h : curr ≠ 0 ∨ bs ≠ []) :
    (findN (extendLoop d curr bs).nodes 0).F = (findN d.nodes 0).F := by
  induction bs generalizing d curr with
  | nil =>
    rcases h with h | h
    · simp only [extendLoop]
      rw [findN_setN_ne _ _ _ _ h]
    · exact absurd rfl h
  | cons b bs ih =>
    simp only [extendLoop]
    rw [ih _ _ (Or.inl (by omega))]
    simp only
    by_cases hc : curr = 0
    · subst hc
      rw [findN_setN_self]
    · rw [findN_setN_ne _ _ _ _ hc, findN_setN_ne _ _ _ _ (by omega)]

theorem rootF_insertP {d d2 : DAWG} {w : List Nat} (h : insertP d w = some d2) :
    (findN d2.nodes 0).F = (findN d.nodes 0).F := by
  unfold insertP at h
  by_cases hg : leW w d.prevWord
  · simp [hg] at h
  · rw [if_neg hg] at h
    cases h
    unfold insertTail
    have hgf : leW w d.prevWord = false := by
      simpa using hg
    have hlt : lcpLength w d.prevWord < w.length := lcp_lt_length hgf
    have hbs : w.drop (lcpLength w d.prevWord) ≠ [] := by
      intro hcon
      have := List.drop_eq_nil_iff.mp hcon
      omega
    rw [rootF_extendLoop _ _ _ (Or.inr hbs)]
    simp only [minimizeP]
    rw [F_minimizeSteps]

theorem rootF_buildFrom (ws : List (List Nat)) (d d2 : DAWG)
    (h : buildFrom d ws = some d2) :
    (findN d2.nodes 0).F = (findN d.nodes 0).F := by
  induction ws generalizing d with
  | nil => cases h; rfl
  | cons w ws ih =>
    simp only [buildFrom] at h
    cases hi : insertGo d w with
    | none => rw [hi] at h; cases h
    | some d1 =>
      rw [hi] at h
      rw [ih _ h, rootF_insertP (insertGo_eq d w ▸ hi)]

/-- C10: the empty string can never be a member: `Insert("")` panics in
every builder state; in every built state — finished or not — the root's
terminal flag is false and `Lookup("")` returns false. -/
theorem empty_word_never_member :
    (∀ d : DAWG, insertGo d [] = none) ∧
    (∀ ws d, buildList ws = some d →
      (findN d.nodes 0).F = false ∧ lookupGo d [] = false ∧
      ∀ df, finishO d = some df →
        (findN df.nodes 0).F = false ∧ lookupGo df [] = false) := by
  constructor
  · intro d
    rw [insert_fails_iff_not_greater]
    rfl
  · intro ws d h
    have hroot : (findN d.nodes 0).F = false := by
      rw [rootF_buildFrom ws initD d h]; rfl
    refine ⟨hroot, hroot, ?_⟩
    intro df hdf
    rw [finishO_eq] at hdf
    cases hdf
    have : (findN (finishP d).nodes 0).F = false := by
      unfold finishP minimizeP
      rw [F_minimizeSteps]; exact hroot
    exact ⟨this, this⟩

/-- Witness for C10 at the one-word build `{"a"}`. -/
theorem empty_word_never_member_witness :
    buildList [[97]] = some (insertTail initD [97] 0) ∧
    (findN (insertTail initD [97] 0).nodes 0).F = false := by
  refine ⟨by decide, ?_⟩
  exact ((empty_word_never_member.2 [[97]] _ (by decide)).1)

/-! ## Claim C7: injectivity of the signature encoding -/

theorem decDigitsAux_bound (fuel : Nat) :
    ∀ n, n ≤ fuel ∨ n < 10 → ∀ x ∈ decDigitsAux fuel n, 48 ≤ x ∧ x ≤ 57 := by
  induction fuel with
  | zero =>
    intro n hf x hx
    simp only [decDigitsAux, List.mem_singleton] at hx
    omega
  | succ f ih =>
    intro n hf x hx
    simp only [decDigitsAux] at hx
    by_cases h : n < 10
    · rw [if_pos h] at hx
      simp only [List.mem_singleton] at hx
      omega
    · rw [if_neg h] at hx
      simp only [List.mem_append, List.mem_singleton] at hx
      rcases hx with hx | hx
      · exact ih (n / 10) (by omega) x hx
      · omega

theorem decDigits_bound (n : Nat) : ∀ x ∈ decDigits n, 48 ≤ x ∧ x ≤ 57 :=
  decDigitsAux_bound n n (Or.inl le_rfl)

theorem decDigitsAux_ne_nil (fuel n : Nat) : decDigitsAux fuel n ≠ [] := by
  cases fuel with
  | zero => simp [decDigitsAux]
  | succ f =>
    simp only [decDigitsAux]
    by_cases h : n < 10
    · simp [h]
    · simp [h]

theorem digitsVal_append_digit (xs : List Nat) (d : Nat) :
    digitsVal (xs ++ [d]) = digitsVal xs * 10 + (d - 48) := by
  simp [digitsVal, List.foldl_append]

theorem digitsVal_dec (fuel : Nat) :
    ∀ n, n ≤ fuel ∨ n < 10 → digitsVal (decDigitsAux fuel n) = n := by
  induction fuel with
  | zero =>
    intro n hf
    simp only [decDigitsAux, digitsVal, List.foldl_cons, List.foldl_nil]
    omega
  | succ f ih =>
    intro n hf
    by_cases hn : n < 10
    · simp only [decDigitsAux, if_pos hn, digitsVal, List.foldl_cons, List.foldl_nil]
      omega
    · simp only [decDigitsAux, if_neg hn]
      rw [digitsVal_append_digit, ih (n / 10) (by omega)]
      omega

theorem decDigits_inj {a b : Nat} (h : decDigits a = decDigits b) : a = b := by
  have ha := digitsVal_dec a a (Or.inl le_rfl)
  have hb := digitsVal_dec b b (Or.inl le_rfl)
  unfold decDigits at h
  rw [h] at ha
  exact ha.symm.trans hb

theorem token_split (a1 : List Nat) : ∀ (a2 r1 r2 : List Nat),
    (∀ x ∈ a1, x ≠ 95) → (∀ x ∈ a2, x ≠ 95) →
    (r1 = [] ∨ ∃ t, r1 = 95 :: t) → (r2 = [] ∨ ∃ t, r2 = 95 :: t) →
    a1 ++ r1 = a2 ++ r2 → a1 = a2 ∧ r1 = r2 := by
  induction a1 with
  | nil =>
    intro a2 r1 r2 h1 h2 hr1 hr2 heq
    cases a2 with
    | nil => exact ⟨rfl, by simpa using heq⟩
    | cons y a2x =>
      exfalso
      simp only [List.nil_append, List.cons_append] at heq
      rcases hr1 with h | ⟨t, ht⟩
      · rw [h] at heq; cases heq
      · rw [ht] at heq
        injection heq with hy _
        exact h2 y (by simp) hy.symm
  | cons x a1x ih =>
    intro a2 r1 r2 h1 h2 hr1 hr2 heq
    cases a2 with
    | nil =>
      exfalso
      simp only [List.nil_append, List.cons_append] at heq
      rcases hr2 with h | ⟨t, ht⟩
      · rw [h] at heq; cases heq
      · rw [ht] at heq
        injection heq with hy _
        exact h1 x (by simp) hy
    | cons y a2x =>
      simp only [List.cons_append] at heq
      injection heq with hxy htail
      obtain ⟨ha, hr⟩ := ih a2x r1 r2 (fun z hz => h1 z (by simp [hz]))
        (fun z hz => h2 z (by simp [hz])) hr1 hr2 htail
      exact ⟨by rw [hxy, ha], hr⟩

theorem encL_shape (ids : List Nat) : encL ids = [] ∨ ∃ t, encL ids = 95 :: t := by
  cases ids with
  | nil => exact Or.inl rfl
  | cons i r =>
    refine Or.inr ⟨decDigits i ++ encL r, ?_⟩
    simp [encL]

theorem encL_inj (ids1 : List Nat) : ∀ ids2, encL ids1 = encL ids2 → ids1 = ids2 := by
  induction ids1 with
  | nil =>
    intro ids2 h
    cases ids2 with
    | nil => rfl
    | cons j s => simp [encL] at h
  | cons i r ih =>
    intro ids2 h
    cases ids2 with
    | nil => simp [encL] at h
    | cons j s =>
      simp only [encL, List.map_cons, List.flatten_cons, List.cons_append] at h
      injection h with _ h2
      obtain ⟨hd, he⟩ := token_split (decDigits i) (decDigits j) (encL r) (encL s)
        (fun x hx => by have := decDigits_bound i x hx; omega)
        (fun x hx => by have := decDigits_bound j x hx; omega)
        (encL_shape r) (encL_shape s) h2
      rw [decDigits_inj hd, ih s he]

theorem encL_blocks (ids : List Nat) : EncBlocks ids.length (encL ids) := by
  induction ids with
  | nil => rfl
  | cons i r ih =>
    have hsh : encL (i :: r) = 95 :: (decDigits i ++ encL r) := by simp [encL]
    exact ⟨decDigits i, encL r, decDigits_bound i, decDigitsAux_ne_nil i i, hsh, ih⟩

theorem parse_not_lt (L1 L2 e1 e2 : List Nat)
    (hs2 : L2.Chain' (· < ·))
    (h1 : EncBlocks L1.length e1) (h2 : EncBlocks L2.length e2)
    (heq : L1 ++ e1 = L2 ++ e2) : ¬ L1.length < L2.length := by
  intro hlt
  rcases List.append_eq_append_iff.mp heq with ⟨extra, hL2, he1⟩ | ⟨extra, hL1, he2⟩
  swap
  · have := congrArg List.length hL1
    simp only [List.length_append] at this
    omega
  have hlen := congrArg List.length hL2
  simp only [List.length_append] at hlen
  have hex : extra ≠ [] := by
    intro hn
    rw [hn] at hlen
    simp at hlen
    omega
  cases hL1len : L1.length with
  | zero =>
    rw [hL1len] at h1
    have he1nil : e1 = [] := h1
    rw [he1nil] at he1
    exact hex (List.append_eq_nil.mp he1.symm).1
  | succ k =>
    rw [hL1len] at h1
    obtain ⟨ds, rest, hds, hdsne, he1s, _⟩ := h1
    cases ds with
    | nil => exact hdsne rfl
    | cons d ds3 =>
      cases extra with
      | nil => exact hex rfl
      | cons x extra2 =>
        rw [he1s] at he1
        simp only [List.cons_append] at he1
        injection he1 with hx95 he1t
        cases extra2 with
        | nil =>
          simp only [List.nil_append, List.cons_append] at he1t
          cases hL2len : L2.length with
          | zero => omega
          | succ m =>
            rw [hL2len] at h2
            obtain ⟨ds2, rest2, _, _, he2s, _⟩ := h2
            rw [he2s] at he1t
            injection he1t with hd95 _
            have := hds d (by simp)
            omega
        | cons y extra3 =>
          simp only [List.cons_append] at he1t
          injection he1t with hyd _
          have hchain : List.Chain' (· < ·) (x :: y :: extra3) :=
            ((List.chain'_append.mp (hL2 ▸ hs2)).2).1
          have hxy : x < y := (List.chain'_cons.mp hchain).1
          have := hds d (by simp)
          omega

theorem parse_len_eq (L1 L2 e1 e2 : List Nat)
    (hs1 : L1.Chain' (· < ·)) (hs2 : L2.Chain' (· < ·))
    (h1 : EncBlocks L1.length e1) (h2 : EncBlocks L2.length e2)
    (heq : L1 ++ e1 = L2 ++ e2) : L1.length = L2.length := by
  have ha := parse_not_lt L1 L2 e1 e2 hs2 h1 h2 heq
  have hb := parse_not_lt L2 L1 e2 e1 hs1 h2 h1 heq.symm
  omega

theorem map_fst_snd_ext (l1 : List (Nat × Nat)) : ∀ l2 : List (Nat × Nat),
    l1.map (·.1) = l2.map (·.1) → l1.map (·.2) = l2.map (·.2) → l1 = l2 := by
  induction l1 with
  | nil =>
    intro l2 h1 _
    cases l2 with
    | nil => rfl
    | cons q l2x => simp at h1
  | cons p l1x ih =>
    intro l2 h1 h2
    cases l2 with
    | nil => simp at h1
    | cons q l2x =>
      simp only [List.map_cons, List.cons.injEq] at h1 h2
      rw [ih l2x h1.2 h2.2, Prod.ext h1.1 h2.1]

/-- The core injectivity of Go `key`: on nodes with canonically sorted
child maps, equal signature strings force equal records. -/
theorem keyGo_inj {n1 n2 : Node} (h1 : SortedC n1.C) (h2 : SortedC n2.C)
    (h : keyGo n1 = keyGo n2) : n1 = n2 := by
  unfold keyGo at h
  have hF : n1.F = n2.F := by
    cases hf1 : n1.F <;> cases hf2 : n2.F <;> rw [hf1, hf2] at h <;>
      first
      | rfl
      | (exfalso
         simp only [List.append_assoc, List.cons_append, List.nil_append] at h
         injection h with hh _
         omega)
  rw [hF] at h
  have htail : n1.C.map (·.1) ++ encL (n1.C.map (·.2))
      = n2.C.map (·.1) ++ encL (n2.C.map (·.2)) := by
    have henc : ∀ l : List (Nat × Nat),
        (l.map (fun p => 95 :: decDigits p.2)).flatten = encL (l.map (·.2)) := by
      intro l
      unfold encL
      rw [List.map_map]
      rfl
    cases hf : n2.F <;> rw [hf] at h <;>
      · simp only [if_true, if_false, Bool.false_eq_true,
          List.append_assoc, List.cons_append, List.nil_append] at h
        injection h with _ h
        injection h with _ h
        rw [henc, henc] at h
        exact h
  have hs1 : (n1.C.map (·.1)).Chain' (· < ·) :=
    ((List.pairwise_map.mpr h1).chain')
  have hs2 : (n2.C.map (·.1)).Chain' (· < ·) :=
    ((List.pairwise_map.mpr h2).chain')
  have hb1 : EncBlocks (n1.C.map (·.1)).length (encL (n1.C.map (·.2))) := by
    rw [List.length_map]
    have := encL_blocks (n1.C.map (·.2))
    rwa [List.length_map] at this
  have hb2 : EncBlocks (n2.C.map (·.1)).length (encL (n2.C.map (·.2))) := by
    rw [List.length_map]
    have := encL_blocks (n2.C.map (·.2))
    rwa [List.length_map] at this
  have hlen := parse_len_eq _ _ _ _ hs1 hs2 hb1 hb2 htail
  obtain ⟨hlab, henceq⟩ := List.append_inj htail hlen
  have hsnd := encL_inj _ _ henceq
  have hC : n1.C = n2.C := map_fst_snd_ext _ _ hlab hsnd
  cases n1
  cases n2
  simp_all

theorem childFind_eq_none_of_forall_lt {l : List (Nat × Nat)} {x : Nat}
    (h : ∀ q ∈ l, x < q.1) : childFind l x = none := by
  induction l with
  | nil => rfl
  | cons p rest ih =>
    obtain ⟨a, v⟩ := p
    have hp := h (a, v) (by simp)
    simp only at hp
    simp only [childFind, if_neg (by omega : ¬ a = x)]
    exact ih (fun q hq => h q (by simp [hq]))

theorem sortedC_head_lt {p : Nat × Nat} {l : List (Nat × Nat)}
    (h : SortedC (p :: l)) : ∀ q ∈ l, p.1 < q.1 :=
  fun q hq => List.rel_of_pairwise_cons h hq

theorem sortedC_tail {p : Nat × Nat} {l : List (Nat × Nat)}
    (h : SortedC (p :: l)) : SortedC l :=
  List.Pairwise.of_cons h

theorem childFind_ext {l1 : List (Nat × Nat)} : ∀ {l2 : List (Nat × Nat)},
    SortedC l1 → SortedC l2 → (∀ b, childFind l1 b = childFind l2 b) → l1 = l2 := by
  induction l1 with
  | nil =>
    intro l2 _ _ hf
    cases l2 with
    | nil => rfl
    | cons q l2x =>
      obtain ⟨bq, w⟩ := q
      have := hf bq
      simp [childFind] at this
  | cons p l1x ih =>
    obtain ⟨a, v⟩ := p
    intro l2 hs1 hs2 hf
    cases l2 with
    | nil =>
      have := hf a
      simp [childFind] at this
    | cons q l2x =>
      obtain ⟨bq, w⟩ := q
      have hab : a = bq := by
        by_contra hne
        rcases Nat.lt_or_ge a bq with hlt | hge
        · have hfa := hf a
          rw [show childFind ((a, v) :: l1x) a = some v by simp [childFind]] at hfa
          rw [show childFind ((bq, w) :: l2x) a = none by
            simp only [childFind, if_neg (by omega : ¬ bq = a)]
            exact childFind_eq_none_of_forall_lt
              (fun r hr => lt_trans hlt (sortedC_head_lt hs2 r hr))] at hfa
          cases hfa
        · have hlt2 : bq < a := by omega
          have hfb := hf bq
          rw [show childFind ((bq, w) :: l2x) bq = some w by simp [childFind]] at hfb
          rw [show childFind ((a, v) :: l1x) bq = none by
            simp only [childFind, if_neg (by omega : ¬ a = bq)]
            exact childFind_eq_none_of_forall_lt
              (fun r hr => lt_trans hlt2 (sortedC_head_lt hs1 r hr))] at hfb
          cases hfb
      subst hab
      have hv : v = w := by
        have := hf a
        simp [childFind] at this
        exact this
      subst hv
      have htail : l1x = l2x := by
        refine ih (sortedC_tail hs1) (sortedC_tail hs2) (fun b => ?_)
        by_cases hb : b = a
        · subst hb
          rw [childFind_eq_none_of_forall_lt (sortedC_head_lt hs1),
            childFind_eq_none_of_forall_lt (sortedC_head_lt hs2)]
        · have := hf b
          simp only [childFind, if_neg (fun hh : a = b => hb hh.symm)] at this
          exact this
      rw [htail]

/-- C7: two signature strings computed by `key` are equal exactly when the
two nodes agree on the terminal flag and, label by label, on the identity
of the child behind each outgoing edge. -/
theorem key_eq_iff_same_structure (n1 n2 : Node)
    (h1 : SortedC n1.C) (h2 : SortedC n2.C) :
    keyGo n1 = keyGo n2 ↔ (n1.F = n2.F ∧ ∀ b, childFind n1.C b = childFind n2.C b) := by
  constructor
  · intro h
    have := keyGo_inj h1 h2 h
    rw [this]
    exact ⟨rfl, fun _ => rfl⟩
  · intro ⟨hF, hfind⟩
    have hC : n1.C = n2.C := childFind_ext h1 h2 hfind
    have : n1 = n2 := by
      cases n1
      cases n2
      simp_all
    rw [this]

/-- Witness for C7 on concrete nodes. -/
theorem key_eq_iff_same_structure_witness :
    SortedC (⟨true, [(97, 2), (98, 5)]⟩ : Node).C ∧
    (keyGo ⟨true, [(97, 2), (98, 5)]⟩ = keyGo ⟨true, [(97, 2), (98, 5)]⟩ ↔
      ((⟨true, [(97, 2), (98, 5)]⟩ : Node).F = (⟨true, [(97, 2), (98, 5)]⟩ : Node).F ∧
        ∀ b, childFind [(97, 2), (98, 5)] b = childFind [(97, 2), (98, 5)] b)) := by
  constructor
  · norm_num [List.pairwise_cons]
  · exact key_eq_iff_same_structure ⟨true, [(97, 2), (98, 5)]⟩ ⟨true, [(97, 2), (98, 5)]⟩
      (by norm_num [List.pairwise_cons]) (by norm_num [List.pairwise_cons])

/-! ## Toolbox for the builder invariant -/

theorem childFind_childIns (l : List (Nat × Nat)) (b v x : Nat) :
    childFind (childIns l b v) x = if b = x then some v else childFind l x := by
  induction l with
  | nil => simp [childIns, childFind]
  | cons p r ih =>
    obtain ⟨a, w⟩ := p
    simp only [childIns]
    by_cases h1 : b < a
    · rw [if_pos h1]
      simp [childFind]
    · rw [if_neg h1]
      by_cases h2 : b = a
      · subst h2
        rw [if_pos rfl]
        simp only [childFind]
        by_cases h3 : b = x
        · simp [h3]
        · simp [h3]
      · rw [if_neg h2]
        simp only [childFind]
        by_cases h3 : a = x
        · subst h3
          rw [if_neg (by omega : ¬ b = a)]
          simp [ih]
        · simp only [if_neg h3, ih]

theorem childIns_mem {l : List (Nat × Nat)} {b v : Nat} {q : Nat × Nat}
    (hs : SortedC l) (h : q ∈ childIns l b v) :
    q = (b, v) ∨ (q ∈ l ∧ q.1 ≠ b) := by
  induction l with
  | nil =>
    simp only [childIns, List.mem_singleton] at h
    exact Or.inl h
  | cons p r ih =>
    obtain ⟨a, w⟩ := p
    simp only [childIns] at h
    by_cases h1 : b < a
    · rw [if_pos h1] at h
      rcases List.mem_cons.mp h with rfl | h
      · exact Or.inl rfl
      · rcases List.mem_cons.mp h with rfl | h
        · exact Or.inr ⟨by simp, by simp; omega⟩
        · refine Or.inr ⟨by simp [h], ?_⟩
          have := sortedC_head_lt hs q h
          simp only at this
          omega
    · rw [if_neg h1] at h
      by_cases h2 : b = a
      · subst h2
        rw [if_pos rfl] at h
        rcases List.mem_cons.mp h with rfl | h
        · exact Or.inl rfl
        · refine Or.inr ⟨by simp [h], ?_⟩
          have := sortedC_head_lt hs q h
          simp only at this
          omega
      · rw [if_neg h2] at h
        rcases List.mem_cons.mp h with rfl | h
        · exact Or.inr ⟨by simp, by simp; omega⟩
        · rcases ih (sortedC_tail hs) h with h3 | ⟨h3, h4⟩
          · exact Or.inl h3
          · exact Or.inr ⟨by simp [h3], h4⟩

theorem childIns_ne_nil (l : List (Nat × Nat)) (b v : Nat) : childIns l b v ≠ [] := by
  cases l with
  | nil => simp [childIns]
  | cons p r =>
    obtain ⟨a, w⟩ := p
    simp only [childIns]
    by_cases h1 : b < a
    · simp [h1]
    · rw [if_neg h1]
      by_cases h2 : b = a
      · simp [h2]
      · simp [h2]

theorem childIns_sorted {l : List (Nat × Nat)} (hs : SortedC l) (b v : Nat) :
    SortedC (childIns l b v) := by
  induction l with
  | nil => simp [childIns, SortedC]
  | cons p r ih =>
    obtain ⟨a, w⟩ := p
    simp only [childIns]
    by_cases h1 : b < a
    · rw [if_pos h1]
      refine List.pairwise_cons.mpr ⟨?_, hs⟩
      intro q hq
      rcases List.mem_cons.mp hq with rfl | hq
      · simpa using h1
      · have := sortedC_head_lt hs q hq
        simp only at this ⊢
        omega
    · rw [if_neg h1]
      by_cases h2 : b = a
      · subst h2
        rw [if_pos rfl]
        refine List.pairwise_cons.mpr ⟨?_, sortedC_tail hs⟩
        intro q hq
        have := sortedC_head_lt hs q hq
        simpa using this
      · rw [if_neg h2]
        refine List.pairwise_cons.mpr ⟨?_, ih (sortedC_tail hs)⟩
        intro q hq
        rcases childIns_mem (sortedC_tail hs) hq with rfl | ⟨hq2, _⟩
        · simp only
          omega
        · exact sortedC_head_lt hs q hq2

theorem childFind_none_of_ne {l : List (Nat × Nat)} {x : Nat}
    (h : ∀ q ∈ l, q.1 ≠ x) : childFind l x = none := by
  induction l with
  | nil => rfl
  | cons p r ih =>
    obtain ⟨a, w⟩ := p
    have := h (a, w) (by simp)
    simp only at this
    simp only [childFind, if_neg this]
    exact ih (fun q hq => h q (by simp [hq]))

theorem childFind_mem {l : List (Nat × Nat)} {x v : Nat}
    (h : childFind l x = some v) : (x, v) ∈ l := by
  induction l with
  | nil => cases h
  | cons p r ih =>
    obtain ⟨a, w⟩ := p
    simp only [childFind] at h
    by_cases ha : a = x
    · subst ha
      rw [if_pos rfl] at h
      injection h with h
      simp [h]
    · rw [if_neg ha] at h
      simp [ih h]

theorem assocFind_mem {R : List (List Nat × Nat)} {k : List Nat} {m : Nat}
    (h : assocFind R k = some m) : (k, m) ∈ R := by
  induction R with
  | nil => cases h
  | cons kv rest ih =>
    obtain ⟨k2, m2⟩ := kv
    simp only [assocFind] at h
    by_cases hk : k2 = k
    · subst hk
      rw [if_pos rfl] at h
      injection h with h
      simp [h]
    · rw [if_neg hk] at h
      simp [ih h]

theorem assocFind_eq_none {R : List (List Nat × Nat)} {k : List Nat}
    (h : assocFind R k = none) : ∀ kv ∈ R, kv.1 ≠ k := by
  induction R with
  | nil => simp
  | cons kv2 rest ih =>
    obtain ⟨k2, m2⟩ := kv2
    simp only [assocFind] at h
    by_cases hk : k2 = k
    · rw [if_pos hk] at h; cases h
    · rw [if_neg hk] at h
      intro kv hkv
      rcases List.mem_cons.mp hkv with rfl | hkv
      · simpa using hk
      · exact ih h kv hkv

theorem mem_dom_setN {s : Store} {i j : Nat} {n : Node}
    (h : i ∈ s.map (·.1)) : i ∈ (setN s j n).map (·.1) := by
  induction s with
  | nil => simp at h
  | cons p r ih =>
    obtain ⟨a, m⟩ := p
    simp only [List.map_cons, List.mem_cons] at h
    simp only [setN]
    by_cases ha : a = j
    · rw [if_pos ha]
      rcases h with rfl | h
      · simp [ha]
      · simp [h]
    · rw [if_neg ha]
      rcases h with rfl | h
      · simp
      · simp [ih h]

theorem mem_dom_setN_self (s : Store) (j : Nat) (n : Node) :
    j ∈ (setN s j n).map (·.1) := by
  induction s with
  | nil => simp [setN]
  | cons p r ih =>
    obtain ⟨a, m⟩ := p
    simp only [setN]
    by_cases ha : a = j
    · rw [if_pos ha]; simp
    · rw [if_neg ha]; simp [ih]

theorem findN_not_mem_dom {s : Store} {i : Nat}
    (h : i ∉ s.map (·.1)) : findN s i = ⟨false, []⟩ := by
  induction s with
  | nil => rfl
  | cons p r ih =>
    obtain ⟨a, m⟩ := p
    simp only [List.map_cons, List.mem_cons] at h
    push_neg at h
    simp only [findN]
    rw [if_neg (fun hh => h.1 hh.symm)]
    exact ih h.2

theorem lcp_le_length_right (w p : List Nat) : lcpLength w p ≤ p.length := by
  induction w generalizing p with
  | nil => cases p <;> simp [lcpLength]
  | cons a as ih =>
    cases p with
    | nil => simp [lcpLength]
    | cons b bs =>
      by_cases hab : a = b
      · simp only [lcpLength, if_pos hab, List.length_cons]
        have := ih bs
        omega
      · simp [lcpLength, hab]

theorem lcp_take (w p : List Nat) :
    w.take (lcpLength w p) = p.take (lcpLength w p) := by
  induction w generalizing p with
  | nil => cases p <;> simp [lcpLength]
  | cons a as ih =>
    cases p with
    | nil => simp [lcpLength]
    | cons b bs =>
      by_cases hab : a = b
      · subst hab
        have h2 : lcpLength (a :: as) (a :: bs) = lcpLength as bs + 1 := by
          simp [lcpLength]
        rw [h2, List.take_succ_cons, List.take_succ_cons, ih bs]
      · simp [lcpLength, hab]

theorem lcp_drop_lt {w p : List Nat} {a b : Nat} {u v : List Nat}
    (h : leW w p = false)
    (hp : p.drop (lcpLength w p) = a :: u) (hw : w.drop (lcpLength w p) = b :: v) :
    a < b := by
  induction w generalizing p u v with
  | nil => simp [leW] at h
  | cons x xs ih =>
    cases p with
    | nil => simp [lcpLength] at hp
    | cons y ys =>
      by_cases hxy : x = y
      · subst hxy
        simp only [leW, if_neg (lt_irrefl x), if_pos rfl] at h
        simp only [lcpLength, if_pos rfl, List.drop_succ_cons] at hp hw
        exact ih h hp hw
      · simp only [lcpLength, if_neg hxy, List.drop_zero] at hp hw
        injection hp with hp1 _
        injection hw with hw1 _
        subst hp1
        subst hw1
        simp only [leW] at h
        by_cases hlt : x < y
        · rw [if_pos hlt] at h
          cases h
        · rw [if_neg hlt, if_neg hxy] at h
          omega

theorem regOrd_closed {s : Store} {R : List (List Nat × Nat)} (h : RegOrd s R) :
    ∀ m ∈ R.map (·.2), ∀ q ∈ (findN s m).C, q.2 ∈ R.map (·.2) := by
  induction R with
  | nil => simp
  | cons kv rest ih =>
    obtain ⟨k, m0⟩ := kv
    obtain ⟨hch, hrest⟩ := h
    intro m hm q hq
    rcases List.mem_cons.mp hm with hm | hm
    · simp only at hm
      subst hm
      have := hch q hq
      simp [this]
    · have := ih hrest m hm q hq
      simp [this]

theorem lookupFrom_setN_frame {s : Store} {S : List Nat} {p : Nat} {n : Node}
    (hcl : ∀ m ∈ S, ∀ q ∈ (findN s m).C, q.2 ∈ S) (hp : p ∉ S) :
    ∀ (w : List Nat), ∀ m ∈ S, lookupFrom (setN s p n) m w = lookupFrom s m w := by
  intro w
  induction w with
  | nil =>
    intro m hm
    simp only [lookupFrom]
    rw [findN_setN_ne _ _ _ _ (fun hh => hp (by rw [hh]; exact hm))]
  | cons b bs ih =>
    intro m hm
    simp only [lookupFrom]
    rw [findN_setN_ne _ _ _ _ (fun hh => hp (by rw [hh]; exact hm))]
    cases hcf : childFind (findN s m).C b with
    | none => rfl
    | some j => exact ih j (hcl m hm _ (childFind_mem hcf))

theorem lookupFrom_congr_record {s : Store} {c m : Nat}
    (h : findN s c = findN s m) (w : List Nat) :
    lookupFrom s c w = lookupFrom s m w := by
  cases w with
  | nil => simp only [lookupFrom, h]
  | cons b bs => simp only [lookupFrom, h]

/-- Rewiring a parent edge onto a node with an identical record changes no
lookup anywhere: the heart of the merge step's soundness. -/
theorem lookupFrom_rewire {s : Store} {S : List Nat} {p b c m : Nat}
    (hfind : childFind (findN s p).C b = some c)
    (hrec : findN s c = findN s m)
    (hm : m ∈ S)
    (hcl : ∀ x ∈ S, ∀ q ∈ (findN s x).C, q.2 ∈ S)
    (hp : p ∉ S) :
    ∀ (w : List Nat) (i : Nat),
      lookupFrom (setN s p ⟨(findN s p).F, childIns (findN s p).C b m⟩) i w
        = lookupFrom s i w := by
  intro w
  induction w with
  | nil =>
    intro i
    simp only [lookupFrom]
    by_cases hip : i = p
    · subst hip
      rw [findN_setN_self]
    · rw [findN_setN_ne _ _ _ _ (fun hh => hip hh.symm)]
  | cons x xs ih =>
    intro i
    simp only [lookupFrom]
    by_cases hip : i = p
    · subst hip
      rw [findN_setN_self]
      simp only [childFind_childIns]
      by_cases hbx : b = x
      · subst hbx
        rw [if_pos rfl, hfind]
        show lookupFrom (setN s i ⟨(findN s i).F, childIns (findN s i).C b m⟩) m xs
          = lookupFrom s c xs
        rw [lookupFrom_setN_frame hcl hp xs m hm]
        exact (lookupFrom_congr_record hrec xs).symm
      · rw [if_neg hbx]
        cases hcf : childFind (findN s i).C x with
        | none => rfl
        | some j => exact ih j
    · rw [findN_setN_ne _ _ _ _ (fun hh => hip hh.symm)]
      cases hcf : childFind (findN s i).C x with
      | none => rfl
      | some j => exact ih j

/-! ## Minimize preserves the invariant -/

theorem setN_mem {s : Store} {p : Nat} {n : Node} {pr : Nat × Node}
    (h : pr ∈ setN s p n) : pr = (p, n) ∨ pr ∈ s := by
  induction s with
  | nil => simpa [setN] using h
  | cons q r ih =>
    obtain ⟨a, m⟩ := q
    simp only [setN] at h
    by_cases ha : a = p
    · rw [if_pos ha] at h
      rcases List.mem_cons.mp h with rfl | h
      · exact Or.inl rfl
      · exact Or.inr (by simp [h])
    · rw [if_neg ha] at h
      rcases List.mem_cons.mp h with rfl | h
      · exact Or.inr (by simp)
      · rcases ih h with h | h
        · exact Or.inl h
        · exact Or.inr (by simp [h])

theorem chainShape_mono {s : Store} {S S2 : List Nat}
    (hsub : ∀ x ∈ S, x ∈ S2) :
    ∀ {entries : List (Nat × Nat × Nat)} {par : Nat} {bs : List Nat},
      ChainShape s S par entries bs → ChainShape s S2 par entries bs := by
  intro entries
  induction entries with
  | nil =>
    intro par bs h
    cases bs with
    | nil => exact h
    | cons pb bs2 =>
      obtain ⟨h1, h2⟩ := h
      exact ⟨fun q hq => ⟨hsub _ (h1 q hq).1, (h1 q hq).2⟩, h2⟩
  | cons e es ih =>
    intro par bs h
    obtain ⟨p, c, b⟩ := e
    cases bs with
    | nil => exact h.elim
    | cons pb bs2 =>
      obtain ⟨h1, h2, h3, h4, h5, h6⟩ := h
      exact ⟨h1, h2, h3, h4,
        fun q hq => (h5 q hq).elim (fun hh => Or.inl (hsub _ hh)) Or.inr, ih h6⟩

theorem chainShape_last {s : Store} {S : List Nat} :
    ∀ {pre : List (Nat × Nat × Nat)} {par : Nat} {bs : List Nat} {p c b : Nat},
    ChainShape s S par (pre ++ [(p, c, b)]) bs →
    childFind (findN s p).C b = some c ∧
    (∀ q ∈ (findN s c).C, q.2 ∈ S) ∧
    ((findN s c).F = true ∨ (findN s c).C ≠ [] ∨ c = 0) := by
  intro pre
  induction pre with
  | nil =>
    intro par bs p c b h
    cases bs with
    | nil => exact h.elim
    | cons pb bs2 =>
      obtain ⟨h1, h2, h3, _, _, h6⟩ := h
      subst h1
      subst h2
      refine ⟨h3, ?_, ?_⟩
      · cases bs2 with
        | nil =>
          obtain ⟨hc, _⟩ := h6
          simp [hc]
        | cons pb2 bs3 =>
          obtain ⟨hc, _⟩ := h6
          exact fun q hq => (hc q hq).1
      · cases bs2 with
        | nil =>
          obtain ⟨_, hf⟩ := h6
          rcases hf with hf | hf
          · exact Or.inl hf
          · exact Or.inr (Or.inr hf)
        | cons pb2 bs3 => exact h6.2
  | cons e0 pre2 ih =>
    intro par bs p c b h
    obtain ⟨p0, c0, b0⟩ := e0
    cases bs with
    | nil => exact h.elim
    | cons pb bs2 => exact ih h.2.2.2.2.2

/-- The parent of the deepest register entry is the chain's previous node:
the root when the register has a single entry, the child of the next entry
otherwise. -/
theorem chainShape_last_parent {s : Store} {S : List Nat} :
    ∀ {es1 : List (Nat × Nat × Nat)} {par : Nat} {bs : List Nat} {p c b : Nat},
    ChainShape s S par (es1 ++ [(p, c, b)]) bs →
    (es1 = [] ∧ p = par) ∨ ∃ es2 e2, es1 = es2 ++ [e2] ∧ p = e2.2.1 := by
  intro es1
  induction es1 with
  | nil =>
    intro par bs p c b h
    cases bs with
    | nil => exact h.elim
    | cons pb bs2 => exact Or.inl ⟨rfl, h.1⟩
  | cons e0 es1x ih =>
    intro par bs p c b h
    obtain ⟨p0, c0, b0⟩ := e0
    cases bs with
    | nil => exact h.elim
    | cons pb bs2 =>
      rcases ih h.2.2.2.2.2 with ⟨hnil, hp⟩ | ⟨es2, e2, hsplit, hp⟩
      · subst hnil
        exact Or.inr ⟨[], (p0, c0, b0), by simp, hp⟩
      · exact Or.inr ⟨(p0, c0, b0) :: es2, e2, by rw [hsplit]; rfl, hp⟩

/-- Along an increasing chain, every parent of a proper prefix entry is
strictly below the deepest entry's parent. -/
theorem chainShape_pre_parent_lt {s : Store} {S : List Nat} :
    ∀ {pre : List (Nat × Nat × Nat)} {par : Nat} {bs : List Nat} {p c b : Nat},
    ChainShape s S par (pre ++ [(p, c, b)]) bs →
    List.Chain' (· < ·) (par :: (pre ++ [(p, c, b)]).map (fun e => e.2.1)) →
    ∀ e ∈ pre, e.1 < p := by
  intro pre
  induction pre with
  | nil => simp
  | cons e0 pre2 ih =>
    intro par bs p c b h hincr e he
    obtain ⟨p0, c0, b0⟩ := e0
    cases bs with
    | nil => exact h.elim
    | cons pb bs2 =>
      obtain ⟨hp0, _, _, _, _, h6⟩ := h
      have hparc0 : par < c0 := (List.chain'_cons.mp hincr).1
      have hincr2 : List.Chain' (· < ·) (c0 :: (pre2 ++ [(p, c, b)]).map (fun e => e.2.1)) :=
        (List.chain'_cons.mp hincr).2
      have hc0p : c0 ≤ p := by
        cases pre2 with
        | nil =>
          cases bs2 with
          | nil => exact h6.elim
          | cons pb2 bs3 =>
            have : p = c0 := h6.1
            omega
        | cons e1 pre3 =>
          obtain ⟨p1, c1, b1⟩ := e1
          cases bs2 with
          | nil => exact h6.elim
          | cons pb2 bs3 =>
            have hp1 : p1 = c0 := h6.1
            have := ih h6 hincr2 (p1, c1, b1) (by simp)
            simp only at this
            omega
      rcases List.mem_cons.mp he with rfl | he
      · simp only
        omega
      · exact ih h6 hincr2 e he

theorem chain'_lt_of_append_last {l : List Nat} {c : Nat}
    (h : List.Chain' (· < ·) (l ++ [c])) : ∀ x ∈ l, x < c := by
  have hp := List.chain'_iff_pairwise.mp h
  rw [List.pairwise_append] at hp
  intro x hx
  exact hp.2.2 x hx c (by simp)

theorem regOrd_setN_frame {s : Store} {R : List (List Nat × Nat)} {p : Nat} {n : Node}
    (hord : RegOrd s R) (hp : p ∉ R.map (·.2)) : RegOrd (setN s p n) R := by
  induction R with
  | nil => trivial
  | cons kv rest ih =>
    obtain ⟨k, m⟩ := kv
    obtain ⟨hch, hrest⟩ := hord
    have hmp : p ≠ m := fun hh => hp (by simp [hh])
    refine ⟨?_, ih hrest (fun hh => hp (by simp only [List.map_cons]; exact List.mem_cons_of_mem _ hh))⟩
    rw [findN_setN_ne _ _ _ _ hmp]
    exact hch

theorem findN_mem_or_default (s : Store) (i : Nat) :
    (i, findN s i) ∈ s ∨ findN s i = ⟨false, []⟩ := by
  induction s with
  | nil => exact Or.inr rfl
  | cons q r ih =>
    obtain ⟨a, m⟩ := q
    simp only [findN]
    by_cases ha : a = i
    · rw [if_pos ha]
      exact Or.inl (by simp [ha])
    · rw [if_neg ha]
      rcases ih with h | h
      · exact Or.inl (by simp [h])
      · exact Or.inr h

theorem chainShape_pop_hit {s : Store} {S : List Nat} {p c b m : Nat}
    (hm : m ∈ S) (hsort : ∀ i, SortedC (findN s i).C) :
    ∀ {pre : List (Nat × Nat × Nat)} {par : Nat} {bs : List Nat},
    ChainShape s S par (pre ++ [(p, c, b)]) bs →
    (∀ e ∈ pre, e.1 ≠ p) →
    ChainShape (setN s p ⟨(findN s p).F, childIns (findN s p).C b m⟩) S par pre bs := by
  intro pre
  induction pre with
  | nil =>
    intro par bs h _
    cases bs with
    | nil => exact h.elim
    | cons pb bs2 =>
      obtain ⟨h1, h2, h3, h4, h5, _⟩ := h
      subst h1
      subst h2
      refine ⟨?_, ?_⟩
      · intro q hq
        rw [findN_setN_self] at hq
        simp only at hq
        rcases childIns_mem (hsort p) hq with rfl | ⟨hq2, hq3⟩
        · exact ⟨hm, le_refl _⟩
        · rcases h5 q hq2 with hS | ⟨hqb, _⟩
          · exact ⟨hS, h4 q hq2⟩
          · exact absurd hqb hq3
      · rw [findN_setN_self]
        exact Or.inr (Or.inl (by simp [childIns_ne_nil]))
  | cons e0 pre2 ih =>
    intro par bs h hne
    obtain ⟨p0, c0, b0⟩ := e0
    cases bs with
    | nil => exact h.elim
    | cons pb bs2 =>
      obtain ⟨h1, h2, h3, h4, h5, h6⟩ := h
      subst h1
      subst h2
      have hp0p : p0 ≠ p := hne (p0, c0, b0) (by simp)
      have hrw : findN (setN s p ⟨(findN s p).F, childIns (findN s p).C b m⟩) p0
          = findN s p0 := findN_setN_ne _ _ _ _ (fun hh => hp0p hh.symm)
      exact ⟨rfl, rfl, by rw [hrw]; exact h3, by rw [hrw]; exact h4,
        by rw [hrw]; exact h5, ih h6 (fun e he => hne e (by simp [he]))⟩

theorem chainShape_pop_miss {s : Store} {S : List Nat} {p c b : Nat} :
    ∀ {pre : List (Nat × Nat × Nat)} {par : Nat} {bs : List Nat},
    ChainShape s S par (pre ++ [(p, c, b)]) bs →
    ChainShape s (c :: S) par pre bs := by
  intro pre
  induction pre with
  | nil =>
    intro par bs h
    cases bs with
    | nil => exact h.elim
    | cons pb bs2 =>
      obtain ⟨h1, h2, h3, h4, h5, _⟩ := h
      subst h1
      subst h2
      refine ⟨?_, ?_⟩
      · intro q hq
        rcases h5 q hq with hS | ⟨hqb, hqc⟩
        · exact ⟨List.mem_cons_of_mem _ hS, h4 q hq⟩
        · exact ⟨by simp [hqc], h4 q hq⟩
      · refine Or.inr (Or.inl ?_)
        intro hnil
        rw [hnil] at h3
        cases h3
  | cons e0 pre2 ih =>
    intro par bs h
    obtain ⟨p0, c0, b0⟩ := e0
    cases bs with
    | nil => exact h.elim
    | cons pb bs2 =>
      obtain ⟨h1, h2, h3, h4, h5, h6⟩ := h
      exact ⟨h1, h2, h3, h4,
        fun q hq => (h5 q hq).elim (fun hh => Or.inl (List.mem_cons_of_mem _ hh)) Or.inr,
        ih h6⟩

/-- One pop of the minimize loop preserves the builder invariant. -/
theorem inv_minStep {ws : List (List Nat)} {d : DAWG} {p c b : Nat}
    {rest : List (Nat × Nat × Nat)}
    (hI : Inv ws d) (hu : d.unchecked = (p, c, b) :: rest) :
    Inv ws (minStep d p c b rest) := by
  obtain ⟨Hmem, Hchain, Hincr, Hcnr, Hcdom, Hrkey, Hknd, Hind, Hord, Hterm, Hrnr,
    HrF, Hrch, Hsort, Hseqs, Hseqr, Hseqc, Hdr, Hde, Hdreg⟩ := hI
  have hrev : d.unchecked.reverse = rest.reverse ++ [(p, c, b)] := by
    rw [hu]; simp
  rw [hrev] at Hchain
  have Hincr' : List.Chain' (· < ·)
      (0 :: (rest.reverse ++ [(p, c, b)]).map (fun e => e.2.1)) := by
    rw [← hrev]; exact Hincr
  have hincr2 : List.Chain' (· < ·)
      ((0 :: rest.reverse.map (fun e => e.2.1)) ++ [c]) := by
    simpa using Hincr'
  have hltc : ∀ x ∈ 0 :: rest.reverse.map (fun e => e.2.1), x < c :=
    chain'_lt_of_append_last hincr2
  obtain ⟨hfind, hcch, hcFC⟩ := chainShape_last Hchain
  have hmemu : (p, c, b) ∈ d.unchecked := by rw [hu]; exact List.mem_cons_self _ _
  have hcS : c ∉ d.minimized.map (·.2) := Hcnr _ hmemu
  have hc0 : 0 < c := hltc 0 (by simp)
  have hpfacts : p ∉ d.minimized.map (·.2) ∧ p ≤ d.seq := by
    rcases chainShape_last_parent Hchain with ⟨_, hp⟩ | ⟨es2, e2, hsplit, hp⟩
    · subst hp
      exact ⟨Hrnr, by omega⟩
    · have he2 : e2 ∈ rest := by
        have : e2 ∈ rest.reverse := by rw [hsplit]; simp
        exact List.mem_reverse.mp this
      have he2u : e2 ∈ d.unchecked := by rw [hu]; exact List.mem_cons_of_mem _ he2
      exact ⟨hp ▸ Hcnr e2 he2u, hp ▸ (Hseqc e2 he2u).2⟩
  have hclosed := regOrd_closed Hord
  have hpre_ne : ∀ e ∈ rest.reverse, e.1 ≠ p := by
    intro e he
    have := chainShape_pre_parent_lt Hchain Hincr' e he
    omega
  have hchain_rest_incr : List.Chain' (· < ·) (0 :: rest.reverse.map (fun e => e.2.1)) :=
    (List.chain'_append.mp hincr2).1
  simp only [minStep]
  cases hreg : assocFind d.minimized (keyGo (findN d.nodes c)) with
  | some m =>
    have hkm : (keyGo (findN d.nodes c), m) ∈ d.minimized := assocFind_mem hreg
    have hmS : m ∈ d.minimized.map (·.2) := List.mem_map.mpr ⟨_, hkm, rfl⟩
    have hkeym : keyGo (findN d.nodes m) = keyGo (findN d.nodes c) := Hrkey _ hkm
    have hrec : findN d.nodes c = findN d.nodes m :=
      (keyGo_inj (Hsort m) (Hsort c) hkeym).symm
    have hmseq : m ≤ d.seq := Hseqr _ hkm
    refine ⟨?_, ?_, ?_, ?_, ?_, ?_, ?_, ?_, ?_, ?_, ?_, ?_, ?_, ?_, ?_, ?_, ?_, ?_, ?_, ?_⟩
    · intro w
      simp only
      rw [lookupFrom_rewire hfind hrec hmS hclosed hpfacts.1]
      exact Hmem w
    · exact chainShape_pop_hit hmS Hsort Hchain hpre_ne
    · exact hchain_rest_incr
    · intro e he
      exact Hcnr e (by rw [hu]; exact List.mem_cons_of_mem _ he)
    · intro e he
      exact mem_dom_setN (Hcdom e (by rw [hu]; exact List.mem_cons_of_mem _ he))
    · intro kv hkv
      have : kv.2 ≠ p := fun hh => hpfacts.1 (by rw [← hh]; exact List.mem_map.mpr ⟨kv, hkv, rfl⟩)
      simp only
      rw [findN_setN_ne _ _ _ _ (fun hh => this hh.symm)]
      exact Hrkey kv hkv
    · exact Hknd
    · exact Hind
    · exact regOrd_setN_frame Hord hpfacts.1
    · intro m2 hm2
      have : m2 ≠ p := fun hh => hpfacts.1 (hh ▸ hm2)
      simp only
      rw [findN_setN_ne _ _ _ _ (fun hh => this hh.symm)]
      exact Hterm m2 hm2
    · exact Hrnr
    · simp only
      by_cases hp0 : p = 0
      · subst hp0
        rw [findN_setN_self]
        exact HrF
      · rw [findN_setN_ne _ _ _ _ hp0]
        exact HrF
    · intro hws
      simp only
      by_cases hp0 : p = 0
      · subst hp0
        rw [findN_setN_self]
        simp [childIns_ne_nil]
      · rw [findN_setN_ne _ _ _ _ hp0]
        exact Hrch hws
    · intro i
      simp only
      by_cases hip : p = i
      · subst hip
        rw [findN_setN_self]
        exact childIns_sorted (Hsort p) _ _
      · rw [findN_setN_ne _ _ _ _ hip]
        exact Hsort i
    · intro pr hpr
      simp only at hpr ⊢
      rcases setN_mem hpr with rfl | hpr2
      · refine ⟨hpfacts.2, ?_⟩
        intro q hq
        simp only at hq
        rcases childIns_mem (Hsort p) hq with rfl | ⟨hq2, _⟩
        · exact hmseq
        · rcases findN_mem_or_default d.nodes p with hmem | hdef
          · exact (Hseqs _ hmem).2 q hq2
          · rw [hdef] at hq2
            cases hq2
      · exact Hseqs pr hpr2
    · exact Hseqr
    · intro e he
      exact Hseqc e (by rw [hu]; exact List.mem_cons_of_mem _ he)
    · exact mem_dom_setN Hdr
    · intro pr hpr
      simp only at hpr ⊢
      rcases setN_mem hpr with rfl | hpr2
      · intro q hq
        simp only at hq
        rcases childIns_mem (Hsort p) hq with rfl | ⟨hq2, _⟩
        · exact mem_dom_setN (Hdreg m hmS)
        · rcases findN_mem_or_default d.nodes p with hmem | hdef
          · exact mem_dom_setN (Hde _ hmem q hq2)
          · rw [hdef] at hq2
            cases hq2
      · intro q hq
        exact mem_dom_setN (Hde pr hpr2 q hq)
    · intro m2 hm2
      exact mem_dom_setN (Hdreg m2 hm2)
  | none =>
    have hknotin : ∀ kv ∈ d.minimized, kv.1 ≠ keyGo (findN d.nodes c) :=
      assocFind_eq_none hreg
    refine ⟨?_, ?_, ?_, ?_, ?_, ?_, ?_, ?_, ?_, ?_, ?_, ?_, ?_, ?_, ?_, ?_, ?_, ?_, ?_, ?_⟩
    · exact Hmem
    · simp only [List.map_cons]
      exact chainShape_pop_miss Hchain
    · exact hchain_rest_incr
    · intro e he
      simp only [List.map_cons, List.mem_cons]
      push_neg
      constructor
      · have : e.2.1 ∈ 0 :: rest.reverse.map (fun e => e.2.1) := by
          refine List.mem_cons_of_mem _ ?_
          exact List.mem_map.mpr ⟨e, List.mem_reverse.mpr he, rfl⟩
        have := hltc _ this
        omega
      · exact Hcnr e (by rw [hu]; exact List.mem_cons_of_mem _ he)
    · intro e he
      exact Hcdom e (by rw [hu]; exact List.mem_cons_of_mem _ he)
    · intro kv hkv
      rcases List.mem_cons.mp hkv with rfl | hkv2
      · rfl
      · exact Hrkey kv hkv2
    · simp only [List.map_cons]
      refine List.Pairwise.cons ?_ Hknd
      intro k2 hk2
      rcases List.mem_map.mp hk2 with ⟨kv, hkv, rfl⟩
      exact fun hh => hknotin kv hkv hh.symm
    · simp only [List.map_cons]
      refine List.Pairwise.cons ?_ Hind
      intro m2 hm2
      intro hh
      exact hcS (hh ▸ hm2)
    · exact ⟨hcch, Hord⟩
    · intro m2 hm2
      simp only [List.map_cons, List.mem_cons] at hm2
      rcases hm2 with rfl | hm2
      · rcases hcFC with hf | hf | hf
        · exact Or.inl hf
        · exact Or.inr hf
        · omega
      · exact Hterm m2 hm2
    · simp only [List.map_cons, List.mem_cons]
      push_neg
      exact ⟨by omega, Hrnr⟩
    · exact HrF
    · exact Hrch
    · exact Hsort
    · exact Hseqs
    · intro kv hkv
      rcases List.mem_cons.mp hkv with rfl | hkv2
      · exact (Hseqc _ hmemu).2
      · exact Hseqr kv hkv2
    · intro e he
      exact Hseqc e (by rw [hu]; exact List.mem_cons_of_mem _ he)
    · exact Hdr
    · exact Hde
    · intro m2 hm2
      simp only [List.map_cons, List.mem_cons] at hm2
      rcases hm2 with rfl | hm2
      · exact Hcdom _ hmemu
      · exact Hdreg m2 hm2

theorem minStep_unchecked (d : DAWG) (p c b : Nat) (rest : List (Nat × Nat × Nat)) :
    (minStep d p c b rest).unchecked = rest := by
  simp only [minStep]
  cases assocFind d.minimized (keyGo (findN d.nodes c)) <;> rfl

theorem minStep_prevWord (d : DAWG) (p c b : Nat) (rest : List (Nat × Nat × Nat)) :
    (minStep d p c b rest).prevWord = d.prevWord := by
  simp only [minStep]
  cases assocFind d.minimized (keyGo (findN d.nodes c)) <;> rfl

theorem minStep_seq (d : DAWG) (p c b : Nat) (rest : List (Nat × Nat × Nat)) :
    (minStep d p c b rest).seq = d.seq := by
  simp only [minStep]
  cases assocFind d.minimized (keyGo (findN d.nodes c)) <;> rfl

theorem inv_minimizeSteps {ws : List (List Nat)} (n : Nat) :
    ∀ {d : DAWG}, Inv ws d → Inv ws (minimizeSteps n d) := by
  induction n with
  | zero => intro d hI; exact hI
  | succ n ih =>
    intro d hI
    cases hu : d.unchecked with
    | nil => simp only [minimizeSteps, hu]; exact hI
    | cons e rest =>
      obtain ⟨p, c, b⟩ := e
      simp only [minimizeSteps, hu]
      exact ih (inv_minStep hI hu)

theorem minimizeSteps_unchecked (n : Nat) :
    ∀ d : DAWG, (minimizeSteps n d).unchecked = d.unchecked.drop n := by
  induction n with
  | zero => intro d; rfl
  | succ n ih =>
    intro d
    cases hu : d.unchecked with
    | nil =>
      simp only [minimizeSteps, hu]
      simp
    | cons e rest =>
      obtain ⟨p, c, b⟩ := e
      simp only [minimizeSteps, hu]
      rw [ih, minStep_unchecked]
      simp

theorem minimizeSteps_prevWord (n : Nat) :
    ∀ d : DAWG, (minimizeSteps n d).prevWord = d.prevWord := by
  induction n with
  | zero => intro d; rfl
  | succ n ih =>
    intro d
    cases hu : d.unchecked with
    | nil => simp only [minimizeSteps, hu]
    | cons e rest =>
      obtain ⟨p, c, b⟩ := e
      simp only [minimizeSteps, hu]
      rw [ih, minStep_prevWord]

theorem minimizeSteps_seq (n : Nat) :
    ∀ d : DAWG, (minimizeSteps n d).seq = d.seq := by
  induction n with
  | zero => intro d; rfl
  | succ n ih =>
    intro d
    cases hu : d.unchecked with
    | nil => simp only [minimizeSteps, hu]
    | cons e rest =>
      obtain ⟨p, c, b⟩ := e
      simp only [minimizeSteps, hu]
      rw [ih, minStep_seq]

/-! ## The appending loop of `Insert` -/

theorem ext_seq (bs : List Nat) : ∀ (d : DAWG) (curr : Nat),
    (extendLoop d curr bs).seq = d.seq + bs.length := by
  induction bs with
  | nil => intro d curr; rfl
  | cons b bs2 ih =>
    intro d curr
    simp only [extendLoop]
    rw [ih]
    simp only [List.length_cons]
    omega

theorem ext_prevWord (bs : List Nat) : ∀ (d : DAWG) (curr : Nat),
    (extendLoop d curr bs).prevWord = d.prevWord := by
  induction bs with
  | nil => intro d curr; rfl
  | cons b bs2 ih =>
    intro d curr
    simp only [extendLoop]
    rw [ih]

theorem ext_minimized (bs : List Nat) : ∀ (d : DAWG) (curr : Nat),
    (extendLoop d curr bs).minimized = d.minimized := by
  induction bs with
  | nil => intro d curr; rfl
  | cons b bs2 ih =>
    intro d curr
    simp only [extendLoop]
    rw [ih]

theorem ext_unchecked (bs : List Nat) : ∀ (d : DAWG) (curr : Nat),
    (extendLoop d curr bs).unchecked = (newEntriesR d.seq curr bs).reverse ++ d.unchecked := by
  induction bs with
  | nil => intro d curr; simp [extendLoop, newEntriesR]
  | cons b bs2 ih =>
    intro d curr
    simp only [extendLoop]
    rw [ih]
    simp [newEntriesR]

theorem newEntriesR_length (bs : List Nat) : ∀ seq curr,
    (newEntriesR seq curr bs).length = bs.length := by
  induction bs with
  | nil => intro seq curr; rfl
  | cons b bs2 ih =>
    intro seq curr
    simp only [newEntriesR, List.length_cons, ih]

theorem newEntriesR_children (bs : List Nat) : ∀ seq curr b1,
    (b1 :: (newEntriesR seq curr bs).map (fun e => e.2.1)).Chain' (· < ·) →
    True := by
  intro _ _ _ _; trivial

theorem ext_find_old (bs : List Nat) : ∀ (d : DAWG) (curr i : Nat),
    i ≤ d.seq → i ≠ curr →
    findN (extendLoop d curr bs).nodes i = findN d.nodes i := by
  induction bs with
  | nil =>
    intro d curr i _ hne
    simp only [extendLoop]
    rw [findN_setN_ne _ _ _ _ (fun hh => hne hh.symm)]
  | cons b bs2 ih =>
    intro d curr i hseq hne
    simp only [extendLoop]
    rw [ih _ _ _ (by simp; omega) (by omega)]
    simp only
    rw [findN_setN_ne _ _ _ _ (fun hh => hne hh.symm),
      findN_setN_ne _ _ _ _ (by omega)]

theorem ext_dom_mono (bs : List Nat) : ∀ (d : DAWG) (curr i : Nat),
    i ∈ d.nodes.map (·.1) → i ∈ (extendLoop d curr bs).nodes.map (·.1) := by
  induction bs with
  | nil =>
    intro d curr i h
    simp only [extendLoop]
    exact mem_dom_setN h
  | cons b bs2 ih =>
    intro d curr i h
    simp only [extendLoop]
    exact ih _ _ _ (mem_dom_setN (mem_dom_setN h))

theorem ext_sorted (bs : List Nat) : ∀ (d : DAWG) (curr : Nat),
    (∀ i, SortedC (findN d.nodes i).C) →
    ∀ i, SortedC (findN (extendLoop d curr bs).nodes i).C := by
  induction bs with
  | nil =>
    intro d curr hs i
    simp only [extendLoop]
    by_cases hic : curr = i
    · subst hic
      rw [findN_setN_self]
      exact hs curr
    · rw [findN_setN_ne _ _ _ _ hic]
      exact hs i
  | cons b bs2 ih =>
    intro d curr hs i
    simp only [extendLoop]
    refine ih _ _ ?_ i
    intro j
    simp only
    by_cases hjc : curr = j
    · subst hjc
      rw [findN_setN_self]
      exact childIns_sorted (hs curr) _ _
    · rw [findN_setN_ne _ _ _ _ hjc]
      by_cases hjn : d.seq + 1 = j
      · subst hjn
        rw [findN_setN_self]
        simp [SortedC]
      · rw [findN_setN_ne _ _ _ _ hjn]
        exact hs j

theorem childIns_mem_weak {l : List (Nat × Nat)} {b v : Nat} {q : Nat × Nat}
    (h : q ∈ childIns l b v) : q = (b, v) ∨ q ∈ l := by
  induction l with
  | nil =>
    simp only [childIns, List.mem_singleton] at h
    exact Or.inl h
  | cons p r ih =>
    obtain ⟨a, w⟩ := p
    simp only [childIns] at h
    by_cases h1 : b < a
    · rw [if_pos h1] at h
      rcases List.mem_cons.mp h with rfl | h
      · exact Or.inl rfl
      · exact Or.inr h
    · rw [if_neg h1] at h
      by_cases h2 : b = a
      · subst h2
        rw [if_pos rfl] at h
        rcases List.mem_cons.mp h with rfl | h
        · exact Or.inl rfl
        · exact Or.inr (by simp [h])
      · rw [if_neg h2] at h
        rcases List.mem_cons.mp h with rfl | h
        · exact Or.inr (by simp)
        · rcases ih h with h | h
          · exact Or.inl h
          · exact Or.inr (by simp [h])

theorem ext_seq_store (bs : List Nat) : ∀ (d : DAWG) (curr : Nat),
    (∀ pr ∈ d.nodes, pr.1 ≤ d.seq ∧ ∀ q ∈ pr.2.C, q.2 ≤ d.seq) →
    curr ≤ d.seq →
    ∀ pr ∈ (extendLoop d curr bs).nodes,
      pr.1 ≤ (extendLoop d curr bs).seq ∧
      ∀ q ∈ pr.2.C, q.2 ≤ (extendLoop d curr bs).seq := by
  induction bs with
  | nil =>
    intro d curr hst hc pr hpr
    simp only [extendLoop] at hpr ⊢
    rcases setN_mem hpr with rfl | hpr2
    · refine ⟨hc, ?_⟩
      intro q hq
      simp only at hq
      rcases findN_mem_or_default d.nodes curr with hmem | hdef
      · exact (hst _ hmem).2 q hq
      · rw [hdef] at hq
        cases hq
    · exact hst pr hpr2
  | cons b bs2 ih =>
    intro d curr hst hc pr hpr
    simp only [extendLoop] at hpr ⊢
    refine ih _ _ ?_ (by simp) pr hpr
    intro pr2 hpr2
    simp only
    rcases setN_mem hpr2 with rfl | hpr3
    · refine ⟨by omega, ?_⟩
      intro q hq
      simp only at hq
      rcases childIns_mem_weak hq with rfl | hq2
      · omega
      · rcases findN_mem_or_default d.nodes curr with hmem | hdef
        · have := (hst _ hmem).2 q hq2
          omega
        · rw [hdef] at hq2
          cases hq2
    · rcases setN_mem hpr3 with rfl | hpr4
      · exact ⟨by omega, by simp⟩
      · have := hst pr2 hpr4
        exact ⟨by omega, fun q hq => by have := this.2 q hq; omega⟩

theorem ext_dom_edges (bs : List Nat) : ∀ (d : DAWG) (curr : Nat),
    (∀ pr ∈ d.nodes, ∀ q ∈ pr.2.C, q.2 ∈ d.nodes.map (·.1)) →
    curr ∈ d.nodes.map (·.1) →
    (∀ pr ∈ (extendLoop d curr bs).nodes, ∀ q ∈ pr.2.C,
      q.2 ∈ (extendLoop d curr bs).nodes.map (·.1)) := by
  induction bs with
  | nil =>
    intro d curr hde hcd pr hpr q hq
    simp only [extendLoop] at hpr ⊢
    rcases setN_mem hpr with rfl | hpr2
    · simp only at hq
      rcases findN_mem_or_default d.nodes curr with hmem | hdef
      · exact mem_dom_setN (hde _ hmem q hq)
      · rw [hdef] at hq
        cases hq
    · exact mem_dom_setN (hde pr hpr2 q hq)
  | cons b bs2 ih =>
    intro d curr hde hcd pr hpr q hq
    simp only [extendLoop] at hpr ⊢
    refine ih _ _ ?_ ?_ pr hpr q hq
    · intro pr2 hpr2 q2 hq2
      simp only
      rcases setN_mem hpr2 with rfl | hpr3
      · simp only at hq2
        rcases childIns_mem_weak hq2 with rfl | hq3
        · exact mem_dom_setN (mem_dom_setN_self _ _ _)
        · rcases findN_mem_or_default d.nodes curr with hmem | hdef
          · exact mem_dom_setN (mem_dom_setN (hde _ hmem q2 hq3))
          · rw [hdef] at hq3
            cases hq3
      · rcases setN_mem hpr3 with rfl | hpr4
        · simp at hq2
        · exact mem_dom_setN (mem_dom_setN (hde pr2 hpr4 q2 hq2))
    · exact mem_dom_setN (mem_dom_setN_self _ _ _)

theorem lookupFrom_frame_of_records {s1 s2 : Store} {S : List Nat}
    (hrec : ∀ m ∈ S, findN s2 m = findN s1 m)
    (hcl : ∀ m ∈ S, ∀ q ∈ (findN s1 m).C, q.2 ∈ S) :
    ∀ (w : List Nat), ∀ m ∈ S, lookupFrom s2 m w = lookupFrom s1 m w := by
  intro w
  induction w with
  | nil =>
    intro m hm
    simp only [lookupFrom, hrec m hm]
  | cons b bs ih =>
    intro m hm
    simp only [lookupFrom, hrec m hm]
    cases hcf : childFind (findN s1 m).C b with
    | none => rfl
    | some j => exact ih j (hcl m hm _ (childFind_mem hcf))

theorem regOrd_frame {s1 s2 : Store} {R : List (List Nat × Nat)}
    (hrec : ∀ m ∈ R.map (·.2), findN s2 m = findN s1 m)
    (h : RegOrd s1 R) : RegOrd s2 R := by
  induction R with
  | nil => trivial
  | cons kv rest ih =>
    obtain ⟨k, m⟩ := kv
    obtain ⟨hch, hrest⟩ := h
    refine ⟨?_, ih (fun m2 hm2 => hrec m2 (by simp only [List.map_cons]; exact List.mem_cons_of_mem _ hm2)) hrest⟩
    rw [hrec m (by simp)]
    exact hch

theorem lookupFrom_of_default {s : Store} {i : Nat}
    (h : findN s i = ⟨false, []⟩) : ∀ w, lookupFrom s i w = false := by
  intro w
  cases w with
  | nil => simp [lookupFrom, h]
  | cons b bs => simp [lookupFrom, h, childFind]

/-- The record of every node other than the endpoint and the fresh tail of
the appending loop, seen from the loop's final store, is its old record. -/
theorem ext_records_S_frame (bs : List Nat) (d : DAWG) (curr : Nat) (S : List Nat)
    (hSseq : ∀ m ∈ S, m ≤ d.seq) (hcS : curr ∉ S) :
    ∀ m ∈ S, findN (extendLoop d curr bs).nodes m = findN d.nodes m := by
  intro m hm
  exact ext_find_old bs d curr m (hSseq m hm) (fun hh => hcS (hh ▸ hm))

/-- The semantic effect of the appending loop at its starting node: exactly
the word formed by the appended bytes becomes accepted. -/
theorem ext_lookup_base (bs : List Nat) : ∀ (d : DAWG) (curr : Nat) (S : List Nat),
    (∀ b1 bs2, bs = b1 :: bs2 → childFind (findN d.nodes curr).C b1 = none) →
    (∀ q ∈ (findN d.nodes curr).C, q.2 ∈ S) →
    (∀ m ∈ S, ∀ q ∈ (findN d.nodes m).C, q.2 ∈ S) →
    (∀ m ∈ S, m ≤ d.seq) →
    curr ∉ S → curr ≤ d.seq →
    ∀ w, lookupFrom (extendLoop d curr bs).nodes curr w
      = (lookupFrom d.nodes curr w || (w == bs)) := by
  induction bs with
  | nil =>
    intro d curr S _ hch hcl hSseq hcS _ w
    simp only [extendLoop]
    cases w with
    | nil =>
      simp only [lookupFrom]
      rw [findN_setN_self]
      simp
    | cons x xs =>
      simp only [lookupFrom]
      rw [findN_setN_self]
      simp only
      cases hcf : childFind (findN d.nodes curr).C x with
      | none => simp
      | some j =>
        have hjS := hch _ (childFind_mem hcf)
        change lookupFrom _ j xs = (lookupFrom d.nodes j xs || _)
        rw [lookupFrom_setN_frame hcl hcS xs j hjS]
        simp
  | cons b bs2 ih =>
    intro d curr S hnew hch hcl hSseq hcS hcseq w
    simp only [extendLoop]
    cases w with
    | nil =>
      simp only [lookupFrom]
      rw [ext_find_old _ _ _ _ (by simp; omega) (by omega)]
      simp only
      rw [findN_setN_self]
      simp
    | cons x xs =>
      simp only [lookupFrom]
      rw [ext_find_old _ _ _ _ (by simp; omega) (by omega)]
      simp only
      rw [findN_setN_self]
      simp only [childFind_childIns]
      by_cases hbx : b = x
      · subst hbx
        rw [if_pos rfl, hnew b bs2 rfl]
        change lookupFrom (extendLoop _ (d.seq + 1) bs2).nodes (d.seq + 1) xs = (false || _)
        have hfresh : findN (setN (setN d.nodes (d.seq + 1) ⟨false, []⟩) curr
            ⟨(findN d.nodes curr).F, childIns (findN d.nodes curr).C b (d.seq + 1)⟩)
            (d.seq + 1) = ⟨false, []⟩ := by
          rw [findN_setN_ne _ _ _ _ (by omega), findN_setN_self]
        rw [ih _ _ S ?_ ?_ ?_ ?_ ?_ ?_ xs]
        · simp only
          rw [lookupFrom_of_default hfresh xs]
          simp [beq_iff_eq]
        · intro b1 bs3 hbs
          rw [hfresh]
          rfl
        · rw [hfresh]
          simp
        · intro m hm q hq
          have hrec : findN (setN (setN d.nodes (d.seq + 1) ⟨false, []⟩) curr
              ⟨(findN d.nodes curr).F, childIns (findN d.nodes curr).C b (d.seq + 1)⟩) m
              = findN d.nodes m := by
            rw [findN_setN_ne _ _ _ _ (fun hh => hcS (by rw [hh]; exact hm)),
              findN_setN_ne _ _ _ _ (by have := hSseq m hm; omega)]
          rw [hrec] at hq
          exact hcl m hm q hq
        · intro m hm
          simp only
          have := hSseq m hm
          omega
        · intro hmem
          have := hSseq _ hmem
          omega
        · simp
      · rw [if_neg hbx]
        cases hcf : childFind (findN d.nodes curr).C x with
        | none =>
          have : ((x :: xs : List Nat) == (b :: bs2)) = false := by
            simp [beq_iff_eq]
            intro hh
            exact absurd hh.symm hbx
          simp [this]
        | some j =>
          have hjS := hch _ (childFind_mem hcf)
          have hrecs : ∀ m ∈ S, findN (extendLoop
              { d with
                seq := d.seq + 1,
                nodes := setN (setN d.nodes (d.seq + 1) ⟨false, []⟩) curr
                  ⟨(findN d.nodes curr).F, childIns (findN d.nodes curr).C b (d.seq + 1)⟩,
                unchecked := (curr, d.seq + 1, b) :: d.unchecked }
              (d.seq + 1) bs2).nodes m = findN d.nodes m := by
            intro m hm
            rw [ext_find_old _ _ _ _ (by simp only; have := hSseq m hm; omega)
              (by have := hSseq m hm; omega)]
            simp only
            rw [findN_setN_ne _ _ _ _ (fun hh => hcS (by rw [hh]; exact hm)),
              findN_setN_ne _ _ _ _ (by have := hSseq m hm; omega)]
          have heq := lookupFrom_frame_of_records hrecs hcl xs j hjS
          change lookupFrom _ j xs = ((lookupFrom d.nodes j xs) || _)
          rw [heq]
          have hbeq : ((x :: xs : List Nat) == (b :: bs2)) = false := by
            simp [List.cons_beq_cons]
            intro hh
            exact absurd hh.symm hbx
          simp [hbeq]

theorem chainSeg_append_shape {s : Store} {S : List Nat} :
    ∀ {es1 : List (Nat × Nat × Nat)} {bs1 : List Nat} {par endp : Nat}
      {es2 : List (Nat × Nat × Nat)} {bs2 : List Nat},
    ChainSeg s S par es1 bs1 endp → ChainShape s S endp es2 bs2 →
    ChainShape s S par (es1 ++ es2) (bs1 ++ bs2) := by
  intro es1
  induction es1 with
  | nil =>
    intro bs1 par endp es2 bs2 hseg hsh
    cases bs1 with
    | nil =>
      have : endp = par := hseg
      subst this
      simpa using hsh
    | cons pb bs1x => exact hseg.elim
  | cons e es1x ih =>
    intro bs1 par endp es2 bs2 hseg hsh
    obtain ⟨p, c, b⟩ := e
    cases bs1 with
    | nil => exact hseg.elim
    | cons pb bs1x =>
      obtain ⟨h1, h2, h3, h4, h5, h6⟩ := hseg
      exact ⟨h1, h2, h3, h4, h5, ih h6 hsh⟩

theorem chainShape_split {s : Store} {S : List Nat} :
    ∀ {entries : List (Nat × Nat × Nat)} {par : Nat} {bs : List Nat},
    ChainShape s S par entries bs →
    ∃ endp, ChainSeg s S par entries (bs.take entries.length) endp ∧
      ChainShape s S endp [] (bs.drop entries.length) ∧
      ((entries = [] ∧ endp = par) ∨ ∃ pre e, entries = pre ++ [e] ∧ endp = e.2.1) := by
  intro entries
  induction entries with
  | nil =>
    intro par bs h
    exact ⟨par, rfl, by simpa using h, Or.inl ⟨rfl, rfl⟩⟩
  | cons e es ih =>
    intro par bs h
    obtain ⟨p, c, b⟩ := e
    cases bs with
    | nil => exact h.elim
    | cons pb bs2 =>
      obtain ⟨h1, h2, h3, h4, h5, h6⟩ := h
      obtain ⟨endp, hseg, hsh, hend⟩ := ih h6
      refine ⟨endp, ⟨h1, h2, h3, h4, h5, hseg⟩, hsh, ?_⟩
      rcases hend with ⟨hes, hec⟩ | ⟨pre, e2, hpre, he2⟩
      · subst hes
        exact Or.inr ⟨[], (p, c, b), by simp, hec⟩
      · exact Or.inr ⟨(p, c, b) :: pre, e2, by rw [hpre]; rfl, he2⟩

theorem chainSeg_frame {s1 s2 : Store} {S : List Nat} :
    ∀ {es : List (Nat × Nat × Nat)} {par : Nat} {bs : List Nat} {endp : Nat},
    ChainSeg s1 S par es bs endp →
    (∀ e ∈ es, findN s2 e.1 = findN s1 e.1) →
    ChainSeg s2 S par es bs endp := by
  intro es
  induction es with
  | nil =>
    intro par bs endp hseg _
    cases bs with
    | nil => exact hseg
    | cons pb bs2 => exact hseg.elim
  | cons e es2 ih =>
    intro par bs endp hseg hrec
    obtain ⟨p, c, b⟩ := e
    cases bs with
    | nil => exact hseg.elim
    | cons pb bs2 =>
      obtain ⟨h1, h2, h3, h4, h5, h6⟩ := hseg
      subst h1
      have hr := hrec (p, c, b) (by simp)
      simp only at hr
      exact ⟨rfl, h2, by rw [hr]; exact h3, by rw [hr]; exact h4,
        by rw [hr]; exact h5, ih h6 (fun e2 he2 => hrec e2 (by simp [he2]))⟩

/-- Lifting the appending loop's semantic effect from the endpoint back to
the root, along the untouched register segment. -/
theorem ext_lookup_seg {s1 s2 : Store} {S : List Nat} {curr : Nat} {ys2 : List Nat} :
    ∀ {es : List (Nat × Nat × Nat)} {par : Nat} {ys1 : List Nat},
    ChainSeg s1 S par es ys1 curr →
    (∀ e ∈ es, findN s2 e.1 = findN s1 e.1) →
    (∀ m ∈ S, ∀ w, lookupFrom s2 m w = lookupFrom s1 m w) →
    (∀ w, lookupFrom s2 curr w = (lookupFrom s1 curr w || (w == ys2))) →
    ∀ w, lookupFrom s2 par w = (lookupFrom s1 par w || (w == ys1 ++ ys2)) := by
  intro es
  induction es with
  | nil =>
    intro par ys1 hseg hrec hS hbase w
    cases ys1 with
    | nil =>
      have : curr = par := hseg
      subst this
      simpa using hbase w
    | cons pb ys1x => exact hseg.elim
  | cons e es2 ih =>
    intro par ys1 hseg hrec hS hbase w
    obtain ⟨p, c, b⟩ := e
    cases ys1 with
    | nil => exact hseg.elim
    | cons pb ys1x =>
      obtain ⟨h1, h2, h3, h4, h5, h6⟩ := hseg
      subst h1
      subst h2
      have hr := hrec (p, c, b) (by simp)
      simp only at hr
      cases w with
      | nil =>
        simp only [lookupFrom]
        rw [hr]
        simp
      | cons x xs =>
        simp only [lookupFrom]
        rw [hr]
        cases hcf : childFind (findN s1 p).C x with
        | none =>
          have hxpb : x ≠ b := by
            intro hh
            rw [hh, h3] at hcf
            cases hcf
          have hxb : (x == b) = false := beq_eq_false_iff_ne.mpr hxpb
          have hbeq : ((x :: xs : List Nat) == ((b :: ys1x) ++ ys2)) = false := by
            rw [List.cons_append, List.cons_beq_cons, hxb]
            simp
          change (false : Bool) = ((false : Bool) || _)
          rw [hbeq]
          rfl
        | some j =>
          by_cases hxpb : x = b
          · subst hxpb
            have hjc : j = c := by
              rw [h3] at hcf
              injection hcf with hh
              exact hh.symm
            subst hjc
            change lookupFrom s2 j xs = (lookupFrom s1 j xs || _)
            rw [ih h6 (fun e2 he2 => hrec e2 (by simp [he2])) hS hbase xs]
            simp [List.cons_beq_cons]
          · have hjS : (x, j).2 ∈ S := by
              rcases h5 (x, j) (childFind_mem hcf) with h | ⟨hh, _⟩
              · exact h
              · exact absurd hh hxpb
            change lookupFrom s2 j xs = (lookupFrom s1 j xs || _)
            rw [hS j hjS xs]
            have hxb : (x == b) = false := beq_eq_false_iff_ne.mpr hxpb
            have hbeq : ((x :: xs : List Nat) == ((b :: ys1x) ++ ys2)) = false := by
              rw [List.cons_append, List.cons_beq_cons, hxb]
              simp
            rw [hbeq]
            simp

/-- The appending loop hangs a fresh, well-shaped register tail off the
endpoint. -/
theorem ext_chain_new (bs : List Nat) : ∀ (d : DAWG) (curr : Nat) (S : List Nat),
    (∀ b1 bs2, bs = b1 :: bs2 → ∀ q ∈ (findN d.nodes curr).C, q.1 < b1 ∧ q.2 ∈ S) →
    (bs = [] → (findN d.nodes curr).C = []) →
    curr ≤ d.seq →
    ChainShape (extendLoop d curr bs).nodes S curr (newEntriesR d.seq curr bs) bs := by
  induction bs with
  | nil =>
    intro d curr S _ hnil _
    simp only [extendLoop, newEntriesR]
    refine ⟨?_, ?_⟩
    · rw [findN_setN_self]
      rw [hnil rfl]
    · rw [findN_setN_self]
      exact Or.inl rfl
  | cons b bs2 ih =>
    intro d curr S hok _ hcseq
    simp only [extendLoop, newEntriesR]
    have hrecc : findN (extendLoop
        { d with
          seq := d.seq + 1,
          nodes := setN (setN d.nodes (d.seq + 1) ⟨false, []⟩) curr
            ⟨(findN d.nodes curr).F, childIns (findN d.nodes curr).C b (d.seq + 1)⟩,
          unchecked := (curr, d.seq + 1, b) :: d.unchecked }
        (d.seq + 1) bs2).nodes curr
        = ⟨(findN d.nodes curr).F, childIns (findN d.nodes curr).C b (d.seq + 1)⟩ := by
      rw [ext_find_old _ _ _ _ (by simp only; omega) (by omega)]
      simp only
      rw [findN_setN_self]
    have hrecf : findN (setN (setN d.nodes (d.seq + 1) ⟨false, []⟩) curr
        ⟨(findN d.nodes curr).F, childIns (findN d.nodes curr).C b (d.seq + 1)⟩)
        (d.seq + 1) = ⟨false, []⟩ := by
      rw [findN_setN_ne _ _ _ _ (by omega), findN_setN_self]
    refine ⟨rfl, rfl, ?_, ?_, ?_, ?_⟩
    · rw [hrecc]
      simp only [childFind_childIns]
      simp
    · rw [hrecc]
      intro q hq
      simp only at hq
      rcases childIns_mem_weak hq with rfl | hq2
      · exact le_refl _
      · have := (hok b bs2 rfl q hq2).1
        omega
    · rw [hrecc]
      intro q hq
      simp only at hq
      rcases childIns_mem_weak hq with rfl | hq2
      · exact Or.inr ⟨rfl, rfl⟩
      · exact Or.inl (hok b bs2 rfl q hq2).2
    · refine ih _ _ S ?_ ?_ (by simp)
      · intro b1 bs3 _ q hq
        simp only at hq
        rw [hrecf] at hq
        cases hq
      · intro _
        simp only
        rw [hrecf]

theorem chain'_append_of_bounds {l1 l2 : List Nat}
    (h1 : List.Chain' (· < ·) l1) (h2 : List.Chain' (· < ·) l2)
    (hb : ∀ x ∈ l1, ∀ y ∈ l2, x < y) : List.Chain' (· < ·) (l1 ++ l2) := by
  refine List.chain'_append.mpr ⟨h1, h2, ?_⟩
  intro x hx y hy
  rcases List.mem_getLast?_eq_getLast hx with ⟨hne, rfl⟩
  exact hb _ (List.getLast_mem hne) y (List.mem_of_mem_head? hy)

theorem newEntriesR_child_facts (bs : List Nat) : ∀ (seq curr : Nat),
    List.Chain' (· < ·) ((newEntriesR seq curr bs).map (fun e => e.2.1)) ∧
    ∀ x ∈ (newEntriesR seq curr bs).map (fun e => e.2.1), seq < x := by
  induction bs with
  | nil => intro seq curr; exact ⟨List.chain'_nil, by simp [newEntriesR]⟩
  | cons b bs2 ih =>
    intro seq curr
    obtain ⟨hch, hbd⟩ := ih (seq + 1) (seq + 1)
    constructor
    · simp only [newEntriesR, List.map_cons]
      refine List.chain'_cons'.mpr ⟨?_, hch⟩
      intro y hy
      exact hbd y (List.mem_of_mem_head? hy)
    · simp only [newEntriesR, List.map_cons, List.mem_cons]
      rintro x (rfl | hx)
      · omega
      · have := hbd x hx
        omega

theorem newEntriesR_bounds (bs : List Nat) : ∀ (seq curr : Nat), curr ≤ seq →
    ∀ e ∈ newEntriesR seq curr bs,
      e.1 ≤ seq + bs.length ∧ e.2.1 ≤ seq + bs.length := by
  induction bs with
  | nil => intro seq curr _ e he; simp [newEntriesR] at he
  | cons b bs2 ih =>
    intro seq curr hc e he
    simp only [newEntriesR, List.mem_cons] at he
    rcases he with rfl | he
    · simp only [List.length_cons]
      omega
    · have := ih (seq + 1) (seq + 1) (le_refl _) e he
      simp only [List.length_cons]
      omega

theorem ext_dom_new (bs : List Nat) : ∀ (d : DAWG) (curr : Nat),
    ∀ e ∈ newEntriesR d.seq curr bs,
      e.2.1 ∈ (extendLoop d curr bs).nodes.map (·.1) := by
  induction bs with
  | nil => intro d curr e he; simp [newEntriesR] at he
  | cons b bs2 ih =>
    intro d curr e he
    simp only [newEntriesR, List.mem_cons] at he
    simp only [extendLoop]
    rcases he with rfl | he
    · simp only
      exact ext_dom_mono _ _ _ _ (mem_dom_setN (mem_dom_setN_self _ _ _))
    · exact ih _ _ e he

theorem ext_find_curr {bs : List Nat} {b : Nat} {bs2 : List Nat} (d : DAWG) (curr : Nat)
    (hbs : bs = b :: bs2) (hc : curr ≤ d.seq) :
    findN (extendLoop d curr bs).nodes curr
      = ⟨(findN d.nodes curr).F, childIns (findN d.nodes curr).C b (d.seq + 1)⟩ := by
  subst hbs
  simp only [extendLoop]
  rw [ext_find_old _ _ _ _ (by simp only; omega) (by omega)]
  simp only
  rw [findN_setN_self]

theorem childFind_some_ne_nil {l : List (Nat × Nat)} {x v : Nat}
    (h : childFind l x = some v) : l ≠ [] := by
  intro hnil
  rw [hnil] at h
  cases h

theorem chainShape_parent_lt_last {s : Store} {S : List Nat} :
    ∀ {pre : List (Nat × Nat × Nat)} {par : Nat} {bs : List Nat} {p c b : Nat},
    ChainShape s S par (pre ++ [(p, c, b)]) bs →
    List.Chain' (· < ·) (par :: (pre ++ [(p, c, b)]).map (fun e => e.2.1)) →
    ∀ e ∈ pre ++ [(p, c, b)], e.1 < c := by
  intro pre
  induction pre with
  | nil =>
    intro par bs p c b h hincr e he
    cases bs with
    | nil => exact h.elim
    | cons pb bs2 =>
      obtain ⟨h1, _, _, _, _, _⟩ := h
      simp only [List.nil_append, List.mem_singleton] at he
      subst he
      show p < c
      rw [h1]
      simp only [List.nil_append, List.map_cons, List.map_nil] at hincr
      exact (List.chain'_cons.mp hincr).1
  | cons e0 pre2 ih =>
    intro par bs p c b h hincr e he
    obtain ⟨p0, c0, b0⟩ := e0
    cases bs with
    | nil => exact h.elim
    | cons pb bs2 =>
      obtain ⟨h1, _, _, _, _, h6⟩ := h
      simp only [List.cons_append, List.map_cons] at hincr
      rcases List.mem_cons.mp he with rfl | he2
      · show p0 < c
        rw [h1]
        have hp := List.chain'_iff_pairwise.mp hincr
        have hcmem : c ∈ c0 :: (pre2 ++ [(p, c, b)]).map (fun e => e.2.1) := by
          simp
        exact List.rel_of_pairwise_cons hp hcmem
      · exact ih h6 hincr.tail e he2

theorem insertTail_eq (d : DAWG) (word : List Nat) (lcp : Nat) :
    insertTail d word lcp = extendLoop { d with prevWord := word }
      (headChild d.unchecked) (word.drop lcp) := by
  cases hu : d.unchecked with
  | nil => simp only [insertTail, hu, headChild]
  | cons e rest =>
    obtain ⟨p1, c1, b1⟩ := e
    simp only [insertTail, hu, headChild]

/-- Core preservation step of `Insert`: after `minimize(lcp)` has trimmed the
unchecked chain down to the common prefix, appending the remaining bytes of
the new word preserves the invariant and accepts exactly one more word. -/
theorem inv_extend_main {ws : List (List Nat)} {d1 : DAWG} {w : List Nat} {lcp : Nat}
    {curr : Nat}
    (hI : Inv ws d1) (hlen : d1.unchecked.length = lcp)
    (hguard : leW w d1.prevWord = false) (hlcp : lcp = lcpLength w d1.prevWord)
    (hcurr : (d1.unchecked = [] ∧ curr = 0) ∨
      ∃ e rest, d1.unchecked = e :: rest ∧ curr = e.2.1) :
    Inv (ws ++ [w]) (extendLoop { d1 with prevWord := w } curr (w.drop lcp)) ∧
    (extendLoop { d1 with prevWord := w } curr (w.drop lcp)).unchecked.length = w.length := by
  subst hlcp
  have hlcp_w : lcpLength w d1.prevWord < w.length := lcp_lt_length hguard
  have hlcp_p : lcpLength w d1.prevWord ≤ d1.prevWord.length := lcp_le_length_right w d1.prevWord
  have htake : w.take (lcpLength w d1.prevWord) = d1.prevWord.take (lcpLength w d1.prevWord) :=
    lcp_take w d1.prevWord
  obtain ⟨b0, bs0, hbs⟩ : ∃ b0 bs0, w.drop (lcpLength w d1.prevWord) = b0 :: bs0 := by
    cases hc : w.drop (lcpLength w d1.prevWord) with
    | nil =>
      exfalso
      have := List.drop_eq_nil_iff.mp hc
      omega
    | cons x xs => exact ⟨x, xs, rfl⟩
  obtain ⟨endp, hseg0, hbase0, hend⟩ := chainShape_split hI.chain
  have hlenR : d1.unchecked.reverse.length = lcpLength w d1.prevWord := by
    rw [List.length_reverse]; exact hlen
  rw [hlenR] at hseg0 hbase0
  rw [← htake] at hseg0
  have hcurr_endp : curr = endp := by
    rcases hcurr with ⟨hu, hc⟩ | ⟨e, rest, hu, hc⟩
    · rcases hend with ⟨_, hep⟩ | ⟨pre, el, hpr, hep⟩
      · rw [hc, hep]
      · rw [hu] at hpr
        simp at hpr
    · rcases hend with ⟨hen, _⟩ | ⟨pre, el, hpr, hep⟩
      · rw [hu] at hen
        simp at hen
      · rw [hu, List.reverse_cons] at hpr
        have h2 := (List.append_inj' hpr rfl).2
        have he : e = el := by injection h2
        rw [hc, hep, he]
  rw [hcurr_endp]
  have hmem_e : ∀ (pre : List (Nat × Nat × Nat)) el,
      d1.unchecked.reverse = pre ++ [el] → el ∈ d1.unchecked := by
    intro pre el hpr
    have : el ∈ d1.unchecked.reverse := by rw [hpr]; simp
    exact List.mem_reverse.mp this
  have hendS : endp ∉ d1.minimized.map (·.2) := by
    rcases hend with ⟨_, hep⟩ | ⟨pre, el, hpr, hep⟩
    · rw [hep]; exact hI.root_not_reg
    · rw [hep]; exact hI.chain_not_reg el (hmem_e pre el hpr)
  have hendseq : endp ≤ d1.seq := by
    rcases hend with ⟨_, hep⟩ | ⟨pre, el, hpr, hep⟩
    · rw [hep]; exact Nat.zero_le _
    · rw [hep]; exact (hI.seq_chain el (hmem_e pre el hpr)).2
  have hcd : endp ∈ d1.nodes.map (·.1) := by
    rcases hend with ⟨_, hep⟩ | ⟨pre, el, hpr, hep⟩
    · rw [hep]; exact hI.dom_root
    · rw [hep]; exact hI.chain_dom el (hmem_e pre el hpr)
  have hpar_ne : ∀ e ∈ d1.unchecked.reverse, e.1 ≠ endp := by
    rcases hend with ⟨hen, hep⟩ | ⟨pre, el, hpr, hep⟩
    · rw [hen]; simp
    · obtain ⟨pl, cl, bl⟩ := el
      rw [hpr]
      intro e he
      have hlt := chainShape_parent_lt_last (by rw [← hpr]; exact hI.chain)
        (by rw [← hpr]; exact hI.chain_incr) e he
      rw [hep]
      intro hh
      simp only at hh
      omega
  have hpar_seq : ∀ e ∈ d1.unchecked.reverse, e.1 ≤ d1.seq :=
    fun e he => (hI.seq_chain e (List.mem_reverse.mp he)).1
  have hbase3 : childFind (findN d1.nodes endp).C b0 = none ∧
      (∀ q ∈ (findN d1.nodes endp).C, q.1 < b0 ∧ q.2 ∈ d1.minimized.map (·.2)) := by
    cases hdrop : d1.prevWord.drop (lcpLength w d1.prevWord) with
    | nil =>
      rw [hdrop] at hbase0
      obtain ⟨hC, _⟩ := hbase0
      rw [hC]
      exact ⟨rfl, by simp⟩
    | cons pb rest =>
      rw [hdrop] at hbase0
      obtain ⟨hqs, _⟩ := hbase0
      have hpb : pb < b0 := lcp_drop_lt hguard hdrop hbs
      refine ⟨?_, ?_⟩
      · apply childFind_none_of_ne
        intro q hq
        have := (hqs q hq).2
        omega
      · intro q hq
        exact ⟨by have := (hqs q hq).2; omega, (hqs q hq).1⟩
  have hScl := regOrd_closed hI.reg_ord
  have hSseq : ∀ m ∈ d1.minimized.map (·.2), m ≤ d1.seq := by
    intro m hm
    obtain ⟨kv, hkv, rfl⟩ := List.mem_map.mp hm
    exact hI.seq_reg kv hkv
  have hframe_par : ∀ e ∈ d1.unchecked.reverse,
      findN (extendLoop { d1 with prevWord := w } endp
        (w.drop (lcpLength w d1.prevWord))).nodes e.1 = findN d1.nodes e.1 := by
    intro e he
    exact ext_find_old _ _ _ _ (hpar_seq e he) (hpar_ne e he)
  have hframe_S : ∀ m ∈ d1.minimized.map (·.2),
      findN (extendLoop { d1 with prevWord := w } endp
        (w.drop (lcpLength w d1.prevWord))).nodes m = findN d1.nodes m := by
    intro m hm
    exact ext_records_S_frame _ { d1 with prevWord := w } endp _ hSseq hendS m hm
  have hlook_S : ∀ m ∈ d1.minimized.map (·.2), ∀ w2,
      lookupFrom (extendLoop { d1 with prevWord := w } endp
        (w.drop (lcpLength w d1.prevWord))).nodes m w2 = lookupFrom d1.nodes m w2 :=
    fun m hm w2 => lookupFrom_frame_of_records hframe_S hScl w2 m hm
  have hbaseL : ∀ w2,
      lookupFrom (extendLoop { d1 with prevWord := w } endp
        (w.drop (lcpLength w d1.prevWord))).nodes endp w2
        = (lookupFrom d1.nodes endp w2 || (w2 == w.drop (lcpLength w d1.prevWord))) := by
    refine ext_lookup_base _ _ _ (d1.minimized.map (·.2)) ?_ ?_ hScl hSseq hendS hendseq
    · intro b1 bs2 heq
      rw [hbs] at heq
      injection heq with h1 h2
      rw [← h1]
      exact hbase3.1
    · intro q hq
      exact (hbase3.2 q hq).2
  have hrootL := ext_lookup_seg hseg0 hframe_par hlook_S hbaseL
  have hwfull : w.take (lcpLength w d1.prevWord) ++ w.drop (lcpLength w d1.prevWord) = w :=
    List.take_append_drop _ w
  have hu2 : (extendLoop { d1 with prevWord := w } endp
      (w.drop (lcpLength w d1.prevWord))).unchecked
      = (newEntriesR d1.seq endp (w.drop (lcpLength w d1.prevWord))).reverse
        ++ d1.unchecked := ext_unchecked _ _ _
  have hseq2 : (extendLoop { d1 with prevWord := w } endp
      (w.drop (lcpLength w d1.prevWord))).seq
      = d1.seq + (w.drop (lcpLength w d1.prevWord)).length := ext_seq _ _ _
  have hpw2 : (extendLoop { d1 with prevWord := w } endp
      (w.drop (lcpLength w d1.prevWord))).prevWord = w := ext_prevWord _ _ _
  have hmin2 : (extendLoop { d1 with prevWord := w } endp
      (w.drop (lcpLength w d1.prevWord))).minimized = d1.minimized := ext_minimized _ _ _
  have hnewC := newEntriesR_child_facts (w.drop (lcpLength w d1.prevWord)) d1.seq endp
  refine ⟨⟨?_, ?_, ?_, ?_, ?_, ?_, ?_, ?_, ?_, ?_, ?_, ?_, ?_, ?_, ?_, ?_, ?_, ?_, ?_, ?_⟩, ?_⟩
  · -- lookup_mem
    intro w2
    rw [hrootL w2, hwfull]
    simp only [Bool.or_eq_true, beq_iff_eq, List.mem_append, List.mem_singleton,
      hI.lookup_mem w2]
  · -- chain
    rw [hmin2, hu2, hpw2, List.reverse_append, List.reverse_reverse]
    have hnewchain : ChainShape (extendLoop { d1 with prevWord := w } endp
        (w.drop (lcpLength w d1.prevWord))).nodes (d1.minimized.map (·.2)) endp
        (newEntriesR d1.seq endp (w.drop (lcpLength w d1.prevWord)))
        (w.drop (lcpLength w d1.prevWord)) := by
      refine ext_chain_new _ _ _ _ ?_ ?_ hendseq
      · intro b1 bs2 heq q hq
        rw [hbs] at heq
        injection heq with h1 h2
        rw [← h1]
        exact hbase3.2 q hq
      · intro hh
        rw [hbs] at hh
        cases hh
    have hfin := chainSeg_append_shape (chainSeg_frame hseg0 hframe_par) hnewchain
    rw [hwfull] at hfin
    exact hfin
  · -- chain_incr
    rw [hu2, List.reverse_append, List.reverse_reverse, List.map_append,
      ← List.cons_append]
    refine chain'_append_of_bounds hI.chain_incr hnewC.1 ?_
    intro x hx y hy
    have hy2 := hnewC.2 y hy
    rcases List.mem_cons.mp hx with rfl | hx2
    · omega
    · obtain ⟨e, he, rfl⟩ := List.mem_map.mp hx2
      have := (hI.seq_chain e (List.mem_reverse.mp he)).2
      omega
  · -- chain_not_reg
    rw [hu2, hmin2]
    intro e he
    rcases List.mem_append.mp he with hnew | hold
    · have he2 := List.mem_reverse.mp hnew
      have hgt : d1.seq < e.2.1 := hnewC.2 e.2.1 (List.mem_map.mpr ⟨e, he2, rfl⟩)
      intro hmem
      have := hSseq e.2.1 hmem
      omega
    · exact hI.chain_not_reg e hold
  · -- chain_dom
    rw [hu2]
    intro e he
    rcases List.mem_append.mp he with hnew | hold
    · exact ext_dom_new _ _ _ e (List.mem_reverse.mp hnew)
    · exact ext_dom_mono _ _ _ _ (hI.chain_dom e hold)
  · -- reg_key
    rw [hmin2]
    intro kv hkv
    rw [hframe_S kv.2 (List.mem_map.mpr ⟨kv, hkv, rfl⟩)]
    exact hI.reg_key kv hkv
  · -- reg_keys_nodup
    rw [hmin2]
    exact hI.reg_keys_nodup
  · -- reg_ids_nodup
    rw [hmin2]
    exact hI.reg_ids_nodup
  · -- reg_ord
    rw [hmin2]
    exact regOrd_frame hframe_S hI.reg_ord
  · -- reg_term
    rw [hmin2]
    intro m hm
    rw [hframe_S m hm]
    exact hI.reg_term m hm
  · -- root_not_reg
    rw [hmin2]
    exact hI.root_not_reg
  · -- rootF
    rw [rootF_extendLoop _ _ _ (Or.inr (by rw [hbs]; simp))]
    exact hI.rootF
  · -- root_children
    intro _
    by_cases hz : endp = 0
    · rw [← hz, ext_find_curr { d1 with prevWord := w } endp hbs hendseq]
      simp only
      exact childIns_ne_nil _ _ _
    · have hroot_frame : findN (extendLoop { d1 with prevWord := w } endp
          (w.drop (lcpLength w d1.prevWord))).nodes 0 = findN d1.nodes 0 :=
        ext_find_old _ _ _ _ (Nat.zero_le _) (fun hh => hz hh.symm)
      rw [hroot_frame]
      rcases hend with ⟨hen, hep⟩ | ⟨pre, el, hpr, hep⟩
      · exact absurd hep hz
      · rw [hpr] at hseg0
        obtain ⟨eh, et, hhe⟩ : ∃ eh et, pre ++ [el] = eh :: et := by
          cases pre with
          | nil => exact ⟨el, [], rfl⟩
          | cons a l => exact ⟨a, l ++ [el], rfl⟩
        rw [hhe] at hseg0
        obtain ⟨ph, ch, bh⟩ := eh
        cases htk : w.take (lcpLength w d1.prevWord) with
        | nil =>
          rw [htk] at hseg0
          exact hseg0.elim
        | cons y ys =>
          rw [htk] at hseg0
          exact childFind_some_ne_nil hseg0.2.2.1
  · -- sortedC
    exact ext_sorted _ _ _ hI.sortedC
  · -- seq_store
    exact ext_seq_store _ _ _ hI.seq_store hendseq
  · -- seq_reg
    rw [hmin2]
    intro kv hkv
    rw [hseq2]
    have := hI.seq_reg kv hkv
    omega
  · -- seq_chain
    rw [hu2, hseq2]
    intro e he
    rcases List.mem_append.mp he with hnew | hold
    · exact newEntriesR_bounds _ _ _ hendseq e (List.mem_reverse.mp hnew)
    · have := hI.seq_chain e hold
      omega
  · -- dom_root
    exact ext_dom_mono _ _ _ _ hI.dom_root
  · -- dom_edges
    exact ext_dom_edges _ _ _ hI.dom_edges hcd
  · -- dom_reg
    rw [hmin2]
    intro m hm
    exact ext_dom_mono _ _ _ _ (hI.dom_reg m hm)
  · -- length
    rw [hu2, List.length_append, List.length_reverse, newEntriesR_length,
      List.length_drop, hlen]
    omega

/-- `Insert` (panic-free form) preserves the invariant between calls: the
accepted set grows by exactly the inserted word and the state is again
quiescent. -/
theorem inv_insertP {ws : List (List Nat)} {d d2 : DAWG} {w : List Nat}
    (hI : Inv ws d) (hQ : Quiescent d) (h : insertP d w = some d2) :
    Inv (ws ++ [w]) d2 ∧ Quiescent d2 := by
  simp only [insertP] at h
  by_cases hg : leW w d.prevWord = true
  · rw [if_pos hg] at h
    cases h
  · rw [if_neg hg] at h
    have hguard : leW w d.prevWord = false := by
      revert hg
      cases leW w d.prevWord <;> simp
    injection h with h2
    have hI1 : Inv ws (minimizeP d (lcpLength w d.prevWord)) := inv_minimizeSteps _ hI
    have hlen1 : (minimizeP d (lcpLength w d.prevWord)).unchecked.length
        = lcpLength w d.prevWord := by
      show (minimizeSteps (d.unchecked.length - lcpLength w d.prevWord) d).unchecked.length = _
      rw [minimizeSteps_unchecked, List.length_drop]
      have h1 : lcpLength w d.prevWord ≤ d.prevWord.length := lcp_le_length_right w d.prevWord
      have h2 : d.unchecked.length = d.prevWord.length := hQ
      omega
    have hpw1 : (minimizeP d (lcpLength w d.prevWord)).prevWord = d.prevWord :=
      minimizeSteps_prevWord _ _
    have hguard1 : leW w (minimizeP d (lcpLength w d.prevWord)).prevWord = false := by
      rw [hpw1]; exact hguard
    have hlcp1 : lcpLength w d.prevWord
        = lcpLength w (minimizeP d (lcpLength w d.prevWord)).prevWord := by
      rw [hpw1]
    have hcurrOr : ((minimizeP d (lcpLength w d.prevWord)).unchecked = [] ∧
        headChild (minimizeP d (lcpLength w d.prevWord)).unchecked = 0) ∨
        ∃ e rest, (minimizeP d (lcpLength w d.prevWord)).unchecked = e :: rest ∧
          headChild (minimizeP d (lcpLength w d.prevWord)).unchecked = e.2.1 := by
      cases hu : (minimizeP d (lcpLength w d.prevWord)).unchecked with
      | nil => exact Or.inl ⟨rfl, rfl⟩
      | cons e rest =>
        obtain ⟨p1, c1, b1⟩ := e
        exact Or.inr ⟨(p1, c1, b1), rest, rfl, rfl⟩
    rw [← h2, insertTail_eq]
    obtain ⟨hInv, hlen2⟩ := inv_extend_main hI1 hlen1 hguard1 hlcp1 hcurrOr
    refine ⟨hInv, ?_⟩
    show _ = _
    rw [ext_prevWord]
    exact hlen2

/-! ## Claim C4 counterexample: `LookupPrefix` on the empty automaton -/

theorem completeLoop_initD (fuel : Nat) (acc : List Nat) :
    completeLoop initD.nodes fuel 0 acc = none := by
  induction fuel generalizing acc with
  | zero => rfl
  | succ f ih => simpa [completeLoop, initD, findN] using ih acc

/-- C4 counterexample: the empty automaton is a legitimate finished state,
and on it the completion loop of `LookupPrefix("")` never reaches a
terminal node, for any amount of fuel — the Go loop spins forever. -/
theorem lookupPfx_diverges_on_empty :
    buildFinish [] = some initD ∧ lpDiverges initD [] := by
  refine ⟨rfl, fun fuel => ?_⟩
  simp [lookupPfxGo, walkFrom, completeLoop_initD]

theorem lookupFrom_append {s : Store} : ∀ (x : List Nat) {i m : Nat},
    walkFrom s i x = some m → ∀ w, lookupFrom s i (x ++ w) = lookupFrom s m w := by
  intro x
  induction x with
  | nil =>
    intro i m h w
    injection h with h2
    subst h2
    rfl
  | cons b bs ih =>
    intro i m h w
    cases hcf : childFind (findN s i).C b with
    | none =>
      simp only [walkFrom, hcf] at h
      cases h
    | some j =>
      simp only [walkFrom, hcf] at h
      simp only [List.cons_append, lookupFrom, hcf]
      exact ih h w

theorem walk_closed {s : Store} {S : List Nat}
    (hcl : ∀ x ∈ S, ∀ q ∈ (findN s x).C, q.2 ∈ S) :
    ∀ (x : List Nat) {j i : Nat}, j ∈ S → walkFrom s j x = some i → i ∈ S := by
  intro x
  induction x with
  | nil =>
    intro j i hj h
    injection h with h2
    subst h2
    exact hj
  | cons b bs ih =>
    intro j i hj h
    cases hcf : childFind (findN s j).C b with
    | none =>
      simp only [walkFrom, hcf] at h
      cases h
    | some j2 =>
      simp only [walkFrom, hcf] at h
      exact ih (hcl j hj (b, j2) (childFind_mem hcf)) h

theorem reg_lang_nonempty {s : Store} : ∀ {R : List (List Nat × Nat)}, RegOrd s R →
    (∀ m ∈ R.map (·.2), (findN s m).F = true ∨ (findN s m).C ≠ []) →
    ∀ m ∈ R.map (·.2), ∃ w, lookupFrom s m w = true := by
  intro R
  induction R with
  | nil => simp
  | cons kv rest ih =>
    intro hord hterm m hm
    obtain ⟨k0, m0⟩ := kv
    obtain ⟨hch, hrest⟩ := hord
    have htermR : ∀ m2 ∈ rest.map (·.2),
        (findN s m2).F = true ∨ (findN s m2).C ≠ [] := by
      intro m2 hm2
      exact hterm m2 (by simp only [List.map_cons]; exact List.mem_cons_of_mem _ hm2)
    rcases List.mem_cons.mp hm with hm0 | hmr
    · simp only at hm0
      subst hm0
      rcases hterm m (by simp) with hF | hC
      · exact ⟨[], by simp [lookupFrom, hF]⟩
      · cases hCc : (findN s m).C with
        | nil => exact absurd hCc hC
        | cons q qs =>
          obtain ⟨b, jj⟩ := q
          have hj : jj ∈ rest.map (·.2) := hch (b, jj) (by rw [hCc]; simp)
          obtain ⟨w2, hw2⟩ := ih hrest htermR jj hj
          refine ⟨b :: w2, ?_⟩
          simp only [lookupFrom, hCc, childFind, if_pos rfl]
          exact hw2
    · exact ih hrest htermR m hmr

theorem nodup_fst_entry_inj : ∀ {L : List (List Nat × Nat)}, (L.map (·.1)).Nodup →
    ∀ p q, p ∈ L → q ∈ L → p.1 = q.1 → p = q := by
  intro L
  induction L with
  | nil =>
    intro _ p q hp
    simp at hp
  | cons e rest ih =>
    intro hnd p q hp hq hpq
    simp only [List.map_cons, List.nodup_cons] at hnd
    obtain ⟨hne, hnd2⟩ := hnd
    rcases List.mem_cons.mp hp with rfl | hp2 <;> rcases List.mem_cons.mp hq with rfl | hq2
    · rfl
    · exact absurd (List.mem_map.mpr ⟨q, hq2, hpq.symm⟩) hne
    · exact absurd (List.mem_map.mpr ⟨p, hp2, hpq⟩) hne
    · exact ih hnd2 p q hp2 hq2 hpq

theorem exists_max_length : ∀ {ws : List (List Nat)}, ws ≠ [] →
    ∃ w1 ∈ ws, ∀ w ∈ ws, w.length ≤ w1.length := by
  intro ws
  induction ws with
  | nil =>
    intro h
    exact absurd rfl h
  | cons a l ih =>
    intro _
    by_cases hl : l = []
    · subst hl
      refine ⟨a, by simp, ?_⟩
      intro w hw
      simp only [List.mem_singleton] at hw
      subst hw
      exact le_refl _
    · obtain ⟨w1, hw1, hb⟩ := ih hl
      by_cases hc : a.length ≤ w1.length
      · refine ⟨w1, List.mem_cons_of_mem _ hw1, ?_⟩
        intro w hw
        rcases List.mem_cons.mp hw with rfl | hw2
        · exact hc
        · exact hb w hw2
      · refine ⟨a, by simp, ?_⟩
        intro w hw
        rcases List.mem_cons.mp hw with rfl | hw2
        · exact le_refl _
        · have := hb w hw2
          omega

/-! ## Claim C1: `Lookup` accepts exactly the inserted words -/

theorem inv_initD : Inv ([] : List (List Nat)) initD ∧ Quiescent initD := by
  refine ⟨⟨?_, ?_, ?_, ?_, ?_, ?_, ?_, ?_, ?_, ?_, ?_, ?_, ?_, ?_, ?_, ?_, ?_, ?_, ?_, ?_⟩, rfl⟩
  · intro w
    cases w with
    | nil => simp [lookupFrom, initD, findN]
    | cons b bs => simp [lookupFrom, initD, findN, childFind]
  · exact ⟨rfl, Or.inr rfl⟩
  · simp [initD]
  · simp [initD]
  · simp [initD]
  · simp [initD]
  · simp [initD]
  · simp [initD]
  · trivial
  · simp [initD]
  · simp [initD]
  · rfl
  · intro h
    exact absurd rfl h
  · intro i
    by_cases h : (0 : Nat) = i <;> simp [initD, findN, h, SortedC]
  · intro pr hpr
    simp only [initD, List.mem_singleton] at hpr
    subst hpr
    simp [initD]
  · simp [initD]
  · simp [initD]
  · simp [initD, findN]
  · intro pr hpr
    simp only [initD, List.mem_singleton] at hpr
    subst hpr
    simp
  · simp [initD]

theorem inv_buildFrom : ∀ (ws0 : List (List Nat)) {ws : List (List Nat)} {d d2 : DAWG},
    Inv ws d → Quiescent d → buildFrom d ws0 = some d2 →
    Inv (ws ++ ws0) d2 ∧ Quiescent d2 := by
  intro ws0
  induction ws0 with
  | nil =>
    intro ws d d2 hI hQ h
    simp only [buildFrom] at h
    injection h with h2
    subst h2
    rw [List.append_nil]
    exact ⟨hI, hQ⟩
  | cons w ws0 ih =>
    intro ws d d2 hI hQ h
    simp only [buildFrom] at h
    cases hins : insertGo d w with
    | none =>
      rw [hins] at h
      cases h
    | some d1 =>
      rw [hins] at h
      rw [insertGo_eq] at hins
      obtain ⟨hI1, hQ1⟩ := inv_insertP hI hQ hins
      have hres := ih hI1 hQ1 h
      rwa [List.append_assoc, List.singleton_append] at hres

theorem inv_finishP {ws : List (List Nat)} {d : DAWG} (hI : Inv ws d) :
    Inv ws (finishP d) ∧ (finishP d).unchecked = [] := by
  refine ⟨inv_minimizeSteps _ hI, ?_⟩
  show (minimizeSteps (d.unchecked.length - 0) d).unchecked = []
  rw [minimizeSteps_unchecked, Nat.sub_zero, List.drop_length]

/-- A finished build satisfies the invariant with an empty unchecked chain. -/
theorem buildFinish_inv {ws : List (List Nat)} {d : DAWG}
    (h : buildFinish ws = some d) : Inv ws d ∧ d.unchecked = [] := by
  simp only [buildFinish, buildList] at h
  cases hb : buildFrom initD ws with
  | none =>
    rw [hb] at h
    cases h
  | some d1 =>
    rw [hb] at h
    simp only [Option.some_bind] at h
    rw [finishO_eq] at h
    injection h with h2
    subst h2
    obtain ⟨hI1, hQ1⟩ := inv_buildFrom ws inv_initD.1 inv_initD.2 hb
    rw [List.nil_append] at hI1
    exact inv_finishP hI1

/-- C1: building an automaton from the inserted words and finishing, every
`Lookup` answers membership in exactly the set of inserted words. -/
theorem lookup_iff_member {ws : List (List Nat)} {d : DAWG}
    (h : buildFinish ws = some d) : ∀ w, lookupGo d w = true ↔ w ∈ ws :=
  fun w => (buildFinish_inv h).1.lookup_mem w

/-- C1 witness: a concrete build where membership matches exactly. -/
theorem lookup_iff_member_witness :
    buildFinish [[97], [97, 98]]
      = some ((buildFinish [[97], [97, 98]]).get (by decide)) ∧
    ((lookupGo ((buildFinish [[97], [97, 98]]).get (by decide)) [97] = true
      ↔ [97] ∈ [[97], [97, 98]]) ∧
     (lookupGo ((buildFinish [[97], [97, 98]]).get (by decide)) [98] = true
      ↔ [98] ∈ [[97], [97, 98]])) :=
  ⟨(Option.some_get _).symm,
   lookup_iff_member (Option.some_get _).symm [97],
   lookup_iff_member (Option.some_get _).symm [98]⟩

/-! ## Claim C2: minimality of the finished automaton -/

theorem reach_S_of_unchecked_nil {ws : List (List Nat)} {d : DAWG}
    (hI : Inv ws d) (hu : d.unchecked = []) :
    ∀ i, Reach d.nodes i → i = 0 ∨ i ∈ d.minimized.map (·.2) := by
  intro i hr
  obtain ⟨x, hx⟩ := hr
  cases x with
  | nil =>
    left
    injection hx with h2
    exact h2.symm
  | cons b bs =>
    right
    have hchain := hI.chain
    rw [hu] at hchain
    simp only [List.reverse_nil] at hchain
    have hroot_ch : ∀ q ∈ (findN d.nodes 0).C, q.2 ∈ d.minimized.map (·.2) := by
      cases hpw : d.prevWord with
      | nil =>
        rw [hpw] at hchain
        obtain ⟨hC, _⟩ := hchain
        rw [hC]
        simp
      | cons pb pr =>
        rw [hpw] at hchain
        obtain ⟨hqs, _⟩ := hchain
        exact fun q hq => (hqs q hq).1
    cases hcf : childFind (findN d.nodes 0).C b with
    | none =>
      simp only [walkFrom, hcf] at hx
      cases hx
    | some j =>
      simp only [walkFrom, hcf] at hx
      exact walk_closed (regOrd_closed hI.reg_ord) bs
        (hroot_ch (b, j) (childFind_mem hcf)) hx

theorem root_key_ne_reach {ws : List (List Nat)} {d : DAWG}
    (hI : Inv ws d) (hu : d.unchecked = []) :
    ∀ m, Reach d.nodes m → m ≠ 0 →
      keyGo (findN d.nodes 0) ≠ keyGo (findN d.nodes m) := by
  intro m hr hm0 hk
  have hrec : findN d.nodes 0 = findN d.nodes m :=
    keyGo_inj (hI.sortedC 0) (hI.sortedC m) hk
  have hmS : m ∈ d.minimized.map (·.2) := by
    rcases reach_S_of_unchecked_nil hI hu m hr with h0 | hS
    · exact absurd h0 hm0
    · exact hS
  obtain ⟨x, hx⟩ := hr
  have hxne : x ≠ [] := by
    intro hxe
    rw [hxe] at hx
    injection hx with h2
    exact hm0 h2.symm
  obtain ⟨w0, hw0⟩ := reg_lang_nonempty hI.reg_ord hI.reg_term m hmS
  have hw0root : lookupFrom d.nodes 0 w0 = true := by
    rw [lookupFrom_congr_record hrec w0]
    exact hw0
  have hw0ws : w0 ∈ ws := (hI.lookup_mem w0).mp hw0root
  obtain ⟨w1, hw1ws, hmax⟩ := exists_max_length (List.ne_nil_of_mem hw0ws)
  have hw1m : lookupFrom d.nodes m w1 = true := by
    rw [← lookupFrom_congr_record hrec w1]
    exact (hI.lookup_mem w1).mpr hw1ws
  have hlong : lookupFrom d.nodes 0 (x ++ w1) = true := by
    rw [lookupFrom_append x hx w1]
    exact hw1m
  have hmem2 : x ++ w1 ∈ ws := (hI.lookup_mem (x ++ w1)).mp hlong
  have hle := hmax (x ++ w1) hmem2
  rw [List.length_append] at hle
  have hxpos : 0 < x.length := List.length_pos.mpr hxne
  omega

/-- C2: in a finished automaton no two distinct nodes reachable from the
root have the same signature string: the automaton is minimal. -/
theorem finished_minimal {ws : List (List Nat)} {d : DAWG}
    (h : buildFinish ws = some d) :
    ∀ i j, Reach d.nodes i → Reach d.nodes j → i ≠ j →
      keyGo (findN d.nodes i) ≠ keyGo (findN d.nodes j) := by
  obtain ⟨hI, hu⟩ := buildFinish_inv h
  intro i j hri hrj hne hk
  by_cases hi0 : i = 0
  · subst hi0
    exact root_key_ne_reach hI hu j hrj (fun hh => hne hh.symm) hk
  · by_cases hj0 : j = 0
    · subst hj0
      exact root_key_ne_reach hI hu i hri hi0 hk.symm
    · have hiS : i ∈ d.minimized.map (·.2) := by
        rcases reach_S_of_unchecked_nil hI hu i hri with h0 | hS
        · exact absurd h0 hi0
        · exact hS
      have hjS : j ∈ d.minimized.map (·.2) := by
        rcases reach_S_of_unchecked_nil hI hu j hrj with h0 | hS
        · exact absurd h0 hj0
        · exact hS
      obtain ⟨kvi, hkvi, hkvi2⟩ := List.mem_map.mp hiS
      obtain ⟨kvj, hkvj, hkvj2⟩ := List.mem_map.mp hjS
      have hki := hI.reg_key kvi hkvi
      have hkj := hI.reg_key kvj hkvj
      have hfst : kvi.1 = kvj.1 := by
        rw [← hki, ← hkj, hkvi2, hkvj2]
        exact hk
      have := nodup_fst_entry_inj hI.reg_keys_nodup kvi kvj hkvi hkvj hfst
      rw [← hkvi2, ← hkvj2, this] at hne
      exact hne rfl

/-- C2 witness: in the finished automaton for `{"a","ab"}`, the two interior
nodes 1 and 2 are reachable, distinct, and have different signatures. -/
theorem finished_minimal_witness :
    Reach ((buildFinish [[97], [97, 98]]).get (by decide)).nodes 1 ∧
    Reach ((buildFinish [[97], [97, 98]]).get (by decide)).nodes 2 ∧
    keyGo (findN ((buildFinish [[97], [97, 98]]).get (by decide)).nodes 1)
      ≠ keyGo (findN ((buildFinish [[97], [97, 98]]).get (by decide)).nodes 2) :=
  ⟨⟨[97], by decide⟩, ⟨[97, 98], by decide⟩,
   finished_minimal (Option.some_get _).symm 1 2 ⟨[97], by decide⟩
     ⟨[97, 98], by decide⟩ (by decide)⟩

/-! ## Claim C6: acyclicity of every reachable state -/

theorem split_of_nodup : ∀ {t1 : List Nat} {T t2 u1 u2 : List Nat} {i : Nat}, T.Nodup →
    T = t1 ++ i :: t2 → T = u1 ++ i :: u2 → t1 = u1 ∧ t2 = u2 := by
  intro t1
  induction t1 with
  | nil =>
    intro T t2 u1 u2 i hnd h1 h2
    cases u1 with
    | nil =>
      rw [h1] at h2
      simp only [List.nil_append] at h2
      injection h2 with _ h3
      exact ⟨rfl, h3⟩
    | cons a u1x =>
      rw [h1] at h2 hnd
      simp only [List.nil_append, List.cons_append] at h2 hnd
      injection h2 with h3 h4
      subst h3
      rw [h4] at hnd
      simp [List.nodup_cons] at hnd
  | cons a t1x ih =>
    intro T t2 u1 u2 i hnd h1 h2
    cases u1 with
    | nil =>
      rw [h2] at h1 hnd
      simp only [List.nil_append, List.cons_append] at h1 hnd
      injection h1 with h3 h4
      subst h3
      rw [h4] at hnd
      simp [List.nodup_cons] at hnd
    | cons a2 u1x =>
      subst h1
      simp only [List.cons_append] at h2 hnd
      injection h2 with h3 h4
      obtain ⟨hh1, hh2⟩ := ih (List.Nodup.of_cons hnd) rfl h4
      exact ⟨by rw [h3, hh1], hh2⟩

theorem walk_tail {s : Store} {T : List Nat}
    (hstep : ∀ t1 i t2, T = t1 ++ i :: t2 → ∀ q ∈ (findN s i).C, q.2 ∈ t2) :
    ∀ (n : Nat) (t2 : List Nat), t2.length ≤ n →
    ∀ (x : List Nat) (t1 : List Nat) (i j : Nat),
      T = t1 ++ i :: t2 → walkFrom s i x = some j → x ≠ [] → j ∈ t2 := by
  intro n
  induction n with
  | zero =>
    intro t2 hlen x t1 i j hT hw hx
    cases x with
    | nil => exact absurd rfl hx
    | cons b xs =>
      cases hcf : childFind (findN s i).C b with
      | none =>
        simp only [walkFrom, hcf] at hw
        cases hw
      | some j1 =>
        have hj1 : j1 ∈ t2 := hstep t1 i t2 hT (b, j1) (childFind_mem hcf)
        have ht2 : t2 = [] := List.length_eq_zero.mp (Nat.le_zero.mp hlen)
        rw [ht2] at hj1
        cases hj1
  | succ n ih =>
    intro t2 hlen x t1 i j hT hw hx
    cases x with
    | nil => exact absurd rfl hx
    | cons b xs =>
      cases hcf : childFind (findN s i).C b with
      | none =>
        simp only [walkFrom, hcf] at hw
        cases hw
      | some j1 =>
        simp only [walkFrom, hcf] at hw
        have hj1 : j1 ∈ t2 := hstep t1 i t2 hT (b, j1) (childFind_mem hcf)
        obtain ⟨u1, u2, hu⟩ := List.append_of_mem hj1
        by_cases hxs : xs = []
        · subst hxs
          injection hw with h2
          rw [← h2]
          exact hj1
        · have hT2 : T = (t1 ++ i :: u1) ++ j1 :: u2 := by
            rw [hT, hu]
            simp [List.append_assoc]
          have hlen2 : u2.length ≤ n := by
            have h5 : t2.length = u1.length + u2.length + 1 := by
              rw [hu]
              simp [List.length_append]
              omega
            omega
          have hj := ih u2 hlen2 xs (t1 ++ i :: u1) j1 j hT2 hw hxs
          rw [hu]
          exact List.mem_append.mpr (Or.inr (List.mem_cons_of_mem _ hj))

theorem regOrd_split_children {s : Store} : ∀ {R : List (List Nat × Nat)}, RegOrd s R →
    ∀ (S1 S2 : List Nat) (m : Nat), R.map (·.2) = S1 ++ m :: S2 →
    ∀ q ∈ (findN s m).C, q.2 ∈ S2 := by
  intro R
  induction R with
  | nil =>
    intro _ S1 S2 m h
    cases S1 <;> simp at h
  | cons kv rest ih =>
    intro hord S1 S2 m h
    obtain ⟨k0, m0⟩ := kv
    obtain ⟨hch, hrest⟩ := hord
    simp only [List.map_cons] at h
    cases S1 with
    | nil =>
      simp only [List.nil_append] at h
      injection h with h1 h2
      subst h1
      intro q hq
      rw [← h2]
      exact hch q hq
    | cons a S1x =>
      injection h with h1 h2
      exact ih hrest S1x S2 m h2

theorem chainShape_nil_children {s : Store} {S : List Nat} {last : Nat} {bs : List Nat}
    (h : ChainShape s S last [] bs) : ∀ q ∈ (findN s last).C, q.2 ∈ S := by
  cases bs with
  | nil =>
    obtain ⟨hC, _⟩ := h
    rw [hC]
    simp
  | cons pb r =>
    obtain ⟨hqs, _⟩ := h
    exact fun q hq => (hqs q hq).1

theorem chainShape_cons_children {s : Store} {S : List Nat} {par : Nat}
    {e : Nat × Nat × Nat} {es : List (Nat × Nat × Nat)} {bs : List Nat}
    (h : ChainShape s S par (e :: es) bs) :
    ∀ q ∈ (findN s par).C, q.2 ∈ S ∨ q.2 = e.2.1 := by
  obtain ⟨p, c, b⟩ := e
  cases bs with
  | nil => exact h.elim
  | cons pb bs2 =>
    obtain ⟨_, _, _, _, h5, _⟩ := h
    intro q hq
    rcases h5 q hq with hS | ⟨_, hc⟩
    · exact Or.inl hS
    · exact Or.inr hc

theorem chainShape_mid_children {s : Store} {S : List Nat} :
    ∀ (es1 : List (Nat × Nat × Nat)) {par : Nat} {bs : List Nat}
      {e : Nat × Nat × Nat} {es2 : List (Nat × Nat × Nat)},
    ChainShape s S par (es1 ++ e :: es2) bs →
    ∀ q ∈ (findN s e.2.1).C, q.2 ∈ S ∨ ∃ e2 es3, es2 = e2 :: es3 ∧ q.2 = e2.2.1 := by
  intro es1
  induction es1 with
  | nil =>
    intro par bs e es2 h
    obtain ⟨p, c, b⟩ := e
    cases bs with
    | nil => exact h.elim
    | cons pb bs2 =>
      obtain ⟨_, _, _, _, _, h6⟩ := h
      cases es2 with
      | nil => exact fun q hq => Or.inl (chainShape_nil_children h6 q hq)
      | cons e2 es3 =>
        intro q hq
        rcases chainShape_cons_children h6 q hq with hS | hc
        · exact Or.inl hS
        · exact Or.inr ⟨e2, es3, rfl, hc⟩
  | cons e0 es1x ih =>
    intro par bs e es2 h
    obtain ⟨p0, c0, b0⟩ := e0
    cases bs with
    | nil => exact h.elim
    | cons pb bs2 =>
      obtain ⟨_, _, _, _, _, h6⟩ := h
      exact ih h6

theorem map_split {f : (Nat × Nat × Nat) → Nat} :
    ∀ {l : List (Nat × Nat × Nat)} {a1 a2 : List Nat} {x : Nat},
    l.map f = a1 ++ x :: a2 →
    ∃ l1 y l2, l = l1 ++ y :: l2 ∧ f y = x ∧ l1.map f = a1 ∧ l2.map f = a2 := by
  intro l
  induction l with
  | nil =>
    intro a1 a2 x h
    cases a1 <;> simp at h
  | cons e lx ih =>
    intro a1 a2 x h
    simp only [List.map_cons] at h
    cases a1 with
    | nil =>
      simp only [List.nil_append] at h
      injection h with h1 h2
      exact ⟨[], e, lx, by simp, h1, rfl, h2⟩
    | cons b a1x =>
      injection h with h1 h2
      obtain ⟨l1, y, l2, hl, hy, hm1, hm2⟩ := ih h2
      refine ⟨e :: l1, y, l2, by rw [hl]; rfl, hy, ?_, hm2⟩
      simp [hm1, h1]

theorem inv_T_nodup {ws : List (List Nat)} {d : DAWG} (hI : Inv ws d) :
    (0 :: (d.unchecked.reverse.map (fun e => e.2.1) ++ d.minimized.map (·.2))).Nodup := by
  have hpair := List.chain'_iff_pairwise.mp hI.chain_incr
  have hnd01 : (0 :: d.unchecked.reverse.map (fun e => e.2.1)).Nodup :=
    hpair.imp (fun h => Nat.ne_of_lt h)
  rw [List.nodup_cons] at hnd01 ⊢
  obtain ⟨h0cr, hcr⟩ := hnd01
  refine ⟨?_, ?_⟩
  · rw [List.mem_append]
    rintro (h | h)
    · exact h0cr h
    · exact hI.root_not_reg h
  · rw [List.nodup_append]
    refine ⟨hcr, hI.reg_ids_nodup, ?_⟩
    intro x hx
    obtain ⟨e, he, rfl⟩ := List.mem_map.mp hx
    exact hI.chain_not_reg e (List.mem_reverse.mp he)

theorem inv_hstep {ws : List (List Nat)} {d : DAWG} (hI : Inv ws d) :
    ∀ t1 i t2,
      (0 : Nat) :: (d.unchecked.reverse.map (fun e => e.2.1) ++ d.minimized.map (·.2))
        = t1 ++ i :: t2 →
      ∀ q ∈ (findN d.nodes i).C, q.2 ∈ t2 := by
  intro t1 i t2 hT q hq
  have hnd := inv_T_nodup hI
  have hiT : i ∈ (0 : Nat) ::
      (d.unchecked.reverse.map (fun e => e.2.1) ++ d.minimized.map (·.2)) := by
    rw [hT]
    simp
  simp only [List.mem_cons, List.mem_append] at hiT
  rcases hiT with rfl | hicr | hiS
  · have hc : (0 : Nat) :: (d.unchecked.reverse.map (fun e => e.2.1)
        ++ d.minimized.map (·.2)) = [] ++ 0 ::
        (d.unchecked.reverse.map (fun e => e.2.1) ++ d.minimized.map (·.2)) := by simp
    obtain ⟨_, ht2⟩ := split_of_nodup hnd hT hc
    rw [ht2]
    cases hU : d.unchecked.reverse with
    | nil =>
      have hch := hI.chain
      rw [hU] at hch
      exact List.mem_append.mpr (Or.inr (chainShape_nil_children hch q hq))
    | cons e1 esx =>
      have hch := hI.chain
      rw [hU] at hch
      rcases chainShape_cons_children hch q hq with hS | hc2
      · exact List.mem_append.mpr (Or.inr hS)
      · refine List.mem_append.mpr (Or.inl ?_)
        rw [hc2]
        simp
  · obtain ⟨cr1, cr2, hcr⟩ := List.append_of_mem hicr
    obtain ⟨es1, y, es2, hes, hy, hm1, hm2⟩ := map_split hcr
    have hc : (0 : Nat) :: (d.unchecked.reverse.map (fun e => e.2.1)
        ++ d.minimized.map (·.2)) = (0 :: cr1) ++ i :: (cr2 ++ d.minimized.map (·.2)) := by
      rw [hcr]
      simp [List.append_assoc]
    obtain ⟨_, ht2⟩ := split_of_nodup hnd hT hc
    rw [ht2]
    have hch := hI.chain
    rw [hes] at hch
    have hyi : y.2.1 = i := hy
    rw [← hyi] at hq
    rcases chainShape_mid_children es1 hch q hq with hS | ⟨e2, es3, hes2, hq2⟩
    · exact List.mem_append.mpr (Or.inr hS)
    · refine List.mem_append.mpr (Or.inl ?_)
      rw [← hm2, hes2, hq2]
      simp
  · obtain ⟨S1, S2, hS⟩ := List.append_of_mem hiS
    have hc : (0 : Nat) :: (d.unchecked.reverse.map (fun e => e.2.1)
        ++ d.minimized.map (·.2))
        = (0 :: (d.unchecked.reverse.map (fun e => e.2.1) ++ S1)) ++ i :: S2 := by
      rw [hS]
      simp [List.append_assoc]
    obtain ⟨_, ht2⟩ := split_of_nodup hnd hT hc
    rw [ht2]
    exact regOrd_split_children hI.reg_ord S1 S2 i hS q hq

theorem inv_acyclic {ws : List (List Nat)} {d : DAWG} (hI : Inv ws d) :
    Acyclic d.nodes := by
  intro i hr w hw hcyc
  obtain ⟨x, hx⟩ := hr
  have hiT : i ∈ (0 : Nat) ::
      (d.unchecked.reverse.map (fun e => e.2.1) ++ d.minimized.map (·.2)) := by
    cases hxc : x with
    | nil =>
      rw [hxc] at hx
      injection hx with h2
      rw [← h2]
      simp
    | cons b xs =>
      have hc : (0 : Nat) :: (d.unchecked.reverse.map (fun e => e.2.1)
          ++ d.minimized.map (·.2)) = [] ++ 0 ::
          (d.unchecked.reverse.map (fun e => e.2.1) ++ d.minimized.map (·.2)) := by simp
      rw [hxc] at hx
      have := walk_tail (inv_hstep hI) _ _ (le_refl _) (b :: xs) [] 0 i hc hx
        (by simp)
      simp only [List.mem_cons]
      exact Or.inr this
  obtain ⟨t1, t2, ht⟩ := List.append_of_mem hiT
  have hi2 : i ∈ t2 := walk_tail (inv_hstep hI) t2.length t2 (le_refl _) w t1 i i ht hcyc hw
  have hnd := inv_T_nodup hI
  rw [ht] at hnd
  have := (List.nodup_cons.mp (List.Nodup.of_append_right hnd)).1
  exact this hi2

/-- C6: every state reached by a valid sequence of `Insert`s, optionally
followed by `Finish`, is acyclic: no walk from a reachable node returns to
it, so merging onto registered nodes never creates a cycle. -/
theorem build_acyclic {ws : List (List Nat)} {d : DAWG}
    (h : buildList ws = some d ∨ buildFinish ws = some d) : Acyclic d.nodes := by
  rcases h with h | h
  · simp only [buildList] at h
    obtain ⟨hI, _⟩ := inv_buildFrom ws inv_initD.1 inv_initD.2 h
    rw [List.nil_append] at hI
    exact inv_acyclic hI
  · exact inv_acyclic (buildFinish_inv h).1

/-- C6 witness: the mid-build automaton for `{"a","ab"}` is acyclic. -/
theorem build_acyclic_witness :
    Acyclic ((buildList [[97], [97, 98]]).get (by decide)).nodes :=
  build_acyclic (Or.inl (Option.some_get _).symm)

/-! ## Claim C4: totality (amended) -/

theorem inv_T_closed {ws : List (List Nat)} {d : DAWG} (hI : Inv ws d) :
    ∀ i ∈ (0 : Nat) ::
      (d.unchecked.reverse.map (fun e => e.2.1) ++ d.minimized.map (·.2)),
    ∀ q ∈ (findN d.nodes i).C, q.2 ∈ (0 : Nat) ::
      (d.unchecked.reverse.map (fun e => e.2.1) ++ d.minimized.map (·.2)) := by
  intro i hi q hq
  obtain ⟨t1, t2, ht⟩ := List.append_of_mem hi
  have := inv_hstep hI t1 i t2 ht q hq
  rw [ht]
  exact List.mem_append.mpr (Or.inr (List.mem_cons_of_mem _ this))

theorem inv_T_subset_dom {ws : List (List Nat)} {d : DAWG} (hI : Inv ws d) :
    ∀ i ∈ (0 : Nat) ::
      (d.unchecked.reverse.map (fun e => e.2.1) ++ d.minimized.map (·.2)),
    i ∈ d.nodes.map (·.1) := by
  intro i hi
  simp only [List.mem_cons, List.mem_append] at hi
  rcases hi with rfl | hcr | hS
  · exact hI.dom_root
  · obtain ⟨e, he, rfl⟩ := List.mem_map.mp hcr
    exact hI.chain_dom e (List.mem_reverse.mp he)
  · exact hI.dom_reg i hS

theorem inv_T_len {ws : List (List Nat)} {d : DAWG} (hI : Inv ws d) :
    ((0 : Nat) :: (d.unchecked.reverse.map (fun e => e.2.1)
      ++ d.minimized.map (·.2))).length ≤ d.nodes.length := by
  have hsub := (inv_T_nodup hI).subperm (inv_T_subset_dom hI)
  have := hsub.length_le
  rw [List.length_map] at this
  exact this

theorem countP_drop {seen : List Nat} {c : Nat} : ∀ {T : List Nat}, c ∈ T →
    seen.contains c = false →
    T.countP (fun x => !((c :: seen).contains x)) + 1
      ≤ T.countP (fun x => !(seen.contains x)) := by
  intro T
  induction T with
  | nil =>
    intro h
    cases h
  | cons a Tx ih =>
    intro hc hcs
    by_cases hac : a = c
    · subst hac
      rw [List.countP_cons, List.countP_cons]
      have e1 : ((a :: seen).contains a) = true := by simp
      rw [e1, hcs]
      have hmono : Tx.countP (fun x => !((a :: seen).contains x))
          ≤ Tx.countP (fun x => !(seen.contains x)) := by
        apply List.countP_mono_left
        intro x _ hx
        simp only [List.contains_cons, Bool.not_eq_true', Bool.or_eq_false_iff] at hx ⊢
        exact hx.2
      simp only [Bool.not_true, Bool.not_false, Bool.false_eq_true, if_false, if_true]
      omega
    · have hc2 : c ∈ Tx := by
        rcases List.mem_cons.mp hc with h | h
        · exact absurd h.symm hac
        · exact h
      rw [List.countP_cons, List.countP_cons]
      have hbeq : (a == c) = false := by
        simp only [beq_eq_false_iff_ne, ne_eq]
        exact hac
      have e3 : ((c :: seen).contains a) = (seen.contains a) := by
        rw [List.contains_cons, hbeq, Bool.false_or]
      rw [e3]
      have := ih hc2 hcs
      by_cases hp : (!(seen.contains a)) = true
      · rw [if_pos hp]
        omega
      · rw [if_neg hp]
        omega

theorem emitChildren_drain {s : Store} {T : List Nat} :
    ∀ (C : List (Nat × Nat)) (st : FlatState), (∀ q ∈ C, q.2 ∈ T) →
    (∀ x ∈ st.queue, x ∈ T) →
    (∀ x ∈ (emitChildren s st C).queue, x ∈ T) ∧
    (emitChildren s st C).queue.length
        + T.countP (fun x => !((emitChildren s st C).seen.contains x))
      ≤ st.queue.length + T.countP (fun x => !(st.seen.contains x)) := by
  intro C
  induction C with
  | nil =>
    intro st _ hq
    exact ⟨hq, le_refl _⟩
  | cons p rest ih =>
    intro st hC hq
    obtain ⟨b, c⟩ := p
    simp only [emitChildren]
    by_cases hseen : st.seen.contains c = true
    · rw [if_pos hseen, if_pos hseen]
      exact ih _ (fun q hq2 => hC q (List.mem_cons_of_mem _ hq2)) hq
    · rw [if_neg hseen, if_neg hseen]
      have hcT : c ∈ T := hC (b, c) (List.mem_cons_self _ _)
      have hq2 : ∀ x ∈ st.queue ++ [c], x ∈ T := by
        intro x hx
        rcases List.mem_append.mp hx with h | h
        · exact hq x h
        · rw [List.mem_singleton.mp h]
          exact hcT
      obtain ⟨hmem, hlen⟩ := ih
        { st with
          queue := st.queue ++ [c],
          seen := c :: st.seen,
          tos := st.tos ++ [c],
          hasChildren := st.hasChildren ++ [decide ((findN s c).C ≠ [])],
          result := st.result ++ [⟨0, b, (findN s c).F, rest.isEmpty⟩],
          index := st.index + 1 }
        (fun q hq3 => hC q (List.mem_cons_of_mem _ hq3)) hq2
      refine ⟨hmem, ?_⟩
      have hseen2 : st.seen.contains c = false := by
        cases hv : st.seen.contains c with
        | false => rfl
        | true => exact absurd hv hseen
      have hdrop := countP_drop hcT hseen2
      simp only [List.length_append, List.length_singleton] at hlen ⊢
      omega

theorem flatLoop_drain {s : Store} {T : List Nat}
    (hcl : ∀ i ∈ T, ∀ q ∈ (findN s i).C, q.2 ∈ T) :
    ∀ (fuel : Nat) (st : FlatState), (∀ x ∈ st.queue, x ∈ T) →
    st.queue.length + T.countP (fun x => !(st.seen.contains x)) ≤ fuel →
    (flatLoop s fuel st).queue = [] := by
  intro fuel
  induction fuel with
  | zero =>
    intro st _ hle
    have : st.queue.length = 0 := by omega
    simp only [flatLoop]
    exact List.length_eq_zero.mp this
  | succ n ih =>
    intro st hq hle
    cases hques : st.queue with
    | nil => simp only [flatLoop, hques]
    | cons nid rest =>
      simp only [flatLoop, hques]
      have hnid : nid ∈ T := hq nid (by rw [hques]; simp)
      have hrest : ∀ x ∈ rest, x ∈ T := fun x hx => hq x (by rw [hques]; simp [hx])
      obtain ⟨hmem, hlen⟩ := emitChildren_drain (findN s nid).C
        { st with queue := rest, indexes := (nid, st.index) :: st.indexes }
        (hcl nid hnid) hrest
      apply ih _ hmem
      simp only at hlen
      rw [hques] at hle
      simp only [List.length_cons] at hle
      omega

theorem chainShape_mid_childFind {s : Store} {S : List Nat} :
    ∀ (es1 : List (Nat × Nat × Nat)) {par : Nat} {bs : List Nat}
      {e e2 : Nat × Nat × Nat} {es3 : List (Nat × Nat × Nat)},
    ChainShape s S par (es1 ++ e :: e2 :: es3) bs →
    ∃ x v, childFind (findN s e.2.1).C x = some v := by
  intro es1
  induction es1 with
  | nil =>
    intro par bs e e2 es3 h
    obtain ⟨p, c, b⟩ := e
    cases bs with
    | nil => exact h.elim
    | cons pb bs2 =>
      obtain ⟨_, _, _, _, _, h6⟩ := h
      obtain ⟨p2, c2, b2⟩ := e2
      cases bs2 with
      | nil => exact h6.elim
      | cons pb2 bs3 =>
        obtain ⟨_, _, h3, _, _, _⟩ := h6
        exact ⟨pb2, c2, h3⟩
  | cons e0 es1x ih =>
    intro par bs e e2 es3 h
    obtain ⟨p0, c0, b0⟩ := e0
    cases bs with
    | nil => exact h.elim
    | cons pb bs2 =>
      obtain ⟨_, _, _, _, _, h6⟩ := h
      exact ih h6

theorem inv_term_nodes {ws : List (List Nat)} {d : DAWG} (hI : Inv ws d)
    (hne : ws ≠ []) :
    ∀ i ∈ (0 : Nat) ::
      (d.unchecked.reverse.map (fun e => e.2.1) ++ d.minimized.map (·.2)),
    (findN d.nodes i).F = true ∨ (findN d.nodes i).C ≠ [] := by
  intro i hi
  simp only [List.mem_cons, List.mem_append] at hi
  rcases hi with rfl | hcr | hS
  · exact Or.inr (hI.root_children hne)
  · have hpos : 0 < i := by
      have hpair := List.chain'_iff_pairwise.mp hI.chain_incr
      exact List.rel_of_pairwise_cons hpair hcr
    obtain ⟨cr1, cr2, hcrs⟩ := List.append_of_mem hcr
    obtain ⟨es1, y, es2, hes, hy, hm1, hm2⟩ := map_split hcrs
    have hch := hI.chain
    rw [hes] at hch
    cases es2 with
    | nil =>
      obtain ⟨py, cy, by2⟩ := y
      have hlast := chainShape_last hch
      simp only at hy
      rcases hlast.2.2 with hF | hC | h0
      · rw [hy] at hF
        exact Or.inl hF
      · rw [hy] at hC
        exact Or.inr hC
      · rw [h0] at hy
        omega
    | cons e2 es3 =>
      obtain ⟨x, v, hcf⟩ := chainShape_mid_childFind es1 hch
      rw [hy] at hcf
      exact Or.inr (childFind_some_ne_nil hcf)
  · exact hI.reg_term i hS

theorem complete_total {ws : List (List Nat)} {d : DAWG} (hI : Inv ws d)
    (hne : ws ≠ []) :
    ∀ (n : Nat) (t2 : List Nat), t2.length ≤ n → ∀ (t1 : List Nat) (i : Nat),
      (0 : Nat) :: (d.unchecked.reverse.map (fun e => e.2.1)
        ++ d.minimized.map (·.2)) = t1 ++ i :: t2 →
      ∀ acc, ∃ fuel buf, completeLoop d.nodes fuel i acc = some buf := by
  intro n
  induction n with
  | zero =>
    intro t2 hlen t1 i hT acc
    by_cases hF : (findN d.nodes i).F = true
    · exact ⟨1, acc.reverse, by simp [completeLoop, hF]⟩
    · exfalso
      have hiT : i ∈ (0 : Nat) :: (d.unchecked.reverse.map (fun e => e.2.1)
          ++ d.minimized.map (·.2)) := by rw [hT]; simp
      rcases inv_term_nodes hI hne i hiT with h | h
      · exact hF h
      · cases hC : (findN d.nodes i).C with
        | nil => exact h hC
        | cons q qs =>
          have hj := inv_hstep hI t1 i t2 hT q (by rw [hC]; simp)
          rw [List.length_eq_zero.mp (Nat.le_zero.mp hlen)] at hj
          cases hj
  | succ n ih =>
    intro t2 hlen t1 i hT acc
    by_cases hF : (findN d.nodes i).F = true
    · exact ⟨1, acc.reverse, by simp [completeLoop, hF]⟩
    · have hiT : i ∈ (0 : Nat) :: (d.unchecked.reverse.map (fun e => e.2.1)
          ++ d.minimized.map (·.2)) := by rw [hT]; simp
      have hF2 : (findN d.nodes i).F = false := by
        revert hF
        cases (findN d.nodes i).F <;> simp
      rcases inv_term_nodes hI hne i hiT with h | h
      · exact absurd h hF
      · cases hC : (findN d.nodes i).C with
        | nil => exact absurd hC h
        | cons q qs =>
          obtain ⟨b, j⟩ := q
          have hj : j ∈ t2 := inv_hstep hI t1 i t2 hT (b, j) (by rw [hC]; simp)
          obtain ⟨u1, u2, hu⟩ := List.append_of_mem hj
          have hT2 : (0 : Nat) :: (d.unchecked.reverse.map (fun e => e.2.1)
              ++ d.minimized.map (·.2)) = (t1 ++ i :: u1) ++ j :: u2 := by
            rw [hT, hu]
            simp [List.append_assoc]
          have hlen2 : u2.length ≤ n := by
            have h5 : t2.length = u1.length + u2.length + 1 := by
              rw [hu]
              simp [List.length_append]
              omega
            omega
          obtain ⟨f, buf, hbuf⟩ := ih u2 hlen2 (t1 ++ i :: u1) j hT2 (b :: acc)
          refine ⟨f + 1, buf, ?_⟩
          simp only [completeLoop, hF2, hC]
          simp only [Bool.false_eq_true, if_false]
          exact hbuf

/-- C4 (amended): on every state built by `Insert`s (optionally finished),
`Flatten`'s breadth-first queue drains within its node budget, so `Flatten`
is total; and once at least one word has been inserted, `LookupPrefix`'s
completion loop terminates for every prefix.  (On the empty automaton the
completion loop diverges: see the counterexample.) -/
theorem totality_amended {ws : List (List Nat)} {d : DAWG}
    (h : buildList ws = some d ∨ buildFinish ws = some d) :
    (flatLoop d.nodes (d.nodes.length + 1) ⟨[], [], [], [], [], [0], 0⟩).queue = [] ∧
    (ws ≠ [] → ∀ pfx, ∃ fuel r, lookupPfxGo fuel d pfx = some r) := by
  have hI : Inv ws d := by
    rcases h with h | h
    · simp only [buildList] at h
      obtain ⟨hI, _⟩ := inv_buildFrom ws inv_initD.1 inv_initD.2 h
      rw [List.nil_append] at hI
      exact hI
    · exact (buildFinish_inv h).1
  constructor
  · apply flatLoop_drain (inv_T_closed hI)
    · intro x hx
      simp only [List.mem_singleton] at hx
      subst hx
      simp
    · simp only [List.length_singleton]
      have h1 : ((0 : Nat) :: (d.unchecked.reverse.map (fun e => e.2.1)
            ++ d.minimized.map (·.2))).countP
            (fun x => !((([] : List Nat)).contains x))
          ≤ ((0 : Nat) :: (d.unchecked.reverse.map (fun e => e.2.1)
            ++ d.minimized.map (·.2))).length :=
        List.countP_le_length _
      have h2 := inv_T_len hI
      omega
  · intro hne pfx
    cases hwalk : walkFrom d.nodes 0 pfx with
    | none => exact ⟨1, ([], false), by simp [lookupPfxGo, hwalk]⟩
    | some i =>
      have hiT : i ∈ (0 : Nat) :: (d.unchecked.reverse.map (fun e => e.2.1)
          ++ d.minimized.map (·.2)) := by
        cases hxc : pfx with
        | nil =>
          rw [hxc] at hwalk
          injection hwalk with h2
          rw [← h2]
          simp
        | cons b xs =>
          have hc : (0 : Nat) :: (d.unchecked.reverse.map (fun e => e.2.1)
              ++ d.minimized.map (·.2)) = [] ++ 0 ::
              (d.unchecked.reverse.map (fun e => e.2.1) ++ d.minimized.map (·.2)) := by
            simp
          rw [hxc] at hwalk
          have := walk_tail (inv_hstep hI) _ _ (le_refl _) (b :: xs) [] 0 i hc hwalk
            (by simp)
          simp only [List.mem_cons]
          exact Or.inr this
      obtain ⟨t1, t2, ht⟩ := List.append_of_mem hiT
      obtain ⟨fuel, buf, hbuf⟩ := complete_total hI hne t2.length t2 (le_refl _)
        t1 i ht []
      exact ⟨fuel, (buf, true), by simp [lookupPfxGo, hwalk, hbuf]⟩

/-- C4 witness: after inserting `"a"`, the flatten queue drains and
`LookupPrefix` terminates on the prefixes `"a"` and `"b"`. -/
theorem totality_amended_witness :
    (flatLoop ((buildFinish [[97]]).get (by decide)).nodes
      (((buildFinish [[97]]).get (by decide)).nodes.length + 1)
      ⟨[], [], [], [], [], [0], 0⟩).queue = [] ∧
    (∃ fuel r, lookupPfxGo fuel ((buildFinish [[97]]).get (by decide)) [97] = some r) := by
  have hb : buildFinish [[97]] = some ((buildFinish [[97]]).get (by decide)) :=
    (Option.some_get _).symm
  obtain ⟨h1, h2⟩ := totality_amended (Or.inr hb)
  exact ⟨h1, h2 (by decide) [97]⟩

/-! ## Claims C8 and C9: `Flatten` -/

theorem containsN_iff {l : List Nat} {a : Nat} : l.contains a = true ↔ a ∈ l := by
  simp

theorem emitChildren_queue_seen (s : Store) : ∀ (C : List (Nat × Nat)) (st : FlatState),
    (emitChildren s st C).seen = (pushChildren st.seen st.queue (C.map (·.2))).1 ∧
    (emitChildren s st C).queue = (pushChildren st.seen st.queue (C.map (·.2))).2 := by
  intro C
  induction C with
  | nil =>
    intro st
    simp [emitChildren, pushChildren]
  | cons p rest ih =>
    intro st
    obtain ⟨b, c⟩ := p
    simp only [emitChildren, List.map_cons, pushChildren]
    by_cases hc : st.seen.contains c = true
    · simp only [if_pos hc]
      constructor
      · rw [(ih _).1]
      · rw [(ih _).2]
    · simp only [if_neg hc]
      constructor
      · rw [(ih _).1]
      · rw [(ih _).2]

theorem emitChildren_fields (s : Store) : ∀ (C : List (Nat × Nat)) (st : FlatState),
    (emitChildren s st C).result
        = st.result ++ mapLast (fun p isLast =>
            (⟨0, p.1, (findN s p.2).F, isLast⟩ : ArrayNode)) C ∧
    (emitChildren s st C).tos = st.tos ++ C.map (·.2) ∧
    (emitChildren s st C).hasChildren
        = st.hasChildren ++ C.map (fun q => decide ((findN s q.2).C ≠ [])) ∧
    (emitChildren s st C).indexes = st.indexes ∧
    (emitChildren s st C).index = st.index + C.length := by
  intro C
  induction C with
  | nil =>
    intro st
    simp [emitChildren, mapLast]
  | cons p rest ih =>
    intro st
    obtain ⟨b, c⟩ := p
    have hstep : emitChildren s st ((b, c) :: rest) = emitChildren s
        { st with
          queue := if st.seen.contains c then st.queue else st.queue ++ [c],
          seen := if st.seen.contains c then st.seen else c :: st.seen,
          tos := st.tos ++ [c],
          hasChildren := st.hasChildren ++ [decide ((findN s c).C ≠ [])],
          result := st.result ++ [⟨0, b, (findN s c).F, rest.isEmpty⟩],
          index := st.index + 1 } rest := rfl
    rw [hstep]
    cases rest with
    | nil =>
      simp only [emitChildren, mapLast]
      refine ⟨?_, ?_, ?_, ?_, ?_⟩ <;> simp
    | cons r rs =>
      refine ⟨?_, ?_, ?_, ?_, ?_⟩
      · rw [(ih _).1]
        simp only [mapLast]
        simp [List.append_assoc]
      · rw [(ih _).2.1]
        simp [List.append_assoc]
      · rw [(ih _).2.2.1]
        simp [List.append_assoc]
      · rw [(ih _).2.2.2.1]
      · rw [(ih _).2.2.2.2]
        simp only [List.length_cons]
        omega

theorem pushChildren_inv {T : List Nat} :
    ∀ (cs : List Nat) (seen queue D : List Nat),
    (∀ c ∈ cs, c ≠ 0 ∧ c ∈ T) →
    (D ++ queue).Nodup →
    (∀ x, x ∈ seen ↔ (x ∈ D ++ queue ∧ x ≠ 0)) →
    (∀ x ∈ D ++ queue, x ∈ T) →
    (D ++ (pushChildren seen queue cs).2).Nodup ∧
    (∀ x, x ∈ (pushChildren seen queue cs).1
      ↔ (x ∈ D ++ (pushChildren seen queue cs).2 ∧ x ≠ 0)) ∧
    (∀ x ∈ D ++ (pushChildren seen queue cs).2, x ∈ T) ∧
    (∀ c ∈ cs, c ∈ (pushChildren seen queue cs).1) ∧
    (∀ x ∈ seen, x ∈ (pushChildren seen queue cs).1) ∧
    (pushChildren seen queue cs).2.length
        + T.countP (fun x => !((pushChildren seen queue cs).1.contains x))
      ≤ queue.length + T.countP (fun x => !(seen.contains x)) := by
  intro cs
  induction cs with
  | nil =>
    intro seen queue D _ hnd hseen hT
    simp only [pushChildren]
    exact ⟨hnd, hseen, hT, by simp, fun x hx => hx, le_refl _⟩
  | cons c cs2 ih =>
    intro seen queue D hcs hnd hseen hT
    obtain ⟨hc0, hcT⟩ := hcs c (by simp)
    simp only [pushChildren]
    by_cases hctn : seen.contains c = true
    · rw [if_pos hctn]
      have hrec := ih seen queue D (fun c2 hc2 => hcs c2 (by simp [hc2])) hnd hseen hT
      refine ⟨hrec.1, hrec.2.1, hrec.2.2.1, ?_, hrec.2.2.2.2.1, hrec.2.2.2.2.2⟩
      intro c2 hc2
      rcases List.mem_cons.mp hc2 with rfl | h
      · exact hrec.2.2.2.2.1 c2 (containsN_iff.mp hctn)
      · exact hrec.2.2.2.1 c2 h
    · rw [if_neg hctn]
      have hcnotmem : c ∉ D ++ queue := by
        intro hmem
        exact hctn (containsN_iff.mpr ((hseen c).mpr ⟨hmem, hc0⟩))
      have hnd2 : (D ++ (queue ++ [c])).Nodup := by
        rw [← List.append_assoc, List.nodup_append]
        refine ⟨hnd, List.nodup_singleton c, ?_⟩
        intro x hx hx2
        rw [List.mem_singleton.mp hx2] at hx
        exact hcnotmem hx
      have hseen2 : ∀ x, x ∈ c :: seen ↔ (x ∈ D ++ (queue ++ [c]) ∧ x ≠ 0) := by
        intro x
        constructor
        · intro hx
          rcases List.mem_cons.mp hx with rfl | hx2
          · exact ⟨by simp, hc0⟩
          · obtain ⟨hm, h0⟩ := (hseen x).mp hx2
            refine ⟨?_, h0⟩
            rcases List.mem_append.mp hm with h | h
            · exact List.mem_append.mpr (Or.inl h)
            · exact List.mem_append.mpr (Or.inr (List.mem_append.mpr (Or.inl h)))
        · rintro ⟨hm, h0⟩
          rcases List.mem_append.mp hm with h | h
          · exact List.mem_cons_of_mem _
              ((hseen x).mpr ⟨List.mem_append.mpr (Or.inl h), h0⟩)
          · rcases List.mem_append.mp h with h2 | h2
            · exact List.mem_cons_of_mem _
                ((hseen x).mpr ⟨List.mem_append.mpr (Or.inr h2), h0⟩)
            · rw [List.mem_singleton.mp h2]
              simp
      have hT2 : ∀ x ∈ D ++ (queue ++ [c]), x ∈ T := by
        intro x hx
        rcases List.mem_append.mp hx with h | h
        · exact hT x (List.mem_append.mpr (Or.inl h))
        · rcases List.mem_append.mp h with h2 | h2
          · exact hT x (List.mem_append.mpr (Or.inr h2))
          · rw [List.mem_singleton.mp h2]
            exact hcT
      have hrec := ih (c :: seen) (queue ++ [c]) D
        (fun c2 hc2 => hcs c2 (by simp [hc2])) hnd2 hseen2 hT2
      refine ⟨hrec.1, hrec.2.1, hrec.2.2.1, ?_, ?_, ?_⟩
      · intro c2 hc2
        rcases List.mem_cons.mp hc2 with rfl | h
        · exact hrec.2.2.2.2.1 c2 (by simp)
        · exact hrec.2.2.2.1 c2 h
      · intro x hx
        exact hrec.2.2.2.2.1 x (List.mem_cons_of_mem _ hx)
      · have hb := hrec.2.2.2.2.2
        have hseenf : seen.contains c = false := by
          cases hv : seen.contains c with
          | false => rfl
          | true => exact absurd hv hctn
        have hdrop := countP_drop hcT hseenf
        simp only [List.length_append, List.length_singleton] at hb ⊢
        omega

theorem rawFlat_snoc (s : Store) (P : List Nat) (nid : Nat) :
    rawFlat s (P ++ [nid]) = rawFlat s P ++ rawBlock s nid := by
  simp [rawFlat]

theorem tosFlat_snoc (s : Store) (P : List Nat) (nid : Nat) :
    tosFlat s (P ++ [nid]) = tosFlat s P ++ (findN s nid).C.map (·.2) := by
  simp [tosFlat]

theorem hcFlat_snoc (s : Store) (P : List Nat) (nid : Nat) :
    hcFlat s (P ++ [nid]) = hcFlat s P
      ++ (findN s nid).C.map (fun q => decide ((findN s q.2).C ≠ [])) := by
  simp [hcFlat]

theorem countEdges_cons (s : Store) (a : Nat) (P : List Nat) :
    countEdges s (a :: P) = (findN s a).C.length + countEdges s P := by
  simp [countEdges]

theorem countEdges_snoc (s : Store) (P : List Nat) (nid : Nat) :
    countEdges s (P ++ [nid]) = countEdges s P + (findN s nid).C.length := by
  simp [countEdges]

theorem idxForward_snoc (s : Store) (nid : Nat) :
    ∀ (P : List Nat) (idx0 : Nat),
    idxForward s (P ++ [nid]) idx0
      = idxForward s P idx0 ++ [(nid, idx0 + countEdges s P)] := by
  intro P
  induction P with
  | nil =>
    intro idx0
    simp [idxForward, countEdges]
  | cons a Px ih =>
    intro idx0
    simp only [List.cons_append, idxForward, countEdges_cons]
    show (a, idx0) :: idxForward s (Px ++ [nid]) (idx0 + (findN s a).C.length) = _
    rw [ih, Nat.add_assoc]

theorem bfsAux_acc (s : Store) : ∀ (fuel : Nat) (seen queue acc : List Nat),
    bfsAux s fuel seen queue acc = acc.reverse ++ bfsAux s fuel seen queue [] := by
  intro fuel
  induction fuel with
  | zero =>
    intro seen queue acc
    simp [bfsAux]
  | succ n ih =>
    intro seen queue acc
    cases queue with
    | nil => simp [bfsAux]
    | cons nid rest =>
      simp only [bfsAux]
      rw [ih _ _ (nid :: acc), ih _ _ [nid]]
      simp [List.append_assoc]

theorem flatLoop_spec {s : Store} {T : List Nat}
    (hcl : ∀ i ∈ T, ∀ q ∈ (findN s i).C, q.2 ∈ T)
    (hnz : ∀ i ∈ T, ∀ q ∈ (findN s i).C, q.2 ≠ 0) :
    ∀ (fuel : Nat) (st : FlatState) (P : List Nat),
    st.result = rawFlat s P → st.tos = tosFlat s P → st.hasChildren = hcFlat s P →
    st.index = countEdges s P → st.indexes = (idxForward s P 0).reverse →
    (P ++ st.queue).Nodup →
    (∀ x, x ∈ st.seen ↔ (x ∈ P ++ st.queue ∧ x ≠ 0)) →
    (∀ p ∈ P, ∀ q ∈ (findN s p).C, q.2 ∈ st.seen) →
    (∀ x ∈ P ++ st.queue, x ∈ T) →
    st.queue.length + T.countP (fun x => !(st.seen.contains x)) ≤ fuel →
    (flatLoop s fuel st).result
        = rawFlat s (P ++ bfsAux s fuel st.seen st.queue []) ∧
    (flatLoop s fuel st).tos = tosFlat s (P ++ bfsAux s fuel st.seen st.queue []) ∧
    (flatLoop s fuel st).hasChildren
        = hcFlat s (P ++ bfsAux s fuel st.seen st.queue []) ∧
    (flatLoop s fuel st).indexes
        = (idxForward s (P ++ bfsAux s fuel st.seen st.queue []) 0).reverse ∧
    (P ++ bfsAux s fuel st.seen st.queue []).Nodup ∧
    (∀ p ∈ P ++ bfsAux s fuel st.seen st.queue [],
      ∀ q ∈ (findN s p).C, q.2 ∈ P ++ bfsAux s fuel st.seen st.queue []) ∧
    (∀ x ∈ P ++ bfsAux s fuel st.seen st.queue [], x ∈ T) := by
  intro fuel
  induction fuel with
  | zero =>
    intro st P h1 h2 h3 _ h5 hnd hseen hdone hT hbud
    have hq : st.queue = [] := List.length_eq_zero.mp (by omega)
    rw [hq] at hnd hseen hT
    simp only [bfsAux, flatLoop, List.reverse_nil, List.append_nil] at h1 h2 h3 h5 ⊢
    rw [List.append_nil] at hnd hseen hT
    refine ⟨h1, h2, h3, h5, hnd, ?_, hT⟩
    intro p hp q hq2
    have hs := hdone p hp q hq2
    exact ((hseen q.2).mp hs).1
  | succ n ih =>
    intro st P h1 h2 h3 h4 h5 hnd hseen hdone hT hbud
    cases hques : st.queue with
    | nil =>
      rw [hques] at hnd hseen hT
      simp only [bfsAux, hques, flatLoop, List.reverse_nil, List.append_nil] at h1 h2 h3 h5 ⊢
      rw [List.append_nil] at hnd hseen hT
      refine ⟨h1, h2, h3, h5, hnd, ?_, hT⟩
      intro p hp q hq2
      have hs := hdone p hp q hq2
      exact ((hseen q.2).mp hs).1
    | cons nid rest =>
      have hnidT : nid ∈ T := hT nid (by rw [hques]; simp)
      have hcs : ∀ c ∈ (findN s nid).C.map (·.2), c ≠ 0 ∧ c ∈ T := by
        intro c hc
        obtain ⟨q, hq2, rfl⟩ := List.mem_map.mp hc
        exact ⟨hnz nid hnidT q hq2, hcl nid hnidT q hq2⟩
      have heqlist : P ++ [nid] ++ rest = P ++ st.queue := by
        rw [hques, List.append_assoc]
        rfl
      have hnd2 : (P ++ [nid] ++ rest).Nodup := by rw [heqlist]; exact hnd
      have hseen2 : ∀ x, x ∈ st.seen ↔ (x ∈ P ++ [nid] ++ rest ∧ x ≠ 0) := by
        intro x
        rw [heqlist]
        exact hseen x
      have hT2 : ∀ x ∈ P ++ [nid] ++ rest, x ∈ T := by
        intro x hx
        rw [heqlist] at hx
        exact hT x hx
      have hpush := pushChildren_inv ((findN s nid).C.map (·.2)) st.seen rest
        (P ++ [nid]) hcs hnd2 hseen2 hT2
      have hqs := emitChildren_queue_seen s (findN s nid).C
        { st with queue := rest, indexes := (nid, st.index) :: st.indexes }
      have hfld := emitChildren_fields s (findN s nid).C
        { st with queue := rest, indexes := (nid, st.index) :: st.indexes }
      have hrec := ih (emitChildren s
          { st with queue := rest, indexes := (nid, st.index) :: st.indexes }
          (findN s nid).C) (P ++ [nid])
        (by rw [hfld.1]; simp only; rw [h1, rawFlat_snoc]; rfl)
        (by rw [hfld.2.1]; simp only; rw [h2, tosFlat_snoc])
        (by rw [hfld.2.2.1]; simp only; rw [h3, hcFlat_snoc])
        (by rw [hfld.2.2.2.2]; simp only; rw [h4, countEdges_snoc])
        (by
          rw [hfld.2.2.2.1]
          simp only
          rw [h5, h4, idxForward_snoc]
          simp)
        (by rw [hqs.2]; simp only; exact hpush.1)
        (by
          rw [hqs.1, hqs.2]
          simp only
          exact hpush.2.1)
        (by
          rw [hqs.1]
          simp only
          intro p hp q hq2
          rcases List.mem_append.mp hp with hp2 | hp2
          · exact hpush.2.2.2.2.1 q.2 (hdone p hp2 q hq2)
          · rw [List.mem_singleton.mp hp2] at hq2
            exact hpush.2.2.2.1 q.2 (List.mem_map.mpr ⟨q, hq2, rfl⟩)
          )
        (by rw [hqs.2]; simp only; exact hpush.2.2.1)
        (by
          rw [hqs.1, hqs.2]
          simp only
          have hb := hpush.2.2.2.2.2
          rw [hques] at hbud
          simp only [List.length_cons] at hbud
          omega)
      have hbfs : bfsAux s (n + 1) st.seen (nid :: rest) []
          = nid :: bfsAux s n
              (pushChildren st.seen rest ((findN s nid).C.map (·.2))).1
              (pushChildren st.seen rest ((findN s nid).C.map (·.2))).2 [] := by
        simp only [bfsAux]
        rw [bfsAux_acc]
        simp
      have hassoc : ∀ (L : List Nat), P ++ [nid] ++ L = P ++ (nid :: L) := by
        intro L
        rw [List.append_assoc]
        rfl
      simp only [flatLoop, hques]
      rw [hbfs, ← hassoc]
      obtain ⟨r1, r2, r3, r4, r5, r6, r7⟩ := hrec
      rw [hqs.1, hqs.2] at r1 r2 r3 r4 r5 r6 r7
      simp only at r1 r2 r3 r4 r5 r6 r7
      exact ⟨r1, r2, r3, r4, r5, r6, r7⟩

theorem idxFind_unique : ∀ {L : List (Nat × Nat)} {c v : Nat}, (L.map (·.1)).Nodup →
    (c, v) ∈ L → idxFind L c = v := by
  intro L
  induction L with
  | nil =>
    intro c v _ h
    cases h
  | cons kv rest ih =>
    intro c v hnd hm
    obtain ⟨k, w⟩ := kv
    simp only [List.map_cons, List.nodup_cons] at hnd
    rcases List.mem_cons.mp hm with heq | hm2
    · injection heq with h1 h2
      subst h1
      subst h2
      simp [idxFind]
    · have hkc : ¬(k = c) := by
        intro h
        subst h
        exact hnd.1 (List.mem_map.mpr ⟨(k, v), hm2, rfl⟩)
      simp only [idxFind, if_neg hkc]
      exact ih hnd.2 hm2

theorem idxForward_keys (s : Store) : ∀ (ord : List Nat) (idx0 : Nat),
    (idxForward s ord idx0).map (·.1) = ord := by
  intro ord
  induction ord with
  | nil => intro idx0; rfl
  | cons a rest ih =>
    intro idx0
    simp only [idxForward, List.map_cons, ih]

theorem idxForward_mem (s : Store) {c : Nat} : ∀ (ord : List Nat) (idx0 : Nat), c ∈ ord →
    (c, idx0 + countEdges s (ord.takeWhile (fun i => i ≠ c))) ∈ idxForward s ord idx0 := by
  intro ord
  induction ord with
  | nil =>
    intro idx0 h
    cases h
  | cons a rest ih =>
    intro idx0 hc
    by_cases hac : a = c
    · subst hac
      have hp : (decide ¬(a = a)) = false := by simp
      simp only [List.takeWhile_cons, hp, Bool.false_eq_true, if_false]
      simp only [countEdges, List.map_nil, List.sum_nil, Nat.add_zero, idxForward]
      simp
    · have hcr : c ∈ rest := by
        rcases List.mem_cons.mp hc with h | h
        · exact absurd h.symm hac
        · exact h
      have hp : (decide ¬(a = c)) = true := by simp [hac]
      simp only [List.takeWhile_cons, hp, if_true, countEdges_cons, idxForward]
      have := ih (idx0 + (findN s a).C.length) hcr
      refine List.mem_cons_of_mem _ ?_
      have harith : idx0 + ((findN s a).C.length
          + countEdges s (rest.takeWhile (fun i => i ≠ c)))
          = idx0 + (findN s a).C.length
            + countEdges s (rest.takeWhile (fun i => i ≠ c)) := by omega
      rw [harith]
      exact this

theorem mapLast_length {α β : Type} (f : α → Bool → β) :
    ∀ (l : List α), (mapLast f l).length = l.length := by
  intro l
  induction l with
  | nil => rfl
  | cons a rest ih =>
    cases rest with
    | nil => rfl
    | cons r rs =>
      simp only [mapLast, List.length_cons] at ih ⊢
      omega

theorem patch_append (indexes : List (Nat × Nat)) :
    ∀ (r1 : List ArrayNode) (t1 : List Nat) (h1 : List Bool)
      (r2 : List ArrayNode) (t2 : List Nat) (h2 : List Bool),
    r1.length = t1.length → r1.length = h1.length →
    patchResult indexes (r1 ++ r2) (t1 ++ t2) (h1 ++ h2)
      = patchResult indexes r1 t1 h1 ++ patchResult indexes r2 t2 h2 := by
  intro r1
  induction r1 with
  | nil =>
    intro t1 h1 r2 t2 h2 hl1 hl2
    simp only [List.length_nil] at hl1 hl2
    have ht : t1 = [] := List.length_eq_zero.mp hl1.symm
    have hh : h1 = [] := List.length_eq_zero.mp hl2.symm
    subst ht
    subst hh
    simp [patchResult]
  | cons e es ih =>
    intro t1 h1 r2 t2 h2 hl1 hl2
    cases t1 with
    | nil => simp at hl1
    | cons t ts =>
      cases h1 with
      | nil => simp at hl2
      | cons hb hs =>
        have hstep1 : patchResult indexes ((e :: es) ++ r2) ((t :: ts) ++ t2)
            ((hb :: hs) ++ h2)
            = (if hb then { e with Index := idxFind indexes t } else e)
              :: patchResult indexes (es ++ r2) (ts ++ t2) (hs ++ h2) := rfl
        have hstep2 : patchResult indexes (e :: es) (t :: ts) (hb :: hs)
            = (if hb then { e with Index := idxFind indexes t } else e)
              :: patchResult indexes es ts hs := rfl
        rw [hstep1, hstep2, List.cons_append,
          ih ts hs r2 t2 h2 (by simpa using hl1) (by simpa using hl2)]

theorem patch_entry (indexes : List (Nat × Nat)) (s : Store) (ord : List Nat)
    (b c : Nat) (isLast : Bool)
    (hidx : (findN s c).C ≠ [] → idxFind indexes c = startIndex s ord c) :
    (if decide ((findN s c).C ≠ []) then
        { (⟨0, b, (findN s c).F, isLast⟩ : ArrayNode) with Index := idxFind indexes c }
      else (⟨0, b, (findN s c).F, isLast⟩ : ArrayNode))
      = entryFor s ord b c isLast := by
  by_cases hcc : (findN s c).C = []
  · have hd : decide ((findN s c).C ≠ []) = false := by simp [hcc]
    rw [hd]
    simp [entryFor, hcc]
  · have hd : decide ((findN s c).C ≠ []) = true := by simp [hcc]
    rw [hd]
    simp [entryFor, hcc, hidx hcc]

theorem patch_block (indexes : List (Nat × Nat)) (s : Store) (ord : List Nat) :
    ∀ (C : List (Nat × Nat)),
    (∀ q ∈ C, (findN s q.2).C ≠ [] → idxFind indexes q.2 = startIndex s ord q.2) →
    patchResult indexes
        (mapLast (fun p isLast => (⟨0, p.1, (findN s p.2).F, isLast⟩ : ArrayNode)) C)
        (C.map (·.2)) (C.map (fun q => decide ((findN s q.2).C ≠ [])))
      = mapLast (fun p isLast => entryFor s ord p.1 p.2 isLast) C := by
  intro C
  induction C with
  | nil =>
    intro _
    simp [mapLast, patchResult]
  | cons p rest ih =>
    intro hidx
    obtain ⟨b, c⟩ := p
    cases rest with
    | nil =>
      simp only [mapLast, List.map_cons, List.map_nil, patchResult]
      rw [patch_entry indexes s ord b c true (hidx (b, c) (by simp))]
    | cons r rs =>
      have hstep : patchResult indexes
          (mapLast (fun p isLast =>
            (⟨0, p.1, (findN s p.2).F, isLast⟩ : ArrayNode)) ((b, c) :: r :: rs))
          (((b, c) :: r :: rs).map (·.2))
          (((b, c) :: r :: rs).map (fun q => decide ((findN s q.2).C ≠ [])))
          = (if decide ((findN s c).C ≠ []) then
              { (⟨0, b, (findN s c).F, false⟩ : ArrayNode)
                  with Index := idxFind indexes c }
            else (⟨0, b, (findN s c).F, false⟩ : ArrayNode))
            :: patchResult indexes
              (mapLast (fun p isLast =>
                (⟨0, p.1, (findN s p.2).F, isLast⟩ : ArrayNode)) (r :: rs))
              ((r :: rs).map (·.2))
              ((r :: rs).map (fun q => decide ((findN s q.2).C ≠ []))) := rfl
      rw [hstep, patch_entry indexes s ord b c false (hidx (b, c) (by simp)),
        ih (fun q hq => hidx q (List.mem_cons_of_mem _ hq))]
      rfl

theorem patch_flat (indexes : List (Nat × Nat)) (s : Store) (ord0 : List Nat) :
    ∀ (ord : List Nat),
    (∀ nid ∈ ord, ∀ q ∈ (findN s nid).C,
      (findN s q.2).C ≠ [] → idxFind indexes q.2 = startIndex s ord0 q.2) →
    patchResult indexes (rawFlat s ord) (tosFlat s ord) (hcFlat s ord)
      = (ord.map (blockFor s ord0)).flatten := by
  intro ord
  induction ord with
  | nil =>
    intro _
    simp [rawFlat, tosFlat, hcFlat, patchResult]
  | cons nid rest ih =>
    intro hidx
    have h1 : rawFlat s (nid :: rest) = rawBlock s nid ++ rawFlat s rest := by
      simp [rawFlat]
    have h2 : tosFlat s (nid :: rest)
        = (findN s nid).C.map (·.2) ++ tosFlat s rest := by
      simp [tosFlat]
    have h3 : hcFlat s (nid :: rest)
        = (findN s nid).C.map (fun q => decide ((findN s q.2).C ≠ []))
          ++ hcFlat s rest := by
      simp [hcFlat]
    rw [h1, h2, h3, patch_append indexes _ _ _ _ _ _
      (by simp [rawBlock, mapLast_length]) (by simp [rawBlock, mapLast_length])]
    simp only [rawBlock]
    rw [patch_block indexes s ord0 _ (hidx nid (by simp))]
    rw [ih (fun n2 hn2 => hidx n2 (List.mem_cons_of_mem _ hn2))]
    simp [blockFor]

theorem inv_child_ne_zero {ws : List (List Nat)} {d : DAWG} (hI : Inv ws d) :
    ∀ i ∈ (0 : Nat) ::
      (d.unchecked.reverse.map (fun e => e.2.1) ++ d.minimized.map (·.2)),
    ∀ q ∈ (findN d.nodes i).C, q.2 ≠ 0 := by
  intro i hi q hq h0
  obtain ⟨t1, t2, ht⟩ := List.append_of_mem hi
  have h2 := inv_hstep hI t1 i t2 ht q hq
  rw [h0] at h2
  have hnd := inv_T_nodup hI
  cases t1 with
  | nil =>
    simp only [List.nil_append] at ht
    injection ht with ha hb
    rw [List.nodup_cons] at hnd
    rw [hb] at hnd
    exact hnd.1 h2
  | cons a t1x =>
    simp only [List.cons_append] at ht
    injection ht with ha hb
    rw [List.nodup_cons, hb] at hnd
    exact hnd.1 (List.mem_append.mpr (Or.inr (List.mem_cons_of_mem _ h2)))

theorem bfs_facts {ws : List (List Nat)} {d : DAWG} (hI : Inv ws d) :
    flattenGo d = specFlatten d.nodes (bfsOrder d) ∧
    (bfsOrder d).Nodup ∧
    (∀ p ∈ bfsOrder d, ∀ q ∈ (findN d.nodes p).C, q.2 ∈ bfsOrder d) ∧
    (∀ p ∈ bfsOrder d, ∀ q ∈ (findN d.nodes p).C, q.2 ≠ 0) ∧
    0 ∈ bfsOrder d ∧ (bfsOrder d).head? = some 0 := by
  have hmain := flatLoop_spec (inv_T_closed hI) (inv_child_ne_zero hI)
    (d.nodes.length + 1) ⟨[], [], [], [], [], [0], 0⟩ []
    (by simp [rawFlat]) (by simp [tosFlat]) (by simp [hcFlat])
    (by simp [countEdges]) (by simp [idxForward])
    (by simp)
    (by
      intro x
      constructor
      · intro h
        cases h
      · rintro ⟨h1, h2⟩
        simp at h1
        exact absurd h1 h2)
    (by intro p hp; cases hp)
    (by
      intro x hx
      simp only [List.nil_append, List.mem_singleton] at hx
      subst hx
      simp)
    (by
      simp only [List.length_singleton]
      have h1 : ((0 : Nat) :: (d.unchecked.reverse.map (fun e => e.2.1)
            ++ d.minimized.map (·.2))).countP
            (fun x => !((([] : List Nat)).contains x))
          ≤ ((0 : Nat) :: (d.unchecked.reverse.map (fun e => e.2.1)
            ++ d.minimized.map (·.2))).length :=
        List.countP_le_length _
      have h2 := inv_T_len hI
      omega)
  obtain ⟨r1, r2, r3, r4, r5, r6, r7⟩ := hmain
  have hord : bfsOrder d = bfsAux d.nodes (d.nodes.length + 1)
      (⟨[], [], [], [], [], [0], 0⟩ : FlatState).seen
      (⟨[], [], [], [], [], [0], 0⟩ : FlatState).queue [] := rfl
  rw [← hord] at r1 r2 r3 r4 r5 r6 r7
  simp only [List.nil_append] at r1 r2 r3 r4 r5 r6 r7
  have hC9 : flattenGo d = specFlatten d.nodes (bfsOrder d) := by
    show patchResult (flatLoop d.nodes (d.nodes.length + 1)
        ⟨[], [], [], [], [], [0], 0⟩).indexes _ _ _ = _
    rw [r1, r2, r3, r4]
    rw [patch_flat _ _ (bfsOrder d) (bfsOrder d) ?hidx]
    · rfl
    case hidx =>
      intro nid hnid q hq _
      apply idxFind_unique
      · rw [List.map_reverse, idxForward_keys]
        exact List.nodup_reverse.mpr r5
      · rw [List.mem_reverse]
        have hmem := idxForward_mem d.nodes (bfsOrder d) 0 (r6 nid hnid q hq)
        rw [Nat.zero_add] at hmem
        exact hmem
  have hhead : (bfsOrder d).head? = some 0 := by
    show (bfsAux d.nodes (d.nodes.length + 1) [] [0] []).head? = some 0
    simp only [bfsAux]
    rw [bfsAux_acc]
    simp
  refine ⟨hC9, r5, r6, ?_, ?_, hhead⟩
  · intro p hp q hq
    exact inv_child_ne_zero hI p (r7 p hp) q hq
  · cases ho : bfsOrder d with
    | nil => rw [ho] at hhead; cases hhead
    | cons a tl =>
      rw [ho] at hhead
      simp only [List.head?] at hhead
      injection hhead with hh
      rw [← hh]
      simp

/-- C9: `Flatten` emits, for each node in breadth-first order from the root,
one entry per outgoing edge in ascending label order, end-of-list flagged on
the node's last edge, carrying the target's terminal flag, and (after the
patch loop) the child index of the target's first edge entry, `0` for a
leaf. -/
theorem flatten_emission {ws : List (List Nat)} {d : DAWG}
    (h : buildList ws = some d ∨ buildFinish ws = some d) :
    flattenGo d = specFlatten d.nodes (bfsOrder d) := by
  have hI : Inv ws d := by
    rcases h with h | h
    · simp only [buildList] at h
      obtain ⟨hI, _⟩ := inv_buildFrom ws inv_initD.1 inv_initD.2 h
      rw [List.nil_append] at hI
      exact hI
    · exact (buildFinish_inv h).1
  exact (bfs_facts hI).1

/-- C9 witness: the flattening of the finished automaton for `{"a","ab"}`
matches the prescribed emission. -/
theorem flatten_emission_witness :
    flattenGo ((buildFinish [[97], [97, 98]]).get (by decide))
      = specFlatten ((buildFinish [[97], [97, 98]]).get (by decide)).nodes
          (bfsOrder ((buildFinish [[97], [97, 98]]).get (by decide))) := by
  have hb : buildFinish [[97], [97, 98]]
      = some ((buildFinish [[97], [97, 98]]).get (by decide)) :=
    (Option.some_get _).symm
  exact flatten_emission (Or.inr hb)

theorem blockFor_length (s : Store) (ord : List Nat) (i : Nat) :
    (blockFor s ord i).length = (findN s i).C.length :=
  mapLast_length _ _

theorem flat_get (s : Store) (ord0 : List Nat) :
    ∀ (ord2 : List Nat) (i : Nat), i ∈ ord2 → ∀ (k : Nat), k < (blockFor s ord0 i).length →
    ((ord2.map (blockFor s ord0)).flatten).get?
        (countEdges s (ord2.takeWhile (fun j => j ≠ i)) + k)
      = (blockFor s ord0 i).get? k := by
  intro ord2
  induction ord2 with
  | nil =>
    intro i hi
    cases hi
  | cons a rest ih =>
    intro i hi k hk
    by_cases hai : a = i
    · subst hai
      have hp : (decide ¬(a = a)) = false := by simp
      simp only [List.takeWhile_cons, hp, Bool.false_eq_true, if_false, countEdges,
        List.map_nil, List.sum_nil, Nat.zero_add, List.map_cons, List.flatten_cons]
      exact List.get?_append hk
    · have hir : i ∈ rest := by
        rcases List.mem_cons.mp hi with h | h
        · exact absurd h.symm hai
        · exact h
      have hp : (decide ¬(a = i))= true := by simp [hai]
      simp only [List.takeWhile_cons, hp, if_true, countEdges_cons, List.map_cons,
        List.flatten_cons]
      rw [Nat.add_assoc]
      have hlen : (blockFor s ord0 a).length
          ≤ (findN s a).C.length + (countEdges s (rest.takeWhile (fun j => j ≠ i)) + k) := by
        rw [blockFor_length]
        omega
      rw [List.get?_append_right hlen]
      have harith : (findN s a).C.length
            + (countEdges s (rest.takeWhile (fun j => j ≠ i)) + k)
            - (blockFor s ord0 a).length
          = countEdges s (rest.takeWhile (fun j => j ≠ i)) + k := by
        rw [blockFor_length]
        omega
      rw [harith]
      exact ih i hir k hk

theorem block_le_total (s : Store) (ord0 : List Nat) :
    ∀ (ord2 : List Nat) (i : Nat), i ∈ ord2 →
    (findN s i).C.length ≤ ((ord2.map (blockFor s ord0)).flatten).length := by
  intro ord2
  induction ord2 with
  | nil =>
    intro i hi
    cases hi
  | cons a rest ih =>
    intro i hi
    simp only [List.map_cons, List.flatten_cons, List.length_append]
    rcases List.mem_cons.mp hi with rfl | h
    · rw [blockFor_length]
      omega
    · have := ih i h
      omega

theorem arrFind_scan (arr : List ArrayNode) (s : Store) (ord : List Nat) :
    ∀ (Csuf : List (Nat × Nat)) (pos : Nat) (b : Nat) (fuel : Nat),
    Csuf ≠ [] →
    Csuf.length ≤ fuel →
    (∀ j, j < Csuf.length → arr.get? (pos + j)
      = (mapLast (fun p isLast => entryFor s ord p.1 p.2 isLast) Csuf).get? j) →
    (childFind Csuf b = none → arrFind arr fuel pos b = none) ∧
    (∀ c, childFind Csuf b = some c →
      ∃ el, arrFind arr fuel pos b = some (entryFor s ord b c el)) := by
  intro Csuf
  induction Csuf with
  | nil =>
    intro pos b fuel hne
    exact absurd rfl hne
  | cons p rest ih =>
    intro pos b fuel _ hfuel hget
    obtain ⟨lbl, c⟩ := p
    cases fuel with
    | zero => simp at hfuel
    | succ f =>
      have hget0 : ∃ el0, arr.get? pos = some (entryFor s ord lbl c el0) ∧
          (rest = [] → el0 = true) ∧ (rest ≠ [] → el0 = false) := by
        have h0 := hget 0 (by simp)
        rw [Nat.add_zero] at h0
        cases rest with
        | nil =>
          refine ⟨true, ?_, ?_, ?_⟩
          · rw [h0]
            rfl
          · intro _
            rfl
          · intro h
            exact absurd rfl h
        | cons r rs =>
          refine ⟨false, ?_, ?_, ?_⟩
          · rw [h0]
            rfl
          · intro h
            simp at h
          · intro _
            rfl
      obtain ⟨el0, hpos0, hel1, hel2⟩ := hget0
      by_cases hlb : lbl = b
      · subst hlb
        constructor
        · intro hcf
          simp only [childFind, if_pos rfl] at hcf
          cases hcf
        · intro c2 hcf
          simp only [childFind, if_pos rfl] at hcf
          injection hcf with hc2
          subst hc2
          refine ⟨el0, ?_⟩
          simp only [arrFind, hpos0]
          have hB : (entryFor s ord lbl c el0).B = lbl := rfl
          rw [hB, if_pos rfl]
      · have hcf_skip : childFind ((lbl, c) :: rest) b = childFind rest b := by
          simp only [childFind, if_neg hlb]
        by_cases hrest : rest = []
        · constructor
          · intro _
            simp only [arrFind, hpos0]
            have hB : (entryFor s ord lbl c el0).B = lbl := rfl
            rw [hB, if_neg hlb]
            have hEOL : (entryFor s ord lbl c el0).EOL = el0 := rfl
            rw [hEOL, hel1 hrest]
            rfl
          · intro c2 hcf
            rw [hcf_skip, hrest] at hcf
            simp [childFind] at hcf
        · have hrne : rest ≠ [] := hrest
          obtain ⟨r, rs, hre⟩ : ∃ r rs, rest = r :: rs := by
            cases rest with
            | nil => exact absurd rfl hrne
            | cons r rs => exact ⟨r, rs, rfl⟩
          have hel0 : el0 = false := hel2 hrne
          subst hel0
          have hstep : arrFind arr (f + 1) pos b = arrFind arr f (pos + 1) b := by
            simp only [arrFind, hpos0]
            have hB : (entryFor s ord lbl c false).B = lbl := rfl
            rw [hB, if_neg hlb]
            have hEOL : (entryFor s ord lbl c false).EOL = false := rfl
            rw [hEOL]
            rfl
          have hget2 : ∀ j, j < rest.length → arr.get? (pos + 1 + j)
              = (mapLast (fun p isLast => entryFor s ord p.1 p.2 isLast) rest).get? j := by
            intro j hj
            have hthis := hget (j + 1) (by simp only [List.length_cons]; omega)
            rw [hre] at hthis ⊢
            have harith : pos + (j + 1) = pos + 1 + j := by omega
            rw [harith] at hthis
            rw [hthis]
            rfl
          have hrec := ih (pos + 1) b f hrne
            (by simp only [List.length_cons] at hfuel; omega) hget2
          rw [hcf_skip, hstep]
          exact hrec

theorem startIndex_head (s : Store) (tl : List Nat) :
    startIndex s (0 :: tl) 0 = 0 := by
  show countEdges s (((0 : Nat) :: tl).takeWhile (fun i => i ≠ 0)) = 0
  have hp : (decide ¬((0 : Nat) = 0)) = false := by simp
  simp [List.takeWhile_cons, hp, countEdges]

theorem startIndex_pos (s : Store) (tl : List Nat) (c : Nat)
    (hc : c ≠ 0) (hroot : (findN s 0).C ≠ []) :
    startIndex s (0 :: tl) c ≠ 0 := by
  show countEdges s (((0 : Nat) :: tl).takeWhile (fun i => i ≠ c)) ≠ 0
  have h0c : ¬((0 : Nat) = c) := fun h => hc h.symm
  have hp : (decide ¬((0 : Nat) = c)) = true := by simp [h0c]
  simp only [List.takeWhile_cons, hp, if_true, countEdges_cons]
  have := List.length_pos.mpr hroot
  omega

theorem arrLookup_walk (s : Store) (tl : List Nat)
    (hclosure : ∀ p ∈ (0 : Nat) :: tl, ∀ q ∈ (findN s p).C, q.2 ∈ (0 : Nat) :: tl)
    (hnz : ∀ p ∈ (0 : Nat) :: tl, ∀ q ∈ (findN s p).C, q.2 ≠ 0)
    (hroot : (findN s 0).C ≠ []) :
    ∀ (bs : List Nat) (b : Nat) (i : Nat), i ∈ (0 : Nat) :: tl →
      (findN s i).C ≠ [] →
      arrLookupFrom (specFlatten s ((0 : Nat) :: tl))
          (startIndex s ((0 : Nat) :: tl) i) (b :: bs)
        = lookupFrom s i (b :: bs) := by
  intro bs
  induction bs with
  | nil =>
    intro b i hi hCi
    obtain ⟨hnone, hsome⟩ := arrFind_scan (specFlatten s ((0 : Nat) :: tl)) s
      ((0 : Nat) :: tl) (findN s i).C (startIndex s ((0 : Nat) :: tl) i) b
      ((specFlatten s ((0 : Nat) :: tl)).length + 1) hCi
      (by
        have h2 := block_le_total s ((0 : Nat) :: tl) ((0 : Nat) :: tl) i hi
        show (findN s i).C.length ≤ (specFlatten s ((0 : Nat) :: tl)).length + 1
        simp only [specFlatten]
        omega)
      (fun j hj => by
        have h3 := flat_get s ((0 : Nat) :: tl) ((0 : Nat) :: tl) i hi j
          (by rw [blockFor_length]; exact hj)
        exact h3)
    simp only [arrLookupFrom, lookupFrom]
    cases hcf : childFind (findN s i).C b with
    | none =>
      rw [hnone hcf]
    | some c =>
      obtain ⟨el, hfind⟩ := hsome c hcf
      rw [hfind]
      rfl
  | cons b2 bs2 ih =>
    intro b i hi hCi
    obtain ⟨hnone, hsome⟩ := arrFind_scan (specFlatten s ((0 : Nat) :: tl)) s
      ((0 : Nat) :: tl) (findN s i).C (startIndex s ((0 : Nat) :: tl) i) b
      ((specFlatten s ((0 : Nat) :: tl)).length + 1) hCi
      (by
        have h2 := block_le_total s ((0 : Nat) :: tl) ((0 : Nat) :: tl) i hi
        show (findN s i).C.length ≤ (specFlatten s ((0 : Nat) :: tl)).length + 1
        simp only [specFlatten]
        omega)
      (fun j hj => by
        have h3 := flat_get s ((0 : Nat) :: tl) ((0 : Nat) :: tl) i hi j
          (by rw [blockFor_length]; exact hj)
        exact h3)
    simp only [arrLookupFrom, lookupFrom]
    cases hcf : childFind (findN s i).C b with
    | none =>
      rw [hnone hcf]
    | some c =>
      obtain ⟨el, hfind⟩ := hsome c hcf
      rw [hfind]
      have hcmem : c ∈ (0 : Nat) :: tl := hclosure i hi (b, c) (childFind_mem hcf)
      have hcnz : c ≠ 0 := hnz i hi (b, c) (childFind_mem hcf)
      show (if (entryFor s ((0 : Nat) :: tl) b c el).Index = 0 then false
          else arrLookupFrom (specFlatten s ((0 : Nat) :: tl))
            (entryFor s ((0 : Nat) :: tl) b c el).Index (b2 :: bs2))
        = lookupFrom s c (b2 :: bs2)
      by_cases hCc : (findN s c).C = []
      · have hIdx : (entryFor s ((0 : Nat) :: tl) b c el).Index = 0 := by
          simp [entryFor, hCc]
        rw [hIdx]
        simp only [if_pos rfl]
        simp [lookupFrom, hCc, childFind]
      · have hIdx : (entryFor s ((0 : Nat) :: tl) b c el).Index
            = startIndex s ((0 : Nat) :: tl) c := by
          simp [entryFor, hCc]
        rw [hIdx]
        rw [if_neg (startIndex_pos s tl c hcnz hroot)]
        exact ih b2 c hcmem hCc

/-- C8: on every finished automaton, the array-based traversal of the
flattened form agrees with node-based `Lookup` on every word. -/
theorem flatten_lookup_agree {ws : List (List Nat)} {d : DAWG}
    (h : buildFinish ws = some d) :
    ∀ w, arrLookup (flattenGo d) w = lookupGo d w := by
  have hI : Inv ws d := (buildFinish_inv h).1
  obtain ⟨hC9, hnodup, hclosure, hnz, h0mem, hhead⟩ := bfs_facts hI
  obtain ⟨tl, htl⟩ : ∃ tl, bfsOrder d = 0 :: tl := by
    cases ho : bfsOrder d with
    | nil =>
      rw [ho] at hhead
      cases hhead
    | cons a tl =>
      rw [ho] at hhead
      simp only [List.head?] at hhead
      injection hhead with hh
      rw [← hh]
      exact ⟨tl, rfl⟩
  rw [htl] at hC9 hclosure hnz
  intro w
  rw [hC9]
  cases w with
  | nil =>
    simp [arrLookup, arrLookupFrom, lookupGo, lookupFrom, hI.rootF]
  | cons b bs =>
    by_cases hroot : (findN d.nodes 0).C = []
    · have hord : bfsOrder d = [0] := by
        show bfsAux d.nodes (d.nodes.length + 1) [] [0] [] = [0]
        have hstep : bfsAux d.nodes (d.nodes.length + 1) [] [0] []
            = bfsAux d.nodes d.nodes.length
              (pushChildren [] [] ((findN d.nodes 0).C.map (·.2))).1
              (pushChildren [] [] ((findN d.nodes 0).C.map (·.2))).2 [0] := rfl
        rw [hstep, hroot]
        simp only [List.map_nil, pushChildren]
        cases hn : d.nodes.length with
        | zero => rfl
        | succ m => rfl
      rw [hord] at htl
      injection htl with _ htl2
      subst htl2
      have harr : specFlatten d.nodes [(0 : Nat)] = [] := by
        simp [specFlatten, blockFor, hroot, mapLast]
      rw [harr]
      simp [arrLookup, arrLookupFrom, arrFind, lookupGo, lookupFrom, hroot, childFind]
    · have := arrLookup_walk d.nodes tl hclosure hnz hroot bs b 0 (by simp) hroot
      rw [startIndex_head] at this
      exact this

/-- C8 witness: on the finished automaton for `{"a","ab"}` the array
traversal and `Lookup` agree on members and non-members. -/
theorem flatten_lookup_agree_witness :
    (arrLookup (flattenGo ((buildFinish [[97], [97, 98]]).get (by decide))) [97]
      = lookupGo ((buildFinish [[97], [97, 98]]).get (by decide)) [97]) ∧
    (arrLookup (flattenGo ((buildFinish [[97], [97, 98]]).get (by decide))) [98]
      = lookupGo ((buildFinish [[97], [97, 98]]).get (by decide)) [98]) := by
  have hb : buildFinish [[97], [97, 98]]
      = some ((buildFinish [[97], [97, 98]]).get (by decide)) :=
    (Option.some_get _).symm
  exact ⟨flatten_lookup_agree hb [97], flatten_lookup_agree hb [98]⟩

/-! ## Claim C3: `LookupPrefix` drops the prefix -/

/-- C3 evaluation: after inserting `{"a","are","as","at"}` and finishing,
`LookupPrefix("a")` returns `("", true)` — the accumulated completion
suffix only, not a member of the set beginning with the prefix, although
the code's own doc comment says "Lookup returns the word if it is found". -/
theorem lookupPfx_returns_suffix_only :
    ∃ d, buildFinish [[97], [97, 114, 101], [97, 115], [97, 116]] = some d ∧
      lookupPfxGo 9 d [97] = some ([], true) ∧
      lookupPfxGo 9 d [97, 114] = some ([101], true) ∧
      lookupGo d [97] = true ∧ lookupGo d [] = false := by
  refine ⟨(buildFinish [[97], [97, 114, 101], [97, 115], [97, 116]]).get (by decide), ?_, ?_, ?_, ?_, ?_⟩
  · exact (Option.some_get _).symm
  all_goals decide

end DawgGo
